import Mathlib

/-!
# Verification of `mdigger/tools`

The Go sources embedded here are `map.go` (type `Map[K, V]` and its methods),
`func.go` (`Try`, `Async`), `empty.go` (`Empty`), `slice.go` (`Max`, `Min`, `Nth`,
`Unique`) and `str.go` (`Len`, `Truncate`).

## Modelling conventions

* A Go value of type `map[K]V` is a *reference*: either `nil` or the address of
  a map object.  Map objects live in a `Heap`; the address of an object is its
  index in `Heap.cells`.  A reference is an `Option Nat`, `none` being `nil`.
* The contents of a map object is a list of entries.  The position of an
  entry in the list carries no meaning: every `range` statement takes an
  `IterOrder`, an arbitrary permutation of the entries, standing for Go's
  unspecified iteration order.
* Keys are compared as Go compares them (`keyEq`): two keys are equal when they
  are the same value and that value is equal to itself (`GoKey.selfEq`).  A
  floating-point `NaN` differs from itself: an entry stored under it is never
  found, overwritten or deleted, and every assignment under it adds an entry.
  `Float64` is the key type of the statements about `NaN`.
* Go map objects hold at most one entry per key that is equal to itself; this
  is the predicate `KeysNodup`, preserved by every primitive.
* The zero value of `V` is `default` of `Inhabited V`.
* A run-time panic is the `error` case of `Except Panic`.
* Every method of `Map` runs its whole body between `mu.Lock()`/`mu.RLock()`
  and the matching unlock, so, executed one call at a time, the lock has no
  observable effect and is left out of the state of the sequential methods.
  The sections on goroutines model the lock and run the bodies statement by
  statement under an arbitrary schedule.
* The Go type `int` has 64 bits; its arithmetic wraps around (`wrapInt`).
* A string is the list of its runes.  The tables of the package `unicode` are a
  parameter of `Truncate`; `unicode.IsSpace` is written out.
* Goroutines are small state machines stepped by a schedule, a list of the
  goroutines chosen to move; a goroutine that is blocked does not move.
-/

namespace Tools

/-! ## Go map primitives -/

/-- Run-time panics raised by the embedded code. -/
inductive Panic where
  /-- Go: `panic: assignment to entry in nil map`. -/
  | assignmentToEntryInNilMap
  /-- Go: `panic: runtime error: index out of range`. -/
  | indexOutOfRange
  /-- The explicit `panic(fmt.Sprintf("nth: %d out of slice bounds", n))` of `Nth`. -/
  | nthOutOfSliceBounds (n : Int)
deriving DecidableEq, Repr

deriving instance DecidableEq for Except

/-- A Go key type (a `comparable` type).  `DecidableEq K` tells the values of the
type apart, two numbers that `==` holds equal being one value; `selfEq k` tells
whether `k == k` holds in Go.  It fails exactly for a floating-point NaN (and
for a struct or array that holds one), which `==` holds different from itself. -/
class GoKey (K : Type) where
  selfEq : K → Bool

instance : GoKey Nat := ⟨fun _ => true⟩

instance : GoKey Int := ⟨fun _ => true⟩

instance : GoKey String := ⟨fun _ => true⟩

/-- A `float64` as `==` sees it: the not-a-number value, or a number (here the
integers among them). -/
inductive Float64 where
  | nan
  | num (x : Int)
deriving DecidableEq, Repr

instance : GoKey Float64 :=
  ⟨fun k => match k with
    | .nan => false
    | .num _ => true⟩

/-- Go `a == b` on keys: the same value, and one that equals itself. -/
def keyEq {K : Type} [DecidableEq K] [GoKey K] (a b : K) : Bool :=
  decide (a = b) && GoKey.selfEq a

/-- Entry lookup in the contents of a map object: the value stored under a key
that `==` holds equal to `k`, if any. -/
def lookupKey {K V : Type} [DecidableEq K] [GoKey K] : List (K × V) → K → Option V
  | [], _ => none
  | (k', v') :: t, k => if keyEq k' k then some v' else lookupKey t k

/-- Entry assignment in the contents of a map object: overwrite the entry whose
key `==` holds equal to `k` if there is one, add a new entry otherwise. -/
def assignKey {K V : Type} [DecidableEq K] [GoKey K] : List (K × V) → K → V → List (K × V)
  | [], k, v => [(k, v)]
  | (k', v') :: t, k, v => if keyEq k' k then (k', v) :: t else (k', v') :: assignKey t k v

/-- Entry removal in the contents of a map object: drop the entry whose key `==`
holds equal to `k`. -/
def deleteKey {K V : Type} [DecidableEq K] [GoKey K] (l : List (K × V)) (k : K) :
    List (K × V) :=
  l.filter (fun e => !keyEq e.1 k)

/-- The invariant of a map object: at most one entry for each key that equals
itself.  (Keys that differ from themselves can be held by any number of entries.) -/
def KeysNodup {K V : Type} [GoKey K] (l : List (K × V)) : Prop :=
  ((l.map Prod.fst).filter GoKey.selfEq).Nodup

instance {K V : Type} [DecidableEq K] [GoKey K] (l : List (K × V)) : Decidable (KeysNodup l) :=
  inferInstanceAs (Decidable ((l.map Prod.fst).filter GoKey.selfEq).Nodup)

/-- The heap of map objects; the address of an object is its index in `cells`. -/
structure Heap (K V : Type) where
  cells : List (List (K × V))
deriving DecidableEq, Repr

/-- Every map object of the heap has pairwise distinct keys. -/
def Heap.WF {K V : Type} [GoKey K] (h : Heap K V) : Prop :=
  ∀ l ∈ h.cells, KeysNodup l

instance {K V : Type} [DecidableEq K] [GoKey K] (h : Heap K V) : Decidable h.WF :=
  inferInstanceAs (Decidable (∀ l ∈ h.cells, KeysNodup l))

/-- The reference `r` is `nil` or the address of an allocated map object. -/
def Heap.Allocated {K V : Type} (h : Heap K V) (r : Option Nat) : Prop :=
  ∀ a ∈ r, a < h.cells.length

instance {K V : Type} (h : Heap K V) (r : Option Nat) : Decidable (h.Allocated r) :=
  inferInstanceAs (Decidable (∀ a ∈ r, a < h.cells.length))

/-- The entries seen through a reference; a `nil` map reads as an empty map. -/
def Heap.contents {K V : Type} (h : Heap K V) (r : Option Nat) : List (K × V) :=
  match r with
  | none => []
  | some a => h.cells.getD a []

/-- Go `make(map[K]V)`: allocate a fresh, empty map object and return its address. -/
def makemap {K V : Type} (h : Heap K V) : Heap K V × Nat :=
  (⟨h.cells ++ [[]]⟩, h.cells.length)

/-- Go `v, ok := r[k]`; never panics, also on a `nil` map. -/
def mapaccess {K V : Type} [DecidableEq K] [GoKey K] (h : Heap K V) (r : Option Nat) (k : K) : Option V :=
  lookupKey (h.contents r) k

/-- Go `r[k] = v`; panics on a `nil` map. -/
def mapassign {K V : Type} [DecidableEq K] [GoKey K] (h : Heap K V) (r : Option Nat) (k : K) (v : V) :
    Except Panic (Heap K V) :=
  match r with
  | none => .error .assignmentToEntryInNilMap
  | some a => .ok ⟨h.cells.set a (assignKey (h.cells.getD a []) k v)⟩

/-- Go `delete(r, k)`; a no-op on a `nil` map and on an absent key. -/
def mapdelete {K V : Type} [DecidableEq K] [GoKey K] (h : Heap K V) (r : Option Nat) (k : K) : Heap K V :=
  match r with
  | none => h
  | some a => ⟨h.cells.set a (deleteKey (h.cells.getD a []) k)⟩

/-- Go `len(r)`. -/
def maplen {K V : Type} (h : Heap K V) (r : Option Nat) : Nat :=
  (h.contents r).length

/-- One choice of Go's unspecified iteration order: a permutation of the entries. -/
structure IterOrder (K V : Type) where
  shuffle : List (K × V) → List (K × V)
  perm : ∀ l, (shuffle l).Perm l

/-- Iteration in storage order. -/
def IterOrder.stored {K V : Type} : IterOrder K V :=
  ⟨fun l => l, fun l => List.Perm.refl l⟩

/-- Iteration in reverse storage order. -/
def IterOrder.reversed {K V : Type} : IterOrder K V :=
  ⟨List.reverse, fun l => List.reverse_perm l⟩

/-- The entries a `for k, v := range r` statement goes through, in order. -/
def mapiter {K V : Type} (o : IterOrder K V) (h : Heap K V) (r : Option Nat) : List (K × V) :=
  o.shuffle (h.contents r)

/-! ## `map.go` -/

/-- Go `type Map[K comparable, V any] struct { m map[K]V; mu sync.RWMutex }`. -/
structure Map where
  m : Option Nat
deriving DecidableEq, Repr

/-- The zero state of a `Map` declared without initialisation. -/
def Map.zero : Map := ⟨none⟩

/-- Go `NewMap`: wrap an existing map. -/
def NewMap (m : Option Nat) : Map := ⟨m⟩

/-- Go `(*Map).Get`. -/
def Map.Get {K V : Type} [DecidableEq K] [GoKey K] [Inhabited V] (h : Heap K V) (m : Map) (key : K) : V :=
  match mapaccess h m.m key with
  | some value => value
  | none => default

/-- Go `(*Map).Load`. -/
def Map.Load {K V : Type} [DecidableEq K] [GoKey K] [Inhabited V] (h : Heap K V) (m : Map) (key : K) :
    V × Bool :=
  match mapaccess h m.m key with
  | some value => (value, true)
  | none => (default, false)

/-- Go `(*Map).Store`: allocate the map on first use, then assign. -/
def Map.Store {K V : Type} [DecidableEq K] [GoKey K] (h : Heap K V) (m : Map) (key : K) (value : V) :
    Except Panic (Heap K V × Map) :=
  let s : Heap K V × Map :=
    if m.m = none then ((makemap h).1, ⟨some (makemap h).2⟩) else (h, m)
  match mapassign s.1 s.2.m key value with
  | .ok h' => .ok (h', s.2)
  | .error e => .error e

/-- Go `(*Map).Delete`. -/
def Map.Delete {K V : Type} [DecidableEq K] [GoKey K] (h : Heap K V) (m : Map) (key : K) : Heap K V :=
  mapdelete h m.m key

/-- The loop of `Range`: call `f` on the entries in turn, stop after the first
call that returns `false`.  The callback threads its own state `σ`. -/
def rangeLoop {K V σ : Type} (f : σ → K → V → σ × Bool) : List (K × V) → σ → σ
  | [], s => s
  | (key, value) :: rest, s =>
    if !(f s key value).2 then (f s key value).1 else rangeLoop f rest (f s key value).1

/-- Go `(*Map).Range`; returns the heap it leaves and the callback's final state. -/
def Map.Range {K V σ : Type} (o : IterOrder K V) (h : Heap K V) (m : Map)
    (f : σ → K → V → σ × Bool) (s : σ) : Heap K V × σ :=
  (h, rangeLoop f (mapiter o h m.m) s)

/-- Go `(*Map).Keys`. -/
def Map.Keys {K V : Type} (o : IterOrder K V) (h : Heap K V) (m : Map) : List K :=
  (mapiter o h m.m).foldl (fun r e => r ++ [e.1]) []

/-- Go `(*Map).Values`. -/
def Map.Values {K V : Type} (o : IterOrder K V) (h : Heap K V) (m : Map) : List V :=
  (mapiter o h m.m).foldl (fun r e => r ++ [e.2]) []

/-- Go `(*Map).Clear`: delete every key met while ranging over the map.  Each step
removes only the entry it is visiting, so the loop meets every entry that the
map held when it started. -/
def Map.Clear {K V : Type} [DecidableEq K] [GoKey K] (o : IterOrder K V) (h : Heap K V) (m : Map) :
    Heap K V :=
  (mapiter o h m.m).foldl (fun h' e => mapdelete h' m.m e.1) h

/-- The loop `for k, v := range ... { dst[k] = v }` shared by `Copy` and `Merge`. -/
def assignAll {K V : Type} [DecidableEq K] [GoKey K] (dst : Option Nat) :
    List (K × V) → Heap K V → Except Panic (Heap K V)
  | [], h => .ok h
  | (k, v) :: rest, h =>
    match mapassign h dst k v with
    | .ok h' => assignAll dst rest h'
    | .error e => .error e

/-- Go `(*Map).Copy`: `nil` for a `nil` map, else a fresh map with the same entries. -/
def Map.Copy {K V : Type} [DecidableEq K] [GoKey K] (o : IterOrder K V) (h : Heap K V) (m : Map) :
    Except Panic (Heap K V × Option Nat) :=
  if m.m ≠ none then
    match assignAll (some (makemap h).2) (mapiter o (makemap h).1 m.m) (makemap h).1 with
    | .ok h' => .ok (h', some (makemap h).2)
    | .error e => .error e
  else .ok (h, none)

/-- Go `(*Map).Merge`: assign every entry of `src` into `m.m`, with no `nil` check.
The loop goes through the entries `src` holds when it starts: when `src` is the
map of the container itself, each assignment overwrites an existing key with
the value it already has and adds no entry. -/
def Map.Merge {K V : Type} [DecidableEq K] [GoKey K] (o : IterOrder K V) (h : Heap K V) (m : Map)
    (src : Option Nat) : Except Panic (Heap K V) :=
  assignAll m.m (mapiter o h src) h

/-! ## `func.go` -/

/-- How a call of a Go `func() error` ends: it returns an error value (`none` is
the `nil` error) or it panics with a value (`none` is `panic(nil)`). -/
inductive Outcome (E P : Type) where
  | returns (err : Option E)
  | panics (value : Option P)

/-- Go `recover()` called from a deferred function: on a panicking goroutine it
yields the panic value and stops the panic, otherwise it yields `nil`.  After
`panic(nil)` it yields `nil` as well (the behaviour before Go 1.21, the only
case in which `Try` does not run `ok = false`). -/
def recover {P : Type} (panicking : Option (Option P)) : Option P × Option (Option P) :=
  match panicking with
  | none => (none, none)
  | some value => (value, none)

/-- Go `Try`.  The named result `ok` starts as `false`; `return f() == nil` sets
it when `f` returns; the deferred function then runs `recover()` and resets `ok`
when the recovered value is not `nil`.  The result is `error` when a panic is
still in flight after the deferred call. -/
def Try {E P : Type} (f : Unit → Outcome E P) : Except (Option P) Bool :=
  let body : Bool × Option (Option P) :=
    match f () with
    | .returns err => (err.isNone, none)
    | .panics value => (false, some value)
  let r := recover body.2
  let ok := if r.1.isSome then false else body.1
  match r.2 with
  | none => .ok ok
  | some value => .error value

/-! ## Sequences of mutating calls and instrumented callbacks -/

/-- One mutating call on a `Map`: `Store`, `Delete`, `Clear` or `Merge`, with the
iteration order its `range` statement takes. -/
inductive Op (K V : Type) where
  | store (key : K) (value : V)
  | delete (key : K)
  | clear (o : IterOrder K V)
  | merge (o : IterOrder K V) (src : Option Nat)

/-- Run one mutating call on the container `m` in the heap `h`. -/
def Op.apply {K V : Type} [DecidableEq K] [GoKey K] :
    Op K V → Heap K V × Map → Except Panic (Heap K V × Map)
  | .store key value, s => Map.Store s.1 s.2 key value
  | .delete key, s => .ok (Map.Delete s.1 s.2 key, s.2)
  | .clear o, s => .ok (Map.Clear o s.1 s.2, s.2)
  | .merge o src, s =>
    match Map.Merge o s.1 s.2 src with
    | .ok h' => .ok (h', s.2)
    | .error e => .error e

/-- Run a sequence of mutating calls, one after the other; a panic ends the run. -/
def runOps {K V : Type} [DecidableEq K] [GoKey K] :
    List (Op K V) → Heap K V × Map → Except Panic (Heap K V × Map)
  | [], s => .ok s
  | op :: rest, s =>
    match op.apply s with
    | .ok s' => runOps rest s'
    | .error e => .error e

/-- The callback `f` instrumented to record each call it receives: the key, the
value and the boolean it returned, in call order. -/
def logCalls {K V σ : Type} (f : σ → K → V → σ × Bool) :
    σ × List (K × V × Bool) → K → V → (σ × List (K × V × Bool)) × Bool :=
  fun s key value =>
    (((f s.1 key value).1, s.2 ++ [(key, value, (f s.1 key value).2)]), (f s.1 key value).2)

/-! ## Go `int` and slices -/

/-- The value a mathematical integer takes as a 64-bit Go `int`: two's-complement
wrap-around.  It is the identity on the values of `int`. -/
def wrapInt (x : Int) : Int :=
  (x + 2 ^ 63) % 2 ^ 64 - 2 ^ 63

/-- The values of the 64-bit Go type `int`. -/
def IsInt (x : Int) : Prop :=
  -2 ^ 63 ≤ x ∧ x < 2 ^ 63

instance (x : Int) : Decidable (IsInt x) :=
  inferInstanceAs (Decidable (-2 ^ 63 ≤ x ∧ x < 2 ^ 63))

/-- Go `xs[i]` on a slice, with its bounds check. -/
def index {T : Type} (xs : List T) (i : Int) : Except Panic T :=
  if 0 ≤ i then
    match xs[i.toNat]? with
    | some x => .ok x
    | none => .error .indexOutOfRange
  else .error .indexOutOfRange

/-! ## `empty.go` and `slice.go` -/

/-- Go `Empty`: the zero value of the type. -/
def Empty {T : Type} [Inhabited T] : T := default

/-- Go `Max`. -/
def Max {T : Type} [LinearOrder T] [Inhabited T] (elems : List T) : T :=
  match elems with
  | [] => Empty
  | [x] => x
  | x :: rest => rest.foldl (fun max item => if item > max then item else max) x

/-- Go `Min`. -/
def Min {T : Type} [LinearOrder T] [Inhabited T] (elems : List T) : T :=
  match elems with
  | [] => Empty
  | [x] => x
  | x :: rest => rest.foldl (fun min item => if item < min then item else min) x

/-- Go `Nth`.  The argument `nth` is the mathematical value of the index, of
whatever integer type `N` it has; `int(nth)` is `wrapInt nth`. -/
def Nth {T : Type} (nth : Int) (collection : List T) : Except Panic T :=
  let n := wrapInt nth
  let l : Int := collection.length
  if n ≥ l ∨ wrapInt (-n) > l then .error (.nthOutOfSliceBounds n)
  else if n ≥ 0 then index collection n
  else index collection (wrapInt (l + n))

/-- Go `Unique`.  The loop state is the local map `exist`, held as the entries of
one map object, and the slice `result`. -/
def Unique {T : Type} [DecidableEq T] [GoKey T] (items : List T) : List T :=
  (items.foldl (fun (st : List (T × Unit) × List T) item =>
    match lookupKey st.1 item with
    | some _ => st
    | none => (assignKey st.1 item (), st.2 ++ [item])) ([], [])).2

/-! ## `str.go` -/

/-- The tables of Go's package `unicode` that `Truncate` consults, one membership
test per general category.  They belong to the Go standard library and are
taken as a parameter. -/
structure UnicodeTables where
  Z : Char → Bool
  Pd : Char → Bool
  Pe : Char → Bool
  Pf : Char → Bool
  Pi : Char → Bool
  Po : Char → Bool
  Ps : Char → Bool

/-- The seven tables restricted to ASCII: every character beyond U+007F is
reported in no category. -/
def UnicodeTables.ascii : UnicodeTables where
  Z := fun r => r == ' '
  Pd := fun r => r == '-'
  Pe := fun r => r == ')' || r == ']' || r == '}'
  Pf := fun _ => false
  Pi := fun _ => false
  Po := fun r => "!\"#%&*,./:;?@\\".toList.contains r || r == Char.ofNat 39
  Ps := fun r => r == '(' || r == '[' || r == '{'

/-- Go `unicode.IsSpace`, which `strings.TrimSpace` trims by: the Latin-1 white
space and the code points with the Unicode property `White_Space`. -/
def IsSpace (r : Char) : Bool :=
  let c := r.toNat
  c == 0x09 || c == 0x0A || c == 0x0B || c == 0x0C || c == 0x0D || c == 0x20 ||
  c == 0x85 || c == 0xA0 || c == 0x1680 || (0x2000 ≤ c && c ≤ 0x200A) ||
  c == 0x2028 || c == 0x2029 || c == 0x202F || c == 0x205F || c == 0x3000

/-- Go `strings.TrimSpace` on the runes of a string. -/
def TrimSpace (s : List Char) : List Char :=
  ((s.dropWhile IsSpace).reverse.dropWhile IsSpace).reverse

/-- Go `Len`: the number of runes of the string. -/
def Len (s : List Char) : Nat := s.length

/-- The ellipsis U+2026 that `Truncate` appends. -/
def ellipsis : Char := Char.ofNat 0x2026

/-- Go `unicode.In(r, unicode.Z, unicode.Pd, unicode.Pe, unicode.Pf, unicode.Po)`:
the test that ends the first loop of `Truncate`. -/
def endsWord (U : UnicodeTables) (r : Char) : Bool :=
  U.Z r || U.Pd r || U.Pe r || U.Pf r || U.Po r

/-- The test that ends the second loop of `Truncate`: `r` is one of `!`, `?`,
U+2048, `;`, or `r` is not in `unicode.In(r, Z, Pd, Pi, Ps, Po)`. -/
def endsGap (U : UnicodeTables) (r : Char) : Bool :=
  (r == '!' || r == '?' || r == Char.ofNat 0x2048 || r == ';') ||
    !(U.Z r || U.Pd r || U.Pi r || U.Ps r || U.Po r)

/-- The iterations of `for i := ...; i >= 0; i-- { if stop(runes[i]) { break };
max = i }` from the loop variable `i` down; the first argument is `i + 1`, so
`0` is the exit `i < 0`. -/
def scanFrom (stop : Char → Bool) (runes : List Char) : Nat → Int → Except Panic Int
  | 0, max => .ok max
  | i + 1, max =>
    match runes[i]? with
    | none => .error .indexOutOfRange
    | some r => if stop r then .ok max else scanFrom stop runes i (i : Int)

/-- One loop of `Truncate`, entered with `i := start`; it returns the final `max`. -/
def scanBack (stop : Char → Bool) (runes : List Char) (start max : Int) : Except Panic Int :=
  if start < 0 then .ok max else scanFrom stop runes (start.toNat + 1) max

/-- Go `Truncate`, on the runes of the string. -/
def Truncate (U : UnicodeTables) (s : List Char) (max : Int) : Except Panic (List Char) :=
  let runes := TrimSpace s
  if (runes.length : Int) ≤ max then .ok runes
  else
    match scanBack (endsWord U) runes (wrapInt (max - 1)) max with
    | .error e => .error e
    | .ok max₁ =>
      match scanBack (endsGap U) runes (wrapInt (max₁ - 1)) max₁ with
      | .error e => .error e
      | .ok max₂ =>
        if 0 ≤ max₂ ∧ max₂ < runes.length then
          .ok ((runes.set max₂.toNat ellipsis).take (max₂.toNat + 1))
        else .error .indexOutOfRange

/-! ## Channels and the goroutine of `Async` -/

/-- A Go channel: its capacity, the values buffered in it, and whether it is closed. -/
structure Chan (T : Type) where
  cap : Nat
  buf : List T
  closed : Bool

/-- Go `make(chan T, cap)`; `make(chan T)` is `makechan 0`, an unbuffered channel. -/
def makechan {T : Type} (cap : Nat) : Chan T :=
  ⟨cap, [], false⟩

/-- Control state of the goroutine `go func() { defer close(ch); ch <- f() }()`
that `Async` starts. -/
inductive Producer (T : Type) where
  /-- About to evaluate `f()`. -/
  | calling (f : Unit → T)
  /-- The call `f()` returned `v`; about to execute `ch <- v`. -/
  | sending (v : T)
  /-- Blocked in `ch <- v`: no receiver is waiting and the buffer has no room. -/
  | parked (v : T)
  /-- The send is done; the deferred `close(ch)` is next. -/
  | closing
  /-- The goroutine has returned. -/
  | done
  /-- The goroutine panicked (send on, or close of, a closed channel). -/
  | panicked

/-- The caller of `Async`: it goes on to perform `todo` receives `v, ok := <-ch`,
is `parked` while blocked in one, and has `got` the results of those completed. -/
structure Receiver (T : Type) where
  todo : Nat
  parked : Bool
  got : List (T × Bool)

/-- The channel, the goroutine started by `Async`, and the caller. -/
structure AsyncState (T : Type) where
  ch : Chan T
  producer : Producer T
  receiver : Receiver T

/-- Go `Async`: make the channel, start the goroutine, return the channel. -/
def Async {T : Type} (f : Unit → T) : Chan T × Producer T :=
  (makechan 0, .calling f)

/-- The state right after `Async(f)` returns to a caller that will perform
`receives` receives on the channel. -/
def AsyncState.init {T : Type} (f : Unit → T) (receives : Nat) : AsyncState T :=
  ⟨(Async f).1, (Async f).2, ⟨receives, false, []⟩⟩

/-- One step of the goroutine of `Async`.  The send follows the Go runtime: it
panics on a closed channel, hands the value to a waiting receiver, else puts it
in the buffer if there is room, else blocks.  A blocked goroutine does not move.
The close wakes a waiting receiver with the zero value and `false`. -/
def stepProducer {T : Type} [Inhabited T] (s : AsyncState T) : AsyncState T :=
  match s.producer with
  | .calling f => ⟨s.ch, .sending (f ()), s.receiver⟩
  | .sending v =>
    if s.ch.closed then ⟨s.ch, .panicked, s.receiver⟩
    else if s.receiver.parked then
      ⟨s.ch, .closing, ⟨s.receiver.todo - 1, false, s.receiver.got ++ [(v, true)]⟩⟩
    else if s.ch.buf.length < s.ch.cap then
      ⟨⟨s.ch.cap, s.ch.buf ++ [v], s.ch.closed⟩, .closing, s.receiver⟩
    else ⟨s.ch, .parked v, s.receiver⟩
  | .parked _ => s
  | .closing =>
    if s.ch.closed then ⟨s.ch, .panicked, s.receiver⟩
    else if s.receiver.parked then
      ⟨⟨s.ch.cap, s.ch.buf, true⟩, .done,
        ⟨s.receiver.todo - 1, false, s.receiver.got ++ [(default, false)]⟩⟩
    else ⟨⟨s.ch.cap, s.ch.buf, true⟩, .done, s.receiver⟩
  | .done => s
  | .panicked => s

/-- One step of the caller: its next receive `v, ok := <-ch`.  The receive
follows the Go runtime: on a closed and drained channel it yields the zero value
and `false`; it takes the value of a blocked sender; else it takes the head of
the buffer; else it blocks.  A blocked caller, or one with no receive left, does
not move. -/
def stepReceiver {T : Type} [Inhabited T] (s : AsyncState T) : AsyncState T :=
  if s.receiver.todo = 0 ∨ s.receiver.parked = true then s
  else if s.ch.closed = true ∧ s.ch.buf.isEmpty = true then
    ⟨s.ch, s.producer, ⟨s.receiver.todo - 1, false, s.receiver.got ++ [(default, false)]⟩⟩
  else
    match s.producer, s.ch.buf with
    | .parked v, [] =>
      ⟨s.ch, .closing, ⟨s.receiver.todo - 1, false, s.receiver.got ++ [(v, true)]⟩⟩
    | .parked v, b :: rest =>
      ⟨⟨s.ch.cap, rest ++ [v], s.ch.closed⟩, .closing,
        ⟨s.receiver.todo - 1, false, s.receiver.got ++ [(b, true)]⟩⟩
    | _, b :: rest =>
      ⟨⟨s.ch.cap, rest, s.ch.closed⟩, s.producer,
        ⟨s.receiver.todo - 1, false, s.receiver.got ++ [(b, true)]⟩⟩
    | _, [] => ⟨s.ch, s.producer, ⟨s.receiver.todo, true, s.receiver.got⟩⟩

/-- The two goroutines the scheduler chooses between. -/
inductive Goroutine where
  | producer
  | receiver
deriving DecidableEq, Repr

/-- One scheduling step: the chosen goroutine moves if it can. -/
def step {T : Type} [Inhabited T] (g : Goroutine) (s : AsyncState T) : AsyncState T :=
  match g with
  | .producer => stepProducer s
  | .receiver => stepReceiver s

/-- Run a schedule, one choice of goroutine after the other. -/
def run {T : Type} [Inhabited T] (sched : List Goroutine) (s : AsyncState T) : AsyncState T :=
  sched.foldl (fun s g => step g s) s

/-- The states `Async(f)` goes through with a caller that performs two receives. -/
def TwoReceives {T : Type} [Inhabited T] (f : Unit → T) (s : AsyncState T) : Prop :=
  s = ⟨⟨0, [], false⟩, .calling f, ⟨2, false, []⟩⟩ ∨
  s = ⟨⟨0, [], false⟩, .calling f, ⟨2, true, []⟩⟩ ∨
  s = ⟨⟨0, [], false⟩, .sending (f ()), ⟨2, false, []⟩⟩ ∨
  s = ⟨⟨0, [], false⟩, .sending (f ()), ⟨2, true, []⟩⟩ ∨
  s = ⟨⟨0, [], false⟩, .parked (f ()), ⟨2, false, []⟩⟩ ∨
  s = ⟨⟨0, [], false⟩, .closing, ⟨1, false, [(f (), true)]⟩⟩ ∨
  s = ⟨⟨0, [], false⟩, .closing, ⟨1, true, [(f (), true)]⟩⟩ ∨
  s = ⟨⟨0, [], true⟩, .done, ⟨1, false, [(f (), true)]⟩⟩ ∨
  s = ⟨⟨0, [], true⟩, .done, ⟨0, false, [(f (), true), (default, false)]⟩⟩

/-- The states `Async(f)` goes through with a caller that never receives. -/
def NoReceive {T : Type} (f : Unit → T) (s : AsyncState T) : Prop :=
  s = ⟨⟨0, [], false⟩, .calling f, ⟨0, false, []⟩⟩ ∨
  s = ⟨⟨0, [], false⟩, .sending (f ()), ⟨0, false, []⟩⟩ ∨
  s = ⟨⟨0, [], false⟩, .parked (f ()), ⟨0, false, []⟩⟩

/-! ## Goroutines calling `Store`, `Delete` and `Load` on one `Map` -/

/-- A call of one of the methods `Store`, `Delete`, `Load`. -/
inductive Call (K V : Type) where
  | store (key : K) (value : V)
  | delete (key : K)
  | load (key : K)
deriving DecidableEq, Repr

/-- Where a goroutine stands in the method it is running. -/
inductive PC (K V : Type) where
  /-- Between two calls: the next step is `mu.Lock()` or `mu.RLock()` of the next call. -/
  | idle
  /-- The lock of the call `c` is held and its body has not started. -/
  | locked (c : Call K V)
  /-- In `Store`: the test `m.m == nil` was true; `m.m = make(map[K]V)` is next. -/
  | sawNil (key : K) (value : V)
  /-- In `Store`: `m.m[key] = value` is next. -/
  | assigning (key : K) (value : V)
  /-- The body is done; `mu.Unlock()` (`write`) or `mu.RUnlock()` is next. -/
  | unlocking (write : Bool)
  /-- The goroutine panicked inside the method, the lock still held. -/
  | panicked
deriving DecidableEq, Repr

/-- A goroutine: the calls it still has to make, its place in the current call,
and the results of its `Load` calls so far. -/
structure Worker (K V : Type) where
  todo : List (Call K V)
  pc : PC K V
  loaded : List (V × Bool)

/-- The lock `sync.RWMutex`: whether a writer holds it, and the goroutines that
hold it for reading (the mutex itself keeps their number). -/
structure RWMutex where
  writer : Bool
  readers : List Nat

/-- The shared state: the heap and the `Map`, its lock, the goroutines, and the
calls in the order in which their bodies took effect. -/
structure Shared (K V : Type) where
  heap : Heap K V
  m : Map
  mu : RWMutex
  workers : Nat → Worker K V
  history : List (Nat × Call K V)

/-- All goroutines about to start their programs `P` on the `Map` `m` in heap `h`. -/
def Shared.init {K V : Type} (h : Heap K V) (m : Map) (P : Nat → List (Call K V)) :
    Shared K V :=
  ⟨h, m, ⟨false, []⟩, fun i => ⟨P i, .idle, []⟩, []⟩

/-- Go `mu.Lock()` by goroutine `i` starting the call `c`: it goes through only
when nobody holds the lock; otherwise the goroutine stays where it is. -/
def lockWrite {K V : Type} (i : Nat) (s : Shared K V) (c : Call K V)
    (rest : List (Call K V)) : Shared K V :=
  if s.mu.writer = true ∨ s.mu.readers.isEmpty = false then s
  else ⟨s.heap, s.m, ⟨true, s.mu.readers⟩,
    Function.update s.workers i ⟨rest, .locked c, (s.workers i).loaded⟩, s.history⟩

/-- Go `mu.RLock()` by goroutine `i` starting the call `c`: it goes through only
when no writer holds the lock. -/
def lockRead {K V : Type} (i : Nat) (s : Shared K V) (c : Call K V)
    (rest : List (Call K V)) : Shared K V :=
  if s.mu.writer = true then s
  else ⟨s.heap, s.m, ⟨s.mu.writer, i :: s.mu.readers⟩,
    Function.update s.workers i ⟨rest, .locked c, (s.workers i).loaded⟩, s.history⟩

/-- One step of goroutine `i`: the next statement of the method it is in, as
written in `map.go`.  A goroutine that is blocked on the lock, has panicked or
has no call left does not move. -/
def stepWorker {K V : Type} [DecidableEq K] [GoKey K] [Inhabited V] (i : Nat) (s : Shared K V) :
    Shared K V :=
  match (s.workers i).pc with
  | .idle =>
    match (s.workers i).todo with
    | [] => s
    | .store key value :: rest => lockWrite i s (.store key value) rest
    | .delete key :: rest => lockWrite i s (.delete key) rest
    | .load key :: rest => lockRead i s (.load key) rest
  | .locked (.store key value) =>
    ⟨s.heap, s.m, s.mu,
      Function.update s.workers i
        ⟨(s.workers i).todo,
          if s.m.m = none then .sawNil key value else .assigning key value,
          (s.workers i).loaded⟩,
      s.history⟩
  | .sawNil key value =>
    ⟨(makemap s.heap).1, ⟨some (makemap s.heap).2⟩, s.mu,
      Function.update s.workers i
        ⟨(s.workers i).todo, .assigning key value, (s.workers i).loaded⟩,
      s.history⟩
  | .assigning key value =>
    match mapassign s.heap s.m.m key value with
    | .ok h' =>
      ⟨h', s.m, s.mu,
        Function.update s.workers i
          ⟨(s.workers i).todo, .unlocking true, (s.workers i).loaded⟩,
        s.history ++ [(i, .store key value)]⟩
    | .error _ =>
      ⟨s.heap, s.m, s.mu,
        Function.update s.workers i ⟨(s.workers i).todo, .panicked, (s.workers i).loaded⟩,
        s.history⟩
  | .locked (.delete key) =>
    ⟨mapdelete s.heap s.m.m key, s.m, s.mu,
      Function.update s.workers i
        ⟨(s.workers i).todo, .unlocking true, (s.workers i).loaded⟩,
      s.history ++ [(i, .delete key)]⟩
  | .locked (.load key) =>
    ⟨s.heap, s.m, s.mu,
      Function.update s.workers i
        ⟨(s.workers i).todo, .unlocking false,
          (s.workers i).loaded ++ [Map.Load s.heap s.m key]⟩,
      s.history ++ [(i, .load key)]⟩
  | .unlocking true =>
    ⟨s.heap, s.m, ⟨false, s.mu.readers⟩,
      Function.update s.workers i ⟨(s.workers i).todo, .idle, (s.workers i).loaded⟩,
      s.history⟩
  | .unlocking false =>
    ⟨s.heap, s.m, ⟨s.mu.writer, s.mu.readers.filter (fun j => decide (j ≠ i))⟩,
      Function.update s.workers i ⟨(s.workers i).todo, .idle, (s.workers i).loaded⟩,
      s.history⟩
  | .panicked => s

/-- Run the goroutines under a schedule: the list of the goroutines chosen to
take the next step, in order. -/
def runWorkers {K V : Type} [DecidableEq K] [GoKey K] [Inhabited V] (sched : List Nat)
    (s : Shared K V) : Shared K V :=
  sched.foldl (fun s i => stepWorker i s) s

/-- One call run on its own, by the methods of `map.go` as embedded above: the
state it leaves and, for `Load`, its result. -/
def Call.apply {K V : Type} [DecidableEq K] [GoKey K] [Inhabited V] (c : Call K V)
    (σ : Heap K V × Map) : (Heap K V × Map) × Option (V × Bool) :=
  match c with
  | .store key value =>
    match Map.Store σ.1 σ.2 key value with
    | .ok σ' => (σ', none)
    | .error _ => (σ, none)
  | .delete key => ((Map.Delete σ.1 σ.2 key, σ.2), none)
  | .load key => (σ, some (Map.Load σ.1 σ.2 key))

/-- The calls of `hist` run one at a time, in order, from the state `σ₀`: the
final state and the results of the `Load` calls, each with its goroutine. -/
def serialRun {K V : Type} [DecidableEq K] [GoKey K] [Inhabited V] (hist : List (Nat × Call K V))
    (σ₀ : Heap K V × Map) : (Heap K V × Map) × List (Nat × (V × Bool)) :=
  hist.foldl (fun acc e =>
    ((e.2.apply acc.1).1,
      match (e.2.apply acc.1).2 with
      | some r => acc.2 ++ [(e.1, r)]
      | none => acc.2)) (σ₀, [])

/-- The calls of goroutine `j` in a history, in order. -/
def callsOf {K V : Type} (j : Nat) (hist : List (Nat × Call K V)) : List (Call K V) :=
  (hist.filter (fun e => decide (e.1 = j))).map Prod.snd

/-- The `Load` results of goroutine `j` in a serial run, in order. -/
def loadsOf {V : Type} (j : Nat) (results : List (Nat × (V × Bool))) : List (V × Bool) :=
  (results.filter (fun e => decide (e.1 = j))).map Prod.snd

/-- Two goroutines: the first stores under key 1 and then loads key 2, the second
stores under key 2 and then deletes key 1; every other goroutine makes no call. -/
def twoWorkers : Nat → List (Call Nat Nat)
  | 0 => [.store 1 10, .load 2]
  | 1 => [.store 2 20, .delete 1]
  | _ => []

/-- Two goroutines that each store one entry; every other goroutine makes no call. -/
def twoStores : Nat → List (Call Nat Nat)
  | 0 => [.store 1 10]
  | 1 => [.store 2 20]
  | _ => []

/-- One step of goroutine `i` with the lock taken away: `Lock` and `RLock` always
go through.  It is what the methods would do without `mu`. -/
def stepUnguarded {K V : Type} [DecidableEq K] [GoKey K] [Inhabited V] (i : Nat) (s : Shared K V) :
    Shared K V :=
  stepWorker i ⟨s.heap, s.m, ⟨false, []⟩, s.workers, s.history⟩

/-- Run the goroutines under a schedule with the lock taken away. -/
def runUnguarded {K V : Type} [DecidableEq K] [GoKey K] [Inhabited V] (sched : List Nat)
    (s : Shared K V) : Shared K V :=
  sched.foldl (fun s i => stepUnguarded i s) s

/-- The goroutine holds the lock for writing. -/
def PC.inWrite {K V : Type} : PC K V → Prop
  | .locked (.store _ _) => True
  | .locked (.delete _) => True
  | .sawNil _ _ => True
  | .assigning _ _ => True
  | .unlocking true => True
  | .panicked => True
  | _ => False

/-- The goroutine holds the lock for reading. -/
def PC.inRead {K V : Type} : PC K V → Prop
  | .locked (.load _) => True
  | .unlocking false => True
  | _ => False

/-- The call a goroutine has started whose body has not taken effect yet. -/
def PC.pending {K V : Type} : PC K V → List (Call K V)
  | .locked c => [c]
  | .sawNil key value => [.store key value]
  | .assigning key value => [.store key value]
  | _ => []

/-- What the place of a goroutine in its call says about the current heap and
`Map` `cur`, `σ` being the state that the calls of the history leave when run
one at a time. -/
def PC.bodyInv {K V : Type} [DecidableEq K] [GoKey K] (cur σ : Heap K V × Map) : PC K V → Prop
  | .locked (.store _ _) => cur = σ
  | .locked (.delete _) => cur = σ
  | .unlocking true => cur = σ
  | .sawNil _ _ => cur = σ ∧ cur.2.m = none
  | .assigning key value =>
    cur.2.m ≠ none ∧
    Map.Store σ.1 σ.2 key value =
      (match mapassign cur.1 cur.2.m key value with
        | .ok h' => .ok (h', cur.2)
        | .error e => .error e)
  | .panicked => False
  | _ => True

/-- The statements of a call, its lock and unlock included; for `Store` the
allocation of the map is counted in. -/
def Call.cost {K V : Type} : Call K V → Nat
  | .store _ _ => 5
  | .delete _ => 3
  | .load _ => 3

/-- The statements left, at most, in the call a goroutine is in. -/
def PC.cost {K V : Type} : PC K V → Nat
  | .idle => 0
  | .locked (.store _ _) => 4
  | .locked (.delete _) => 2
  | .locked (.load _) => 2
  | .sawNil _ _ => 3
  | .assigning _ _ => 2
  | .unlocking _ => 1
  | .panicked => 0

/-- The statements a goroutine has left, at most, until all its calls have returned. -/
def Worker.cost {K V : Type} (w : Worker K V) : Nat :=
  w.pc.cost + (w.todo.map Call.cost).sum

/-- The statements the goroutines `0 .. n-1` have left, at most. -/
def remaining {K V : Type} (n : Nat) (s : Shared K V) : Nat :=
  Finset.sum (Finset.range n) (fun j => (s.workers j).cost)

/-- Every goroutine has returned from all its calls. -/
def Shared.allReturned {K V : Type} (s : Shared K V) : Prop :=
  ∀ j, (s.workers j).todo = [] ∧ (s.workers j).pc = .idle

/-- The invariant of every execution of goroutines with programs `P` started in
the state `σ₀`: the lock is held by one writer or by readers only, the shared
state is the serial run of the history except inside the body of a `Store`, and
every goroutine has made its calls in program order with the results of the
serial run. -/
structure Serializable {K V : Type} [DecidableEq K] [GoKey K] [Inhabited V] (σ₀ : Heap K V × Map)
    (P : Nat → List (Call K V)) (s : Shared K V) : Prop where
  quiet : s.mu.writer = false → (s.heap, s.m) = (serialRun s.history σ₀).1
  excl : ∀ j, (s.workers j).pc.inWrite →
    s.mu.writer = true ∧ s.mu.readers = [] ∧ ∀ j', j' ≠ j → (s.workers j').pc = .idle
  held : s.mu.writer = true → ∃ j, (s.workers j).pc.inWrite
  rd : ∀ j, (s.workers j).pc.inRead → j ∈ s.mu.readers ∧ s.mu.writer = false
  body : ∀ j, (s.workers j).pc.bodyInv (s.heap, s.m) (serialRun s.history σ₀).1
  order : ∀ j, callsOf j s.history ++ (s.workers j).pc.pending ++ (s.workers j).todo = P j
  loads : ∀ j, (s.workers j).loaded = loadsOf j (serialRun s.history σ₀).2
  rdOnly : ∀ j, j ∈ s.mu.readers → (s.workers j).pc.inRead

/-! ## Entries of one map object -/

theorem keyEq_eq_true_iff {K : Type} [DecidableEq K] [GoKey K] (a b : K) :
    keyEq a b = true ↔ a = b ∧ GoKey.selfEq a = true := by
  simp [keyEq]

theorem keyEq_of_ne {K : Type} [DecidableEq K] [GoKey K] {a b : K} (h : a ≠ b) :
    keyEq a b = false := by
  simp [keyEq, h]

theorem keyEq_self {K : Type} [DecidableEq K] [GoKey K] {k : K}
    (h : GoKey.selfEq k = true) : keyEq k k = true := by
  simp [keyEq, h]

theorem keyEq_of_not_selfEq {K : Type} [DecidableEq K] [GoKey K] (a : K) {k : K}
    (h : GoKey.selfEq k = false) : keyEq a k = false := by
  by_cases hak : a = k
  · subst hak; simp [keyEq, h]
  · exact keyEq_of_ne hak

theorem lookupKey_assignKey_self {K V : Type} [DecidableEq K] [GoKey K] (l : List (K × V))
    (k : K) (v : V) (hk : GoKey.selfEq k = true) :
    lookupKey (assignKey l k v) k = some v := by
  induction l with
  | nil => simp [assignKey, lookupKey, keyEq_self hk]
  | cons e t ih =>
    obtain ⟨k', v'⟩ := e
    cases h : keyEq k' k with
    | true => simp [assignKey, lookupKey, h]
    | false => simp [assignKey, lookupKey, h, ih]

theorem lookupKey_assignKey_of_ne {K V : Type} [DecidableEq K] [GoKey K] (l : List (K × V))
    (k : K) (v : V) {k' : K} (hne : k' ≠ k) :
    lookupKey (assignKey l k v) k' = lookupKey l k' := by
  induction l with
  | nil => simp [assignKey, lookupKey, keyEq_of_ne (Ne.symm hne)]
  | cons e t ih =>
    obtain ⟨k₁, v₁⟩ := e
    cases h : keyEq k₁ k with
    | true =>
      have hk : k₁ = k := ((keyEq_eq_true_iff _ _).1 h).1
      have h' : keyEq k₁ k' = false := keyEq_of_ne (fun e => hne (e.symm.trans hk))
      simp [assignKey, lookupKey, h, h']
    | false => simp [assignKey, lookupKey, h, ih]

theorem lookupKey_eq_none_iff {K V : Type} [DecidableEq K] [GoKey K] (l : List (K × V))
    (k : K) : lookupKey l k = none ↔ k ∉ l.map Prod.fst ∨ GoKey.selfEq k = false := by
  induction l with
  | nil => simp [lookupKey]
  | cons e t ih =>
    obtain ⟨k', v'⟩ := e
    cases h : keyEq k' k with
    | true =>
      obtain ⟨hk, hs⟩ := (keyEq_eq_true_iff _ _).1 h
      subst hk
      simp [lookupKey, h, hs]
    | false =>
      simp only [lookupKey, h, Bool.false_eq_true, if_false, ih, List.map_cons, List.mem_cons,
        not_or]
      constructor
      · rintro (h₁ | h₁)
        · by_cases hk : k = k'
          · subst hk
            right
            cases hs : GoKey.selfEq k
            · rfl
            · rw [keyEq_self hs] at h; cases h
          · exact Or.inl ⟨hk, h₁⟩
        · exact Or.inr h₁
      · rintro (h₁ | h₁)
        · exact Or.inl h₁.2
        · exact Or.inr h₁

theorem lookupKey_eq_none_of_not_mem {K V : Type} [DecidableEq K] [GoKey K]
    (l : List (K × V)) (k : K) (h : k ∉ l.map Prod.fst) : lookupKey l k = none :=
  (lookupKey_eq_none_iff l k).2 (Or.inl h)

theorem lookupKey_eq_none_of_not_selfEq {K V : Type} [DecidableEq K] [GoKey K]
    (l : List (K × V)) (k : K) (h : GoKey.selfEq k = false) : lookupKey l k = none :=
  (lookupKey_eq_none_iff l k).2 (Or.inr h)

theorem mem_keys_of_lookupKey {K V : Type} [DecidableEq K] [GoKey K] (l : List (K × V))
    (k : K) (v : V) (h : lookupKey l k = some v) :
    k ∈ l.map Prod.fst ∧ GoKey.selfEq k = true := by
  constructor
  · by_contra hc
    rw [lookupKey_eq_none_of_not_mem l k hc] at h
    cases h
  · cases hs : GoKey.selfEq k
    · rw [lookupKey_eq_none_of_not_selfEq l k hs] at h
      cases h
    · rfl

theorem lookupKey_deleteKey_self {K V : Type} [DecidableEq K] [GoKey K] (l : List (K × V))
    (k : K) : lookupKey (deleteKey l k) k = none := by
  rw [lookupKey_eq_none_iff]
  cases hs : GoKey.selfEq k with
  | false => exact Or.inr rfl
  | true =>
    left
    intro hmem
    obtain ⟨e, he, hek⟩ := List.mem_map.1 hmem
    have hf := (List.mem_filter.1 he).2
    subst hek
    simp [keyEq_self hs] at hf

theorem lookupKey_deleteKey_of_ne {K V : Type} [DecidableEq K] [GoKey K] (l : List (K × V))
    (k : K) {k' : K} (hne : k' ≠ k) : lookupKey (deleteKey l k) k' = lookupKey l k' := by
  induction l with
  | nil => simp [deleteKey, lookupKey]
  | cons e t ih =>
    obtain ⟨k₁, v₁⟩ := e
    have ih' : lookupKey (List.filter (fun e => !keyEq e.1 k) t) k' = lookupKey t k' := ih
    cases h : keyEq k₁ k with
    | true =>
      have hk : k₁ = k := ((keyEq_eq_true_iff _ _).1 h).1
      have h' : keyEq k₁ k' = false := keyEq_of_ne (fun e => hne (e.symm.trans hk))
      simp [deleteKey, lookupKey, h, h', ih']
    | false =>
      simp [deleteKey, lookupKey, h, ih']

theorem deleteKey_of_not_mem {K V : Type} [DecidableEq K] [GoKey K] (l : List (K × V)) (k : K)
    (h : k ∉ l.map Prod.fst) : deleteKey l k = l := by
  unfold deleteKey
  rw [List.filter_eq_self]
  intro e he
  have : e.1 ≠ k := fun hk => h (hk ▸ List.mem_map_of_mem Prod.fst he)
  simp [keyEq_of_ne this]

theorem deleteKey_of_not_selfEq {K V : Type} [DecidableEq K] [GoKey K] (l : List (K × V))
    (k : K) (h : GoKey.selfEq k = false) : deleteKey l k = l := by
  unfold deleteKey
  rw [List.filter_eq_self]
  intro e _
  simp [keyEq_of_not_selfEq e.1 h]

/-! ## Heap cells -/

theorem getD_set_self {α : Type} (l : List α) (a : Nat) (x d : α) (ha : a < l.length) :
    (l.set a x).getD a d = x := by
  simp [List.getD_eq_getElem?_getD, List.getElem?_set, ha]

theorem getD_set_of_ne {α : Type} (l : List α) (a b : Nat) (x d : α) (hab : a ≠ b) :
    (l.set a x).getD b d = l.getD b d := by
  simp [List.getD_eq_getElem?_getD, List.getElem?_set, hab]

theorem set_getD_self {α : Type} (l : List α) (a : Nat) (d : α) :
    l.set a (l.getD a d) = l := by
  by_cases ha : a < l.length
  · apply List.ext_getElem
    · simp
    · intro n h₁ h₂
      by_cases hn : a = n
      · subst hn
        simp [List.getD_eq_getElem?_getD, List.getElem?_eq_getElem ha]
      · simp [List.getElem_set, hn]
  · exact List.set_eq_of_length_le (Nat.le_of_not_lt ha)

theorem contents_set_self {K V : Type} (h : Heap K V) (a : Nat) (x : List (K × V))
    (ha : a < h.cells.length) : (Heap.mk (h.cells.set a x)).contents (some a) = x :=
  getD_set_self h.cells a x [] ha

theorem contents_set_of_ne {K V : Type} (h : Heap K V) (a : Nat) (x : List (K × V))
    (r : Option Nat) (hr : r ≠ some a) : (Heap.mk (h.cells.set a x)).contents r = h.contents r := by
  cases r with
  | none => rfl
  | some b =>
    have hab : a ≠ b := fun e => hr (e ▸ rfl)
    exact getD_set_of_ne h.cells a b x [] hab

theorem contents_of_not_allocated {K V : Type} (h : Heap K V) (a : Nat)
    (ha : h.cells.length ≤ a) : h.contents (some a) = [] := by
  show h.cells.getD a [] = []
  simp [List.getD_eq_getElem?_getD, List.getElem?_eq_none ha]

theorem contents_makemap_fresh {K V : Type} (h : Heap K V) :
    (makemap h).1.contents (some (makemap h).2) = [] := by
  show (h.cells ++ [[]]).getD h.cells.length [] = []
  simp [List.getD_eq_getElem?_getD]

theorem contents_makemap_old {K V : Type} (h : Heap K V) (r : Option Nat) (hr : h.Allocated r) :
    (makemap h).1.contents r = h.contents r := by
  cases r with
  | none => rfl
  | some a =>
    have ha : a < h.cells.length := hr a rfl
    show (h.cells ++ [[]]).getD a [] = h.cells.getD a []
    simp [List.getD_eq_getElem?_getD, List.getElem?_append_left ha]

theorem mapassign_some {K V : Type} [DecidableEq K] [GoKey K] (h : Heap K V) (a : Nat) (k : K) (v : V) :
    mapassign h (some a) k v = .ok ⟨h.cells.set a (assignKey (h.contents (some a)) k v)⟩ := rfl

theorem mapdelete_some {K V : Type} [DecidableEq K] [GoKey K] (h : Heap K V) (a : Nat) (k : K) :
    mapdelete h (some a) k = ⟨h.cells.set a (deleteKey (h.contents (some a)) k)⟩ := rfl

/-! ## `Store`, `Load`, `Get` -/

/-- The state `Store` leaves: the reference and its contents. -/
theorem Store_contents {K V : Type} [DecidableEq K] [GoKey K] (h : Heap K V) (m : Map)
    (hm : h.Allocated m.m) (k : K) (v : V) :
    ∃ h' m', Map.Store h m k v = .ok (h', m') ∧
      h'.contents m'.m = assignKey (h.contents m.m) k v ∧
      (m.m ≠ none → m' = m) ∧ h'.Allocated m'.m := by
  cases hmm : m.m with
  | none =>
    refine ⟨⟨(h.cells ++ [[]]).set h.cells.length (assignKey [] k v)⟩, ⟨some h.cells.length⟩, ?_, ?_, ?_, ?_⟩
    · simp [Map.Store, hmm, mapassign, makemap]
    · have := contents_set_self (Heap.mk (h.cells ++ [[]])) h.cells.length (assignKey [] k v) (by simp)
      simp [Heap.contents] at this ⊢
    · intro hne; exact absurd rfl hne
    · intro a ha
      cases ha
      simp
  | some a =>
    have ha : a < h.cells.length := hm a hmm
    refine ⟨⟨h.cells.set a (assignKey (h.contents (some a)) k v)⟩, m, ?_, ?_, ?_, ?_⟩
    · simp [Map.Store, hmm, mapassign, Heap.contents]
    · rw [hmm]; exact contents_set_self h a _ ha
    · intro _; rfl
    · intro b hb
      rw [hmm] at hb
      cases hb
      simpa using ha

/-- C1 fails at a NaN: on a `Map[float64, int]` in its zero state, `Store(NaN, 1)`
succeeds and adds the entry, but `Load(NaN)` then returns `(0, false)`, not
`(1, true)`. -/
theorem store_nan_then_load_misses :
    Map.Store (⟨[]⟩ : Heap Float64 Nat) Map.zero Float64.nan 1
      = .ok (⟨[[(Float64.nan, 1)]]⟩, ⟨some 0⟩) ∧
    Map.Load (⟨[[(Float64.nan, 1)]]⟩ : Heap Float64 Nat) ⟨some 0⟩ Float64.nan = (0, false) := by
  decide

/-- C1: for every Map state, the zero state included, every key `k` and
every value `v`, `Store(k, v)` succeeds; afterwards `Load(k)` returns `(v, true)`
if `k` equals itself (`k == k`, which fails only for a key holding a NaN), and
`Load(k')` returns what it returned before the `Store` for every key `k'`
different from `k`. -/
theorem store_then_load {K V : Type} [DecidableEq K] [GoKey K] [Inhabited V] (h : Heap K V)
    (m : Map) (hm : h.Allocated m.m) (k : K) (v : V) :
    ∃ h' m', Map.Store h m k v = .ok (h', m') ∧
      (GoKey.selfEq k = true → Map.Load h' m' k = (v, true)) ∧
      ∀ k', k' ≠ k → Map.Load h' m' k' = Map.Load h m k' := by
  obtain ⟨h', m', hok, hc, -, -⟩ := Store_contents h m hm k v
  refine ⟨h', m', hok, ?_, ?_⟩
  · intro hk
    simp [Map.Load, mapaccess, hc, lookupKey_assignKey_self _ _ _ hk]
  · intro k' hne
    simp [Map.Load, mapaccess, hc, lookupKey_assignKey_of_ne _ _ _ hne]

theorem store_then_load_witness :
    (⟨[[(2, 5)]]⟩ : Heap Nat Nat).Allocated Map.zero.m ∧ GoKey.selfEq (7 : Nat) = true ∧
    ∃ h' m', Map.Store (⟨[[(2, 5)]]⟩ : Heap Nat Nat) Map.zero 7 9 = .ok (h', m') ∧
      Map.Load h' m' 7 = (9, true) ∧
      ∀ k', k' ≠ 7 → Map.Load h' m' k' = Map.Load (⟨[[(2, 5)]]⟩ : Heap Nat Nat) Map.zero k' := by
  obtain ⟨h', m', hok, hload, hframe⟩ :=
    store_then_load (⟨[[(2, 5)]]⟩ : Heap Nat Nat) Map.zero (by decide) 7 9
  exact ⟨by decide, rfl, h', m', hok, hload rfl, hframe⟩

/-- C2: for every Map state, the zero state included, and every key `k` not
present in it, `Load(k)` returns the zero value and `false` and `Get(k)` returns
the zero value; for every key `k'`, `Get(k')` is the first component of
`Load(k')`. -/
theorem load_get_absent {K V : Type} [DecidableEq K] [GoKey K] [Inhabited V] (h : Heap K V) (m : Map)
    (k : K) (habs : k ∉ (h.contents m.m).map Prod.fst) :
    Map.Load h m k = ((default : V), false) ∧ Map.Get h m k = (default : V) ∧
      ∀ k', Map.Get h m k' = (Map.Load h m k').1 := by
  have hnone : mapaccess h m.m k = none := lookupKey_eq_none_of_not_mem _ _ habs
  refine ⟨?_, ?_, ?_⟩
  · simp [Map.Load, hnone]
  · simp [Map.Get, hnone]
  · intro k'
    unfold Map.Get Map.Load
    cases mapaccess h m.m k' <;> rfl

theorem load_get_absent_witness :
    (3 : Nat) ∉ ((⟨[[(2, 5)]]⟩ : Heap Nat Nat).contents (NewMap (some 0)).m).map Prod.fst ∧
    Map.Load (⟨[[(2, 5)]]⟩ : Heap Nat Nat) (NewMap (some 0)) 3 = ((default : Nat), false) ∧
    Map.Get (⟨[[(2, 5)]]⟩ : Heap Nat Nat) (NewMap (some 0)) 3 = (default : Nat) ∧
    ∀ k', Map.Get (⟨[[(2, 5)]]⟩ : Heap Nat Nat) (NewMap (some 0)) k'
      = (Map.Load (⟨[[(2, 5)]]⟩ : Heap Nat Nat) (NewMap (some 0)) k').1 :=
  ⟨by decide, load_get_absent _ _ 3 (by decide)⟩

/-! ## The assignment loop of `Copy` and `Merge` -/

theorem assignAll_some {K V : Type} [DecidableEq K] [GoKey K] (a : Nat) (s : List (K × V)) :
    ∀ h : Heap K V, a < h.cells.length →
      assignAll (some a) s h =
        .ok ⟨h.cells.set a (s.foldl (fun l e => assignKey l e.1 e.2) (h.contents (some a)))⟩ := by
  induction s with
  | nil =>
    intro h _
    show Except.ok h = Except.ok ⟨h.cells.set a (h.cells.getD a [])⟩
    rw [set_getD_self]
  | cons e t ih =>
    intro h ha
    obtain ⟨k, v⟩ := e
    have hlen : a < (Heap.mk (h.cells.set a (assignKey (h.contents (some a)) k v))).cells.length := by
      simpa using ha
    have hstep := ih ⟨h.cells.set a (assignKey (h.contents (some a)) k v)⟩ hlen
    rw [contents_set_self h a _ ha] at hstep
    simp only [assignAll, mapassign_some, List.foldl_cons]
    rw [hstep]
    simp [List.set_set]

theorem assignAll_nil_map {K V : Type} [DecidableEq K] [GoKey K] (h : Heap K V) (e : K × V)
    (t : List (K × V)) : assignAll none (e :: t) h = .error .assignmentToEntryInNilMap := rfl

theorem perm_pair {α : Type} {l : List α} {x y : α} (hp : l.Perm [x, y]) :
    l = [x, y] ∨ l = [y, x] := by
  obtain ⟨a, b, rfl⟩ := List.length_eq_two.1 (by simpa using hp.length_eq)
  have ha : a ∈ [x, y] := hp.subset (List.mem_cons_self a _)
  simp only [List.mem_cons, List.mem_singleton, List.not_mem_nil, or_false] at ha
  rcases ha with rfl | rfl
  · left
    have := (List.perm_cons a).1 hp
    rw [List.perm_singleton.1 this]
  · right
    have h2 : [a, b].Perm [a, x] := hp.trans (List.Perm.swap a x [])
    have := (List.perm_cons a).1 h2
    rw [List.perm_singleton.1 this]

/-- C3: `Merge` on the zero state of a `Map` with the one-entry source `{"a": 1}`
panics with "assignment to entry in nil map", whatever the iteration order. -/
theorem merge_zero_state_panics (o : IterOrder String Int) :
    Map.Merge o ⟨[[("a", 1)]]⟩ Map.zero (some 0) = .error .assignmentToEntryInNilMap := by
  have hs : o.shuffle [("a", 1)] = [("a", 1)] := List.perm_singleton.1 (o.perm _)
  show assignAll none (o.shuffle [("a", 1)]) _ = _
  rw [hs]
  rfl

theorem keysNodup_cons {K V : Type} [GoKey K] (k : K) (v : V) (t : List (K × V)) :
    KeysNodup ((k, v) :: t) ↔
      (GoKey.selfEq k = true → k ∉ t.map Prod.fst) ∧ KeysNodup t := by
  unfold KeysNodup
  by_cases hs : GoKey.selfEq k = true
  · have hf : List.filter GoKey.selfEq (List.map Prod.fst ((k, v) :: t))
        = k :: List.filter GoKey.selfEq (List.map Prod.fst t) := by
      simp [List.filter_cons, hs]
    rw [hf, List.nodup_cons]
    constructor
    · rintro ⟨h₁, h₂⟩
      exact ⟨fun _ hmem => h₁ (List.mem_filter.2 ⟨hmem, hs⟩), h₂⟩
    · rintro ⟨h₁, h₂⟩
      exact ⟨fun hmem => h₁ hs (List.mem_filter.1 hmem).1, h₂⟩
  · have hf : List.filter GoKey.selfEq (List.map Prod.fst ((k, v) :: t))
        = List.filter GoKey.selfEq (List.map Prod.fst t) := by
      simp [List.filter_cons, hs]
    rw [hf]
    constructor
    · intro h; exact ⟨fun h' => absurd h' hs, h⟩
    · intro h; exact h.2

theorem keysNodup_nil {K V : Type} [GoKey K] : KeysNodup ([] : List (K × V)) := by
  unfold KeysNodup
  simp

theorem lookupKey_eq_some_iff {K V : Type} [DecidableEq K] [GoKey K] (l : List (K × V))
    (hl : KeysNodup l) (k : K) (v : V) :
    lookupKey l k = some v ↔ (k, v) ∈ l ∧ GoKey.selfEq k = true := by
  induction l with
  | nil => simp [lookupKey]
  | cons e t ih =>
    obtain ⟨k', v'⟩ := e
    obtain ⟨hfresh, hnd⟩ := (keysNodup_cons k' v' t).1 hl
    cases h : keyEq k' k with
    | true =>
      obtain ⟨hk, hs⟩ := (keyEq_eq_true_iff _ _).1 h
      subst hk
      have hnot : ∀ w, (k', w) ∉ t := fun w hw => hfresh hs (List.mem_map_of_mem Prod.fst hw)
      simp only [lookupKey, h, if_true, Option.some.injEq, List.mem_cons, Prod.mk.injEq,
        true_and, hs, and_true]
      constructor
      · intro h; exact Or.inl h.symm
      · rintro (h | h)
        · exact h.symm
        · exact absurd h (hnot v)
    | false =>
      simp only [lookupKey, h, Bool.false_eq_true, if_false, ih hnd, List.mem_cons,
        Prod.mk.injEq]
      constructor
      · rintro ⟨h₁, h₂⟩; exact ⟨Or.inr h₁, h₂⟩
      · rintro ⟨h₁ | h₁, h₂⟩
        · exfalso
          have hkk : keyEq k' k = true := by
            rw [← h₁.1]; exact keyEq_self h₂
          rw [h] at hkk
          cases hkk
        · exact ⟨h₁, h₂⟩

theorem keysNodup_perm {K V : Type} [GoKey K] {l₁ l₂ : List (K × V)} (hp : l₁.Perm l₂)
    (h₂ : KeysNodup l₂) : KeysNodup l₁ :=
  ((hp.map Prod.fst).filter GoKey.selfEq).nodup_iff.2 h₂

theorem lookupKey_perm {K V : Type} [DecidableEq K] [GoKey K] {l₁ l₂ : List (K × V)}
    (hp : l₁.Perm l₂) (h₂ : KeysNodup l₂) (k : K) : lookupKey l₁ k = lookupKey l₂ k := by
  have h₁ : KeysNodup l₁ := keysNodup_perm hp h₂
  apply Option.ext
  intro v
  simp only [Option.mem_def]
  rw [lookupKey_eq_some_iff l₁ h₁, lookupKey_eq_some_iff l₂ h₂, hp.mem_iff]

theorem lookupKey_foldl_assignKey_of_not_mem {K V : Type} [DecidableEq K] [GoKey K]
    (s : List (K × V)) (k : K) (hk : k ∉ s.map Prod.fst) :
    ∀ l : List (K × V),
      lookupKey (s.foldl (fun l e => assignKey l e.1 e.2) l) k = lookupKey l k := by
  induction s with
  | nil => intro l; rfl
  | cons e t ih =>
    intro l
    have hk' : k ≠ e.1 ∧ k ∉ t.map Prod.fst := by simpa [not_or] using hk
    rw [List.foldl_cons, ih hk'.2, lookupKey_assignKey_of_ne _ _ _ hk'.1]

theorem lookupKey_foldl_assignKey_of_lookup {K V : Type} [DecidableEq K] [GoKey K]
    (s : List (K × V)) (hs : KeysNodup s) (k : K) (v : V) (hk : lookupKey s k = some v) :
    ∀ l : List (K × V),
      lookupKey (s.foldl (fun l e => assignKey l e.1 e.2) l) k = some v := by
  induction s with
  | nil => simp [lookupKey] at hk
  | cons e t ih =>
    intro l
    obtain ⟨k', v'⟩ := e
    obtain ⟨hfresh, hnd⟩ := (keysNodup_cons k' v' t).1 hs
    rw [List.foldl_cons]
    cases h : keyEq k' k with
    | true =>
      obtain ⟨hkk, hself⟩ := (keyEq_eq_true_iff _ _).1 h
      subst hkk
      simp only [lookupKey, h, if_true, Option.some.injEq] at hk
      subst hk
      rw [lookupKey_foldl_assignKey_of_not_mem t k' (hfresh hself),
        lookupKey_assignKey_self _ _ _ hself]
    | false =>
      simp only [lookupKey, h, Bool.false_eq_true, if_false] at hk
      exact ih hnd hk _

/-! ## `Merge` -/

/-- `Merge` into an allocated map succeeds and leaves the fold of the
assignments in the cell of the container. -/
theorem Merge_allocated {K V : Type} [DecidableEq K] [GoKey K] (o : IterOrder K V) (h : Heap K V)
    (m : Map) (a : Nat) (hma : m.m = some a) (ha : a < h.cells.length) (src : Option Nat) :
    Map.Merge o h m src =
      .ok ⟨h.cells.set a ((mapiter o h src).foldl (fun l e => assignKey l e.1 e.2)
        (h.contents (some a)))⟩ := by
  unfold Map.Merge
  rw [hma]
  exact assignAll_some a _ h ha

/-- C4 fails at a NaN: on a `Map[float64, int]` whose mapping is allocated and
empty, `Merge` of the source `{NaN: 1}` succeeds and copies the entry, but
`Load(NaN)` then returns `(0, false)`, not `(src[k], true)`. -/
theorem merge_nan_then_load_misses :
    Map.Merge IterOrder.stored (⟨[[], [(Float64.nan, 1)]]⟩ : Heap Float64 Nat) ⟨some 0⟩ (some 1)
      = .ok ⟨[[(Float64.nan, 1)], [(Float64.nan, 1)]]⟩ ∧
    Map.Load (⟨[[(Float64.nan, 1)], [(Float64.nan, 1)]]⟩ : Heap Float64 Nat) ⟨some 0⟩
      Float64.nan = (0, false) := by
  decide

/-- C4: for every Map whose underlying mapping is allocated and every
source mapping `src`, `Merge(src)` succeeds; afterwards `Load(k)` returns
`(v, true)` for every entry `(k, v)` of `src` whose key equals itself (`src`
wins on collision), and for every key that is not in `src` or differs from
itself it returns what it returned before.  In particular merging `{a:1, b:2}`
into `{b:0, c:3}` leaves exactly the entries `{a:1, b:2, c:3}`, whatever the
iteration order. -/
theorem merge_overwrites_and_keeps {K V : Type} [DecidableEq K] [GoKey K] [Inhabited V]
    (o : IterOrder K V) (h : Heap K V) (m : Map) (a : Nat) (hma : m.m = some a)
    (ha : a < h.cells.length) (src : Option Nat) (hsrc : KeysNodup (h.contents src)) :
    (∃ h', Map.Merge o h m src = .ok h' ∧
      (∀ k v, (k, v) ∈ h.contents src → GoKey.selfEq k = true →
        Map.Load h' m k = (v, true)) ∧
      (∀ k, k ∉ (h.contents src).map Prod.fst ∨ GoKey.selfEq k = false →
        Map.Load h' m k = Map.Load h m k)) ∧
    (∀ o' : IterOrder String Int, ∃ h',
      Map.Merge o' ⟨[[("b", 0), ("c", 3)], [("a", 1), ("b", 2)]]⟩ (NewMap (some 0)) (some 1)
        = .ok h' ∧
      (h'.contents (some 0)).Perm [("a", 1), ("b", 2), ("c", 3)]) := by
  constructor
  · refine ⟨_, Merge_allocated o h m a hma ha src, ?_, ?_⟩
    · intro k v hmem hself
      have hk : lookupKey (h.contents src) k = some v :=
        (lookupKey_eq_some_iff _ hsrc k v).2 ⟨hmem, hself⟩
      have hperm : (mapiter o h src).Perm (h.contents src) := o.perm _
      have hk' : lookupKey (mapiter o h src) k = some v := by
        rw [lookupKey_perm hperm hsrc]; exact hk
      have := lookupKey_foldl_assignKey_of_lookup (mapiter o h src)
        (keysNodup_perm hperm hsrc) k v hk' (h.contents (some a))
      simp only [Map.Load, mapaccess, hma, contents_set_self h a _ ha, this]
    · intro k hk
      rcases hk with hk | hk
      · have hperm : (mapiter o h src).Perm (h.contents src) := o.perm _
        have hk' : k ∉ (mapiter o h src).map Prod.fst := fun hmem =>
          hk ((hperm.map Prod.fst).subset hmem)
        have := lookupKey_foldl_assignKey_of_not_mem (mapiter o h src) k hk'
          (h.contents (some a))
        simp only [Map.Load, mapaccess, hma, contents_set_self h a _ ha, this]
      · simp only [Map.Load, mapaccess, lookupKey_eq_none_of_not_selfEq _ k hk]
  · intro o'
    refine ⟨_, Merge_allocated o' _ (NewMap (some 0)) 0 rfl (by decide) (some 1), ?_⟩
    rw [contents_set_self _ 0 _ (by decide)]
    have hp : (o'.shuffle [("a", 1), ("b", 2)]).Perm [("a", 1), ("b", 2)] := o'.perm _
    have hs : mapiter o' (⟨[[("b", 0), ("c", 3)], [("a", 1), ("b", 2)]]⟩ : Heap String Int) (some 1)
        = o'.shuffle [("a", 1), ("b", 2)] := rfl
    rw [hs]
    rcases perm_pair hp with e | e <;> rw [e] <;> decide

theorem merge_overwrites_and_keeps_witness :
    (NewMap (some 0)).m = some 0 ∧
    0 < (⟨[[(2, 0), (3, 3)], [(1, 1), (2, 2)]]⟩ : Heap Nat Nat).cells.length ∧
    KeysNodup ((⟨[[(2, 0), (3, 3)], [(1, 1), (2, 2)]]⟩ : Heap Nat Nat).contents (some 1)) ∧
    ((2 : Nat), (2 : Nat)) ∈ (⟨[[(2, 0), (3, 3)], [(1, 1), (2, 2)]]⟩ : Heap Nat Nat).contents (some 1) ∧
    GoKey.selfEq (2 : Nat) = true ∧
    ∃ h', Map.Merge IterOrder.reversed (⟨[[(2, 0), (3, 3)], [(1, 1), (2, 2)]]⟩ : Heap Nat Nat)
        (NewMap (some 0)) (some 1) = .ok h' ∧
      Map.Load h' (NewMap (some 0)) 2 = (2, true) ∧
      (∀ k, k ∉ ((⟨[[(2, 0), (3, 3)], [(1, 1), (2, 2)]]⟩ : Heap Nat Nat).contents (some 1)).map
            Prod.fst ∨ GoKey.selfEq k = false →
        Map.Load h' (NewMap (some 0)) k
          = Map.Load (⟨[[(2, 0), (3, 3)], [(1, 1), (2, 2)]]⟩ : Heap Nat Nat) (NewMap (some 0)) k) := by
  obtain ⟨h', hok, hload, hframe⟩ :=
    (merge_overwrites_and_keeps IterOrder.reversed
      (⟨[[(2, 0), (3, 3)], [(1, 1), (2, 2)]]⟩ : Heap Nat Nat) (NewMap (some 0)) 0 rfl
      (by decide) (some 1) (by decide)).1
  exact ⟨rfl, by decide, by decide, by decide, rfl, h', hok,
    hload 2 2 (by decide) rfl, hframe⟩

/-! ## `Delete` and `Clear` -/

theorem contents_mapdelete_self {K V : Type} [DecidableEq K] [GoKey K] (h : Heap K V) (r : Option Nat)
    (k : K) : (mapdelete h r k).contents r = deleteKey (h.contents r) k := by
  cases r with
  | none => rfl
  | some a =>
    rw [mapdelete_some]
    by_cases ha : a < h.cells.length
    · exact contents_set_self h a _ ha
    · have hle : h.cells.length ≤ a := Nat.le_of_not_lt ha
      rw [contents_of_not_allocated h a hle]
      have : (Heap.mk (h.cells.set a (deleteKey ([] : List (K × V)) k))).cells.length ≤ a := by
        simpa using hle
      rw [contents_of_not_allocated _ a this]
      rfl

/-- C5: for every Map state, the zero state included, and every key `k`,
`Delete(k)` returns normally; afterwards `Load(k)` returns the zero value and
`false`, `Load(k')` is unchanged for every key `k'` different from `k`, and if
`k` was absent the whole heap is unchanged. -/
theorem delete_removes_only_key {K V : Type} [DecidableEq K] [GoKey K] [Inhabited V] (h : Heap K V)
    (m : Map) (k : K) :
    Map.Load (Map.Delete h m k) m k = ((default : V), false) ∧
    (∀ k', k' ≠ k → Map.Load (Map.Delete h m k) m k' = Map.Load h m k') ∧
    (k ∉ (h.contents m.m).map Prod.fst → Map.Delete h m k = h) := by
  refine ⟨?_, ?_, ?_⟩
  · simp [Map.Load, Map.Delete, mapaccess, contents_mapdelete_self, lookupKey_deleteKey_self]
  · intro k' hne
    simp [Map.Load, Map.Delete, mapaccess, contents_mapdelete_self,
      lookupKey_deleteKey_of_ne _ _ hne]
  · intro habs
    unfold Map.Delete
    cases hm : m.m with
    | none => rfl
    | some a =>
      rw [hm] at habs
      rw [mapdelete_some, deleteKey_of_not_mem _ _ habs]
      show Heap.mk (h.cells.set a (h.cells.getD a [])) = h
      rw [set_getD_self]

theorem delete_removes_only_key_witness :
    (7 : Nat) ∉ ((⟨[[(2, 5)]]⟩ : Heap Nat Nat).contents (NewMap (some 0)).m).map Prod.fst ∧
    Map.Delete (⟨[[(2, 5)]]⟩ : Heap Nat Nat) (NewMap (some 0)) 7 = ⟨[[(2, 5)]]⟩ ∧
    Map.Load (Map.Delete (⟨[[(2, 5)]]⟩ : Heap Nat Nat) (NewMap (some 0)) 2) (NewMap (some 0)) 2
      = ((default : Nat), false) :=
  ⟨by decide,
    (delete_removes_only_key (⟨[[(2, 5)]]⟩ : Heap Nat Nat) (NewMap (some 0)) 7).2.2 (by decide),
    (delete_removes_only_key (⟨[[(2, 5)]]⟩ : Heap Nat Nat) (NewMap (some 0)) 2).1⟩

theorem foldl_append_singleton_eq_map {α β : Type} (g : α → β) (s : List α) :
    ∀ acc : List β, s.foldl (fun r e => r ++ [g e]) acc = acc ++ s.map g := by
  induction s with
  | nil => intro acc; simp
  | cons e t ih => intro acc; simp [ih]

theorem Keys_eq_map {K V : Type} (o : IterOrder K V) (h : Heap K V) (m : Map) :
    Map.Keys o h m = (mapiter o h m.m).map Prod.fst := by
  unfold Map.Keys
  rw [foldl_append_singleton_eq_map Prod.fst]
  rfl

theorem Values_eq_map {K V : Type} (o : IterOrder K V) (h : Heap K V) (m : Map) :
    Map.Values o h m = (mapiter o h m.m).map Prod.snd := by
  unfold Map.Values
  rw [foldl_append_singleton_eq_map Prod.snd]
  rfl

theorem contents_foldl_mapdelete {K V : Type} [DecidableEq K] [GoKey K] (r : Option Nat)
    (s : List (K × V)) :
    ∀ h : Heap K V,
      (s.foldl (fun h' e => mapdelete h' r e.1) h).contents r
        = s.foldl (fun l e => deleteKey l e.1) (h.contents r) := by
  induction s with
  | nil => intro h; rfl
  | cons e t ih =>
    intro h
    rw [List.foldl_cons, ih, contents_mapdelete_self, List.foldl_cons]

theorem foldl_deleteKey_eq_filter {K V : Type} [DecidableEq K] [GoKey K] (s : List (K × V)) :
    ∀ l : List (K × V),
      s.foldl (fun l e => deleteKey l e.1) l
        = l.filter (fun e => decide (e.1 ∉ (s.map Prod.fst).filter GoKey.selfEq)) := by
  induction s with
  | nil => intro l; simp
  | cons e t ih =>
    intro l
    rw [List.foldl_cons, ih]
    unfold deleteKey
    rw [List.filter_filter]
    congr 1
    funext x
    by_cases h1 : x.1 = e.1 <;> by_cases h2 : x.1 ∈ (t.map Prod.fst).filter GoKey.selfEq <;>
      by_cases h3 : GoKey.selfEq e.1 = true <;>
      simp [List.map_cons, List.filter_cons, List.mem_cons, keyEq, h1, h2, h3]

/-- The loop of `Clear` removes the entries whose key equals itself and leaves
the others: `delete(m.m, k)` finds no entry for a key that differs from itself. -/
theorem contents_Clear {K V : Type} [DecidableEq K] [GoKey K] (o : IterOrder K V)
    (h : Heap K V) (m : Map) :
    (Map.Clear o h m).contents m.m
      = (h.contents m.m).filter (fun e => !GoKey.selfEq e.1) := by
  unfold Map.Clear
  rw [contents_foldl_mapdelete, foldl_deleteKey_eq_filter]
  apply List.filter_congr
  intro e he
  have hmem : e.1 ∈ (mapiter o h m.m).map Prod.fst :=
    List.mem_map_of_mem Prod.fst ((o.perm _).mem_iff.2 he)
  cases hs : GoKey.selfEq e.1 with
  | false =>
    have : e.1 ∉ List.filter GoKey.selfEq (List.map Prod.fst (mapiter o h m.m)) := by
      intro hc
      have := (List.mem_filter.1 hc).2
      rw [hs] at this
      cases this
    simp [this]
  | true =>
    have : e.1 ∈ List.filter GoKey.selfEq (List.map Prod.fst (mapiter o h m.m)) :=
      List.mem_filter.2 ⟨hmem, hs⟩
    simp [this]

/-- On a map all of whose keys equal themselves, `Clear()` leaves no entry:
`Keys()` and `Values()` are then empty and no `Load` finds a key. -/
theorem Clear_of_selfEq_keys {K V : Type} [DecidableEq K] [GoKey K] [Inhabited V]
    (o o₁ o₂ : IterOrder K V) (h : Heap K V) (m : Map)
    (hkeys : ∀ e ∈ h.contents m.m, GoKey.selfEq e.1 = true) :
    Map.Keys o₁ (Map.Clear o h m) m = [] ∧
    Map.Values o₂ (Map.Clear o h m) m = [] ∧
    ∀ k, Map.Load (Map.Clear o h m) m k = ((default : V), false) := by
  have hc : (Map.Clear o h m).contents m.m = [] := by
    rw [contents_Clear, List.filter_eq_nil_iff]
    intro e he
    simp [hkeys e he]
  have h₁ : mapiter o₁ (Map.Clear o h m) m.m = [] := by
    have := o₁.perm ((Map.Clear o h m).contents m.m)
    rw [hc] at this
    unfold mapiter
    rw [hc]
    exact List.perm_nil.1 this
  have h₂ : mapiter o₂ (Map.Clear o h m) m.m = [] := by
    have := o₂.perm ((Map.Clear o h m).contents m.m)
    rw [hc] at this
    unfold mapiter
    rw [hc]
    exact List.perm_nil.1 this
  refine ⟨?_, ?_, ?_⟩
  · rw [Keys_eq_map, h₁]; rfl
  · rw [Values_eq_map, h₂]; rfl
  · intro k
    simp [Map.Load, mapaccess, hc, lookupKey]

/-- C6: on a `Map[float64, int]` that holds the one entry stored by
`Store(NaN, 1)`, `Clear()` removes nothing: whatever the iteration orders,
`Keys()` and `Values()` afterwards still return one element, not an empty
sequence. -/
theorem clear_keeps_nan_entry (o o₁ o₂ : IterOrder Float64 Nat) :
    Map.Store (⟨[]⟩ : Heap Float64 Nat) Map.zero Float64.nan 1
      = .ok (⟨[[(Float64.nan, 1)]]⟩, ⟨some 0⟩) ∧
    Map.Keys o₁ (Map.Clear o (⟨[[(Float64.nan, 1)]]⟩ : Heap Float64 Nat) ⟨some 0⟩) ⟨some 0⟩
      = [Float64.nan] ∧
    Map.Values o₂ (Map.Clear o (⟨[[(Float64.nan, 1)]]⟩ : Heap Float64 Nat) ⟨some 0⟩) ⟨some 0⟩
      = [1] := by
  have hc : (Map.Clear o (⟨[[(Float64.nan, 1)]]⟩ : Heap Float64 Nat) ⟨some 0⟩).contents (some 0)
      = [(Float64.nan, 1)] := by
    have := contents_Clear o (⟨[[(Float64.nan, 1)]]⟩ : Heap Float64 Nat) ⟨some 0⟩
    rw [this]
    decide
  have h₁ : mapiter o₁ (Map.Clear o (⟨[[(Float64.nan, 1)]]⟩ : Heap Float64 Nat) ⟨some 0⟩)
      (some 0) = [(Float64.nan, 1)] := by
    unfold mapiter
    rw [hc]
    exact List.perm_singleton.1 (o₁.perm _)
  have h₂ : mapiter o₂ (Map.Clear o (⟨[[(Float64.nan, 1)]]⟩ : Heap Float64 Nat) ⟨some 0⟩)
      (some 0) = [(Float64.nan, 1)] := by
    unfold mapiter
    rw [hc]
    exact List.perm_singleton.1 (o₂.perm _)
  refine ⟨by decide, ?_, ?_⟩
  · rw [Keys_eq_map]
    show List.map Prod.fst (mapiter o₁ _ (some 0)) = _
    rw [h₁]
    rfl
  · rw [Values_eq_map]
    show List.map Prod.snd (mapiter o₂ _ (some 0)) = _
    rw [h₂]
    rfl

/-! ## Distinct keys are preserved -/

theorem assignKey_of_fresh {K V : Type} [DecidableEq K] [GoKey K] (l : List (K × V)) (k : K)
    (v : V) (hk : GoKey.selfEq k = true → k ∉ l.map Prod.fst) :
    assignKey l k v = l ++ [(k, v)] := by
  induction l with
  | nil => rfl
  | cons e t ih =>
    obtain ⟨k', v'⟩ := e
    have hne : keyEq k' k = false := by
      cases h : keyEq k' k with
      | false => rfl
      | true =>
        obtain ⟨hkk, hs⟩ := (keyEq_eq_true_iff _ _).1 h
        subst hkk
        exact absurd (List.mem_cons_self _ _) (hk hs)
    have hk' : GoKey.selfEq k = true → k ∉ t.map Prod.fst := fun hs hmem =>
      hk hs (List.mem_cons_of_mem _ hmem)
    simp [assignKey, hne, ih hk']

theorem assignKey_of_not_mem {K V : Type} [DecidableEq K] [GoKey K] (l : List (K × V)) (k : K)
    (v : V) (hk : k ∉ l.map Prod.fst) : assignKey l k v = l ++ [(k, v)] :=
  assignKey_of_fresh l k v (fun _ => hk)

theorem keys_assignKey_of_mem {K V : Type} [DecidableEq K] [GoKey K] (l : List (K × V)) (k : K)
    (v : V) (hk : k ∈ l.map Prod.fst) (hs : GoKey.selfEq k = true) :
    (assignKey l k v).map Prod.fst = l.map Prod.fst := by
  induction l with
  | nil => simp at hk
  | cons e t ih =>
    obtain ⟨k', v'⟩ := e
    cases h : keyEq k' k with
    | true => simp [assignKey, h]
    | false =>
      have hkk : k ≠ k' := by
        intro e
        subst e
        rw [keyEq_self hs] at h
        cases h
      have : k ∈ t.map Prod.fst := by
        have h' : k = k' ∨ k ∈ t.map Prod.fst := by simpa using hk
        rcases h' with h' | h'
        · exact absurd h' hkk
        · exact h'
      simp [assignKey, h, ih this]

theorem keysNodup_assignKey {K V : Type} [DecidableEq K] [GoKey K] (l : List (K × V)) (k : K)
    (v : V) (hl : KeysNodup l) : KeysNodup (assignKey l k v) := by
  by_cases hfresh : GoKey.selfEq k = true → k ∉ l.map Prod.fst
  · rw [assignKey_of_fresh l k v hfresh]
    unfold KeysNodup at hl ⊢
    rw [List.map_append, List.filter_append]
    by_cases hs : GoKey.selfEq k = true
    · have hf : List.filter GoKey.selfEq (List.map Prod.fst [(k, v)]) = [k] := by
        simp [List.filter_cons, hs]
      rw [hf]
      refine List.Nodup.append hl (List.nodup_singleton _) ?_
      intro x hx hx'
      rw [List.mem_singleton] at hx'
      subst hx'
      exact hfresh hs (List.mem_filter.1 hx).1
    · have hf : List.filter GoKey.selfEq (List.map Prod.fst [(k, v)]) = [] := by
        simp [List.filter_cons, hs]
      rw [hf, List.append_nil]
      exact hl
  · have hs : GoKey.selfEq k = true := by
      by_contra hc
      exact hfresh (fun h => absurd h hc)
    have hmem : k ∈ l.map Prod.fst := by
      by_contra hc
      exact hfresh (fun _ => hc)
    unfold KeysNodup at hl ⊢
    rw [keys_assignKey_of_mem l k v hmem hs]
    exact hl

theorem keysNodup_deleteKey {K V : Type} [DecidableEq K] [GoKey K] (l : List (K × V)) (k : K)
    (hl : KeysNodup l) : KeysNodup (deleteKey l k) :=
  List.Nodup.sublist (((List.filter_sublist l).map Prod.fst).filter GoKey.selfEq) hl

theorem keysNodup_contents {K V : Type} [GoKey K] (h : Heap K V) (hwf : h.WF)
    (r : Option Nat) : KeysNodup (h.contents r) := by
  cases r with
  | none => exact keysNodup_nil
  | some a =>
    by_cases ha : a < h.cells.length
    · have : h.contents (some a) = h.cells[a] := by
        show h.cells.getD a [] = _
        simp [List.getD_eq_getElem?_getD, List.getElem?_eq_getElem ha]
      rw [this]
      exact hwf _ (List.getElem_mem ha)
    · rw [contents_of_not_allocated h a (Nat.le_of_not_lt ha)]
      exact keysNodup_nil

theorem WF_set {K V : Type} [GoKey K] (h : Heap K V) (hwf : h.WF) (a : Nat)
    (x : List (K × V)) (hx : KeysNodup x) : (Heap.mk (h.cells.set a x)).WF := by
  intro l hl
  rcases List.mem_or_eq_of_mem_set hl with hl | rfl
  · exact hwf l hl
  · exact hx

theorem WF_makemap {K V : Type} [GoKey K] (h : Heap K V) (hwf : h.WF) :
    (makemap h).1.WF := by
  intro l hl
  have : l ∈ h.cells ∨ l = [] := by simpa [makemap] using hl
  rcases this with hl | rfl
  · exact hwf l hl
  · exact keysNodup_nil

theorem WF_mapassign {K V : Type} [DecidableEq K] [GoKey K] (h h' : Heap K V) (hwf : h.WF)
    (r : Option Nat) (k : K) (v : V) (hok : mapassign h r k v = .ok h') : h'.WF := by
  cases r with
  | none => simp [mapassign] at hok
  | some a =>
    rw [mapassign_some] at hok
    cases hok
    exact WF_set h hwf a _ (keysNodup_assignKey _ k v (keysNodup_contents h hwf _))

theorem WF_mapdelete {K V : Type} [DecidableEq K] [GoKey K] (h : Heap K V) (hwf : h.WF)
    (r : Option Nat) (k : K) : (mapdelete h r k).WF := by
  cases r with
  | none => exact hwf
  | some a =>
    rw [mapdelete_some]
    exact WF_set h hwf a _ (keysNodup_deleteKey _ k (keysNodup_contents h hwf _))

theorem WF_assignAll {K V : Type} [DecidableEq K] [GoKey K] (dst : Option Nat) (s : List (K × V)) :
    ∀ h h' : Heap K V, h.WF → assignAll dst s h = .ok h' → h'.WF := by
  induction s with
  | nil =>
    intro h h' hwf hok
    simp only [assignAll, Except.ok.injEq] at hok
    exact hok ▸ hwf
  | cons e t ih =>
    intro h h' hwf hok
    obtain ⟨k, v⟩ := e
    simp only [assignAll] at hok
    cases hstep : mapassign h dst k v with
    | error err => rw [hstep] at hok; cases hok
    | ok h₁ =>
      rw [hstep] at hok
      exact ih h₁ h' (WF_mapassign h h₁ hwf dst k v hstep) hok

theorem WF_Clear {K V : Type} [DecidableEq K] [GoKey K] (o : IterOrder K V) (h : Heap K V) (m : Map)
    (hwf : h.WF) : (Map.Clear o h m).WF := by
  unfold Map.Clear
  generalize mapiter o h m.m = s
  induction s generalizing h with
  | nil => exact hwf
  | cons e t ih => exact ih _ (WF_mapdelete h hwf m.m e.1)

theorem WF_Store {K V : Type} [DecidableEq K] [GoKey K] (h h' : Heap K V) (m m' : Map) (hwf : h.WF)
    (k : K) (v : V) (hok : Map.Store h m k v = .ok (h', m')) : h'.WF := by
  unfold Map.Store at hok
  by_cases hm : m.m = none
  · simp only [hm, if_true] at hok
    cases hstep : mapassign (makemap h).1 (some (makemap h).2) k v with
    | error err => rw [hstep] at hok; cases hok
    | ok h₁ =>
      rw [hstep] at hok
      cases hok
      exact WF_mapassign _ _ (WF_makemap h hwf) _ k v hstep
  · simp only [hm, if_false] at hok
    cases hstep : mapassign h m.m k v with
    | error err => rw [hstep] at hok; cases hok
    | ok h₁ =>
      rw [hstep] at hok
      cases hok
      exact WF_mapassign _ _ hwf _ k v hstep

theorem WF_apply {K V : Type} [DecidableEq K] [GoKey K] (op : Op K V) (s s' : Heap K V × Map)
    (hwf : s.1.WF) (hok : op.apply s = .ok s') : s'.1.WF := by
  cases op with
  | store k v => exact WF_Store s.1 s'.1 s.2 s'.2 hwf k v hok
  | delete k =>
    simp only [Op.apply, Except.ok.injEq] at hok
    subst hok
    exact WF_mapdelete s.1 hwf _ k
  | clear o =>
    simp only [Op.apply, Except.ok.injEq] at hok
    subst hok
    exact WF_Clear o s.1 s.2 hwf
  | merge o src =>
    simp only [Op.apply] at hok
    cases hstep : Map.Merge o s.1 s.2 src with
    | error err => rw [hstep] at hok; cases hok
    | ok h₁ =>
      rw [hstep] at hok
      cases hok
      exact WF_assignAll _ _ _ _ hwf hstep

theorem WF_runOps {K V : Type} [DecidableEq K] [GoKey K] (ops : List (Op K V)) :
    ∀ s s' : Heap K V × Map, s.1.WF → runOps ops s = .ok s' → s'.1.WF := by
  induction ops with
  | nil =>
    intro s s' hwf hok
    simp only [runOps, Except.ok.injEq] at hok
    exact hok ▸ hwf
  | cons op rest ih =>
    intro s s' hwf hok
    simp only [runOps] at hok
    cases hstep : op.apply s with
    | error err => rw [hstep] at hok; cases hok
    | ok s₁ =>
      rw [hstep] at hok
      exact ih s₁ s' (WF_apply op s s₁ hwf hstep) hok

/-! ## `Keys` and `Values` -/

theorem foldl_assignKey_of_fresh {K V : Type} [DecidableEq K] [GoKey K] (s : List (K × V))
    (hs : KeysNodup s) :
    ∀ l : List (K × V),
      (∀ k ∈ s.map Prod.fst, GoKey.selfEq k = true → k ∉ l.map Prod.fst) →
      s.foldl (fun l e => assignKey l e.1 e.2) l = l ++ s := by
  induction s with
  | nil => intro l _; simp
  | cons e t ih =>
    intro l hfresh
    obtain ⟨k, v⟩ := e
    obtain ⟨hkt, hnd⟩ := (keysNodup_cons k v t).1 hs
    have hk : GoKey.selfEq k = true → k ∉ l.map Prod.fst := hfresh k (by simp)
    rw [List.foldl_cons, assignKey_of_fresh l k v hk, ih hnd]
    · simp
    · intro k' hk' hself hmem
      rw [List.map_append, List.mem_append] at hmem
      rcases hmem with hmem | hmem
      · exact hfresh k' (List.mem_cons_of_mem _ hk') hself hmem
      · simp only [List.map_cons, List.map_nil, List.mem_singleton] at hmem
        subst hmem
        exact hkt hself hk'

theorem runOps_stores {K V : Type} [DecidableEq K] [GoKey K] (kvs : List (K × V)) :
    ∀ (h : Heap K V) (m : Map), h.Allocated m.m →
      ∃ h' m', runOps (kvs.map fun e => Op.store e.1 e.2) (h, m) = .ok (h', m') ∧
        h'.contents m'.m = kvs.foldl (fun l e => assignKey l e.1 e.2) (h.contents m.m) := by
  induction kvs with
  | nil => intro h m _; exact ⟨h, m, rfl, rfl⟩
  | cons e t ih =>
    intro h m hm
    obtain ⟨h₁, m₁, hok, hc, -, hal⟩ := Store_contents h m hm e.1 e.2
    obtain ⟨h₂, m₂, hrun, hc₂⟩ := ih h₁ m₁ hal
    refine ⟨h₂, m₂, ?_, ?_⟩
    · simp only [List.map_cons, runOps, Op.apply, hok]
      exact hrun
    · rw [hc₂, hc, List.foldl_cons]

/-- C7 fails at a NaN: on a `Map[float64, int]` in its zero state, after
`Store(NaN, 1)` and `Store(NaN, 2)` the map holds two entries, `Keys()` returns
`[NaN, NaN]`, which lists a key twice, and `Load(NaN)` finds neither. -/
theorem keys_lists_nan_twice :
    runOps [Op.store Float64.nan 1, Op.store Float64.nan 2]
        ((⟨[]⟩ : Heap Float64 Nat), Map.zero)
      = .ok (⟨[[(Float64.nan, 1), (Float64.nan, 2)]]⟩, ⟨some 0⟩) ∧
    Map.Keys IterOrder.stored
        (⟨[[(Float64.nan, 1), (Float64.nan, 2)]]⟩ : Heap Float64 Nat) ⟨some 0⟩
      = [Float64.nan, Float64.nan] ∧
    ¬ (Map.Keys IterOrder.stored
        (⟨[[(Float64.nan, 1), (Float64.nan, 2)]]⟩ : Heap Float64 Nat) ⟨some 0⟩).Nodup ∧
    Map.Load (⟨[[(Float64.nan, 1), (Float64.nan, 2)]]⟩ : Heap Float64 Nat) ⟨some 0⟩ Float64.nan
      = (0, false) := by
  decide

/-- C7: in every state reached from a heap of well-formed maps by a
sequence of `Store`/`Delete`/`Clear`/`Merge` calls, and for every iteration
order, `Keys()` and `Values()` have the same length, the number of entries of
the map; `Keys()` lists no key that equals itself twice, and `Load` finds a key
exactly when `Keys()` lists it and it equals itself.  After storing `n` entries
whose keys are pairwise distinct, as far as they equal themselves, into the
zero `Map`, `Keys()` has length `n`. -/
theorem keys_values_invariant {K V : Type} [DecidableEq K] [GoKey K] [Inhabited V]
    (h : Heap K V) (m : Map) (hwf : h.WF) (ops : List (Op K V)) (h' : Heap K V) (m' : Map)
    (hrun : runOps ops (h, m) = .ok (h', m')) (o₁ o₂ : IterOrder K V) :
    (Map.Keys o₁ h' m').length = (Map.Values o₂ h' m').length ∧
    (Map.Keys o₁ h' m').length = maplen h' m'.m ∧
    ((Map.Keys o₁ h' m').filter GoKey.selfEq).Nodup ∧
    (∀ k, (Map.Load h' m' k).2 = true ↔ (k ∈ Map.Keys o₁ h' m' ∧ GoKey.selfEq k = true)) ∧
    (∀ kvs : List (K × V), KeysNodup kvs →
      ∃ h₂ m₂, runOps (kvs.map fun e => Op.store e.1 e.2) (h, Map.zero) = .ok (h₂, m₂) ∧
        (Map.Keys o₁ h₂ m₂).length = kvs.length) := by
  have hwf' : h'.WF := WF_runOps ops (h, m) (h', m') hwf hrun
  have hnd : KeysNodup (h'.contents m'.m) := keysNodup_contents h' hwf' m'.m
  have hp₁ : (mapiter o₁ h' m'.m).Perm (h'.contents m'.m) := o₁.perm _
  have hp₂ : (mapiter o₂ h' m'.m).Perm (h'.contents m'.m) := o₂.perm _
  refine ⟨?_, ?_, ?_, ?_, ?_⟩
  · rw [Keys_eq_map, Values_eq_map, List.length_map, List.length_map, hp₁.length_eq,
      hp₂.length_eq]
  · rw [Keys_eq_map, List.length_map, hp₁.length_eq]; rfl
  · rw [Keys_eq_map]; exact keysNodup_perm hp₁ hnd
  · intro k
    rw [Keys_eq_map, (hp₁.map Prod.fst).mem_iff]
    have hiff := lookupKey_eq_none_iff (h'.contents m'.m) k
    unfold Map.Load mapaccess
    cases hl : lookupKey (h'.contents m'.m) k with
    | none =>
      rw [hl] at hiff
      have hor := hiff.1 rfl
      constructor
      · intro hc; cases hc
      · rintro ⟨hmem, hself⟩
        rcases hor with hor | hor
        · exact absurd hmem hor
        · rw [hself] at hor; cases hor
    | some v =>
      have := mem_keys_of_lookupKey _ _ _ hl
      simp [this.1, this.2]
  · intro kvs hk
    obtain ⟨h₂, m₂, hok, hc⟩ := runOps_stores kvs h Map.zero (by intro a ha; cases ha)
    refine ⟨h₂, m₂, hok, ?_⟩
    have hlen : (mapiter o₁ h₂ m₂.m).length = (h₂.contents m₂.m).length :=
      (o₁.perm _).length_eq
    rw [Keys_eq_map, List.length_map, hlen, hc,
      foldl_assignKey_of_fresh kvs hk _ (by intro k _ _ hmem; cases hmem)]
    rfl

theorem keys_values_invariant_witness :
    (⟨[[(2, 0), (3, 3)], [(1, 1), (2, 2)]]⟩ : Heap Nat Nat).WF ∧
    runOps [Op.store 5 6, Op.merge IterOrder.reversed (some 1), Op.delete 3]
        ((⟨[[(2, 0), (3, 3)], [(1, 1), (2, 2)]]⟩ : Heap Nat Nat), NewMap (some 0))
      = .ok (⟨[[(2, 2), (5, 6), (1, 1)], [(1, 1), (2, 2)]]⟩, NewMap (some 0)) ∧
    (Map.Keys IterOrder.stored (⟨[[(2, 2), (5, 6), (1, 1)], [(1, 1), (2, 2)]]⟩ : Heap Nat Nat)
        (NewMap (some 0))).length
      = (Map.Values IterOrder.reversed
          (⟨[[(2, 2), (5, 6), (1, 1)], [(1, 1), (2, 2)]]⟩ : Heap Nat Nat)
          (NewMap (some 0))).length :=
  ⟨by decide, by decide,
    (keys_values_invariant (⟨[[(2, 0), (3, 3)], [(1, 1), (2, 2)]]⟩ : Heap Nat Nat)
      (NewMap (some 0)) (by decide)
      [Op.store 5 6, Op.merge IterOrder.reversed (some 1), Op.delete 3] _ _ (by decide)
      IterOrder.stored IterOrder.reversed).1⟩

/-! ## Frame: a call writes only the map object of its container -/

theorem frame_set {K V : Type} (h : Heap K V) (a b : Nat) (x : List (K × V)) (hab : a ≠ b) :
    (Heap.mk (h.cells.set a x)).contents (some b) = h.contents (some b) :=
  getD_set_of_ne h.cells a b x [] hab

theorem frame_mapassign {K V : Type} [DecidableEq K] [GoKey K] (h h' : Heap K V) (r : Option Nat)
    (k : K) (v : V) (hok : mapassign h r k v = .ok h') (b : Nat) (hb : some b ≠ r) :
    h'.contents (some b) = h.contents (some b) ∧ h'.cells.length = h.cells.length := by
  cases r with
  | none => simp [mapassign] at hok
  | some a =>
    rw [mapassign_some] at hok
    cases hok
    exact ⟨frame_set h a b _ (fun e => hb (e ▸ rfl)), by simp⟩

theorem frame_mapdelete {K V : Type} [DecidableEq K] [GoKey K] (h : Heap K V) (r : Option Nat) (k : K)
    (b : Nat) (hb : some b ≠ r) :
    (mapdelete h r k).contents (some b) = h.contents (some b) ∧
      (mapdelete h r k).cells.length = h.cells.length := by
  cases r with
  | none => exact ⟨rfl, rfl⟩
  | some a =>
    rw [mapdelete_some]
    exact ⟨frame_set h a b _ (fun e => hb (e ▸ rfl)), by simp⟩

theorem frame_assignAll {K V : Type} [DecidableEq K] [GoKey K] (dst : Option Nat) (s : List (K × V))
    (b : Nat) (hb : some b ≠ dst) :
    ∀ h h' : Heap K V, assignAll dst s h = .ok h' →
      h'.contents (some b) = h.contents (some b) ∧ h'.cells.length = h.cells.length := by
  induction s with
  | nil =>
    intro h h' hok
    simp only [assignAll, Except.ok.injEq] at hok
    subst hok
    exact ⟨rfl, rfl⟩
  | cons e t ih =>
    intro h h' hok
    obtain ⟨k, v⟩ := e
    simp only [assignAll] at hok
    cases hstep : mapassign h dst k v with
    | error err => rw [hstep] at hok; cases hok
    | ok h₁ =>
      rw [hstep] at hok
      have h₁' := frame_mapassign h h₁ dst k v hstep b hb
      have h₂' := ih h₁ h' hok
      exact ⟨h₂'.1.trans h₁'.1, h₂'.2.trans h₁'.2⟩

theorem frame_Clear {K V : Type} [DecidableEq K] [GoKey K] (o : IterOrder K V) (h : Heap K V) (m : Map)
    (b : Nat) (hb : some b ≠ m.m) :
    (Map.Clear o h m).contents (some b) = h.contents (some b) ∧
      (Map.Clear o h m).cells.length = h.cells.length := by
  unfold Map.Clear
  generalize mapiter o h m.m = s
  induction s generalizing h with
  | nil => exact ⟨rfl, rfl⟩
  | cons e t ih =>
    have h₁ := frame_mapdelete h m.m e.1 b hb
    have h₂ := ih (mapdelete h m.m e.1)
    exact ⟨h₂.1.trans h₁.1, h₂.2.trans h₁.2⟩

theorem frame_Store {K V : Type} [DecidableEq K] [GoKey K] (h h' : Heap K V) (m m' : Map) (k : K)
    (v : V) (hok : Map.Store h m k v = .ok (h', m')) (b : Nat) (hlt : b < h.cells.length)
    (hb : some b ≠ m.m) :
    h'.contents (some b) = h.contents (some b) ∧ b < h'.cells.length ∧ some b ≠ m'.m := by
  unfold Map.Store at hok
  by_cases hm : m.m = none
  · simp only [hm, if_true] at hok
    cases hstep : mapassign (makemap h).1 (some (makemap h).2) k v with
    | error err => rw [hstep] at hok; cases hok
    | ok h₁ =>
      rw [hstep] at hok
      cases hok
      have hne : some b ≠ some (makemap h).2 := by
        intro e
        have : b = h.cells.length := Option.some.inj e
        omega
      have hf := frame_mapassign _ _ _ k v hstep b hne
      refine ⟨?_, ?_, hne⟩
      · rw [hf.1]
        exact contents_makemap_old h (some b) (by intro a ha; cases ha; exact hlt)
      · rw [hf.2]
        simp [makemap]
        omega
  · simp only [hm, if_false] at hok
    cases hstep : mapassign h m.m k v with
    | error err => rw [hstep] at hok; cases hok
    | ok h₁ =>
      rw [hstep] at hok
      cases hok
      have hf := frame_mapassign _ _ _ k v hstep b hb
      exact ⟨hf.1, hf.2 ▸ hlt, hb⟩

theorem frame_apply {K V : Type} [DecidableEq K] [GoKey K] (op : Op K V) (s s' : Heap K V × Map)
    (hok : op.apply s = .ok s') (b : Nat) (hlt : b < s.1.cells.length) (hb : some b ≠ s.2.m) :
    s'.1.contents (some b) = s.1.contents (some b) ∧ b < s'.1.cells.length ∧
      some b ≠ s'.2.m := by
  cases op with
  | store k v => exact frame_Store s.1 s'.1 s.2 s'.2 k v hok b hlt hb
  | delete k =>
    simp only [Op.apply, Except.ok.injEq] at hok
    subst hok
    have hf := frame_mapdelete s.1 s.2.m k b hb
    exact ⟨hf.1, hf.2 ▸ hlt, hb⟩
  | clear o =>
    simp only [Op.apply, Except.ok.injEq] at hok
    subst hok
    have hf := frame_Clear o s.1 s.2 b hb
    exact ⟨hf.1, hf.2 ▸ hlt, hb⟩
  | merge o src =>
    simp only [Op.apply] at hok
    cases hstep : Map.Merge o s.1 s.2 src with
    | error err => rw [hstep] at hok; cases hok
    | ok h₁ =>
      rw [hstep] at hok
      cases hok
      have hf := frame_assignAll s.2.m _ b hb s.1 h₁ hstep
      exact ⟨hf.1, hf.2 ▸ hlt, hb⟩

theorem frame_runOps {K V : Type} [DecidableEq K] [GoKey K] (ops : List (Op K V)) (b : Nat) :
    ∀ s s' : Heap K V × Map, runOps ops s = .ok s' → b < s.1.cells.length →
      some b ≠ s.2.m → s'.1.contents (some b) = s.1.contents (some b) := by
  induction ops with
  | nil =>
    intro s s' hok _ _
    simp only [runOps, Except.ok.injEq] at hok
    rw [hok]
  | cons op rest ih =>
    intro s s' hok hlt hb
    simp only [runOps] at hok
    cases hstep : op.apply s with
    | error err => rw [hstep] at hok; cases hok
    | ok s₁ =>
      rw [hstep] at hok
      have hf := frame_apply op s s₁ hstep b hlt hb
      rw [ih s₁ s' hok hf.2.1 hf.2.2, hf.1]

/-! ## `Copy` -/

theorem Copy_allocated {K V : Type} [DecidableEq K] [GoKey K] (o : IterOrder K V) (h : Heap K V)
    (m : Map) (a : Nat) (hma : m.m = some a) (ha : a < h.cells.length)
    (hnd : KeysNodup (h.contents m.m)) :
    Map.Copy o h m =
      .ok (⟨(h.cells ++ [[]]).set h.cells.length (o.shuffle (h.contents m.m))⟩,
        some h.cells.length) := by
  have hold : (makemap h).1.contents m.m = h.contents m.m :=
    contents_makemap_old h m.m (by intro b hb; rw [hma] at hb; cases hb; exact ha)
  have hlen : (makemap h).2 < (makemap h).1.cells.length := by
    simp [makemap]
  have hs : KeysNodup (o.shuffle (h.contents m.m)) := keysNodup_perm (o.perm _) hnd
  unfold Map.Copy
  rw [if_pos (by rw [hma]; simp), assignAll_some _ _ _ hlen, contents_makemap_fresh]
  unfold mapiter
  rw [hold, foldl_assignKey_of_fresh _ hs [] (by intro k _ _ hmem; cases hmem)]
  rfl

/-- C8: for every Map state, `Copy()` returns a mapping that holds exactly the
entries the container holds at the time of the call and leaves the container as
it was; whatever sequence of `Store`, `Delete`, `Clear` and `Merge` calls is then
run on the container, the mapping returned by `Copy()` keeps its entries. -/
theorem copy_is_independent_snapshot {K V : Type} [DecidableEq K] [GoKey K] (o : IterOrder K V)
    (h : Heap K V) (m : Map) (hm : h.Allocated m.m) (hnd : KeysNodup (h.contents m.m)) :
    ∃ h₁ r, Map.Copy o h m = .ok (h₁, r) ∧
      (h₁.contents r).Perm (h.contents m.m) ∧
      h₁.contents m.m = h.contents m.m ∧
      ∀ (ops : List (Op K V)) (h₂ : Heap K V) (m₂ : Map),
        runOps ops (h₁, m) = .ok (h₂, m₂) → h₂.contents r = h₁.contents r := by
  cases hma : m.m with
  | none =>
    refine ⟨h, none, ?_, ?_, rfl, ?_⟩
    · simp [Map.Copy, hma]
    · exact List.Perm.refl _
    · intro ops h₂ m₂ _
      rfl
  | some a =>
    have ha : a < h.cells.length := hm a hma
    have hne : a ≠ h.cells.length := Nat.ne_of_lt ha
    refine ⟨_, _, Copy_allocated o h m a hma ha hnd, ?_, ?_, ?_⟩
    · rw [contents_set_self (Heap.mk (h.cells ++ [[]])) h.cells.length _ (by simp)]
      rw [hma]
      exact o.perm _
    · rw [contents_set_of_ne (Heap.mk (h.cells ++ [[]])) h.cells.length _ (some a)
        (by intro e; exact hne (Option.some.inj e))]
      exact contents_makemap_old h (some a) (by intro b hb; cases hb; exact ha)
    · intro ops h₂ m₂ hrun
      refine frame_runOps ops h.cells.length _ _ hrun (by simp) ?_
      show some h.cells.length ≠ m.m
      rw [hma]
      intro e
      exact hne (Option.some.inj e).symm

theorem copy_is_independent_snapshot_witness :
    (⟨[[(2, 0), (3, 3)]]⟩ : Heap Nat Nat).Allocated (NewMap (some 0)).m ∧
    KeysNodup ((⟨[[(2, 0), (3, 3)]]⟩ : Heap Nat Nat).contents (NewMap (some 0)).m) ∧
    ∃ h₁ r, Map.Copy IterOrder.reversed (⟨[[(2, 0), (3, 3)]]⟩ : Heap Nat Nat) (NewMap (some 0))
        = .ok (h₁, r) ∧
      (h₁.contents r).Perm ((⟨[[(2, 0), (3, 3)]]⟩ : Heap Nat Nat).contents (NewMap (some 0)).m) ∧
      h₁.contents (NewMap (some 0)).m
        = (⟨[[(2, 0), (3, 3)]]⟩ : Heap Nat Nat).contents (NewMap (some 0)).m ∧
      ∀ (ops : List (Op Nat Nat)) (h₂ : Heap Nat Nat) (m₂ : Map),
        runOps ops (h₁, NewMap (some 0)) = .ok (h₂, m₂) → h₂.contents r = h₁.contents r :=
  ⟨by decide, by decide,
    copy_is_independent_snapshot IterOrder.reversed _ (NewMap (some 0)) (by decide) (by decide)⟩

/-! ## `Range` -/

theorem rangeLoop_logCalls {K V σ : Type} (f : σ → K → V → σ × Bool) (l : List (K × V)) :
    ∀ (s : σ) (log : List (K × V × Bool)),
      ∃ calls : List (K × V × Bool),
        rangeLoop (logCalls f) l (s, log) = (rangeLoop f l s, log ++ calls) ∧
        (∃ rest, calls.map (fun c => (c.1, c.2.1)) ++ rest = l) ∧
        (∀ pre c post, calls = pre ++ c :: post → c.2.2 = false → post = []) ∧
        ((∀ s k v, (f s k v).2 = true) → calls.map (fun c => (c.1, c.2.1)) = l) := by
  induction l with
  | nil =>
    intro s log
    refine ⟨[], by simp [rangeLoop], ⟨[], rfl⟩, ?_, fun _ => rfl⟩
    intro pre c post hsplit
    simp at hsplit
  | cons e t ih =>
    intro s log
    obtain ⟨k, v⟩ := e
    cases hres : (f s k v).2 with
    | false =>
      refine ⟨[(k, v, false)], ?_, ⟨t, rfl⟩, ?_, ?_⟩
      · simp [rangeLoop, logCalls, hres]
      · intro pre c post hsplit _
        cases pre with
        | nil =>
          simp only [List.nil_append, List.cons.injEq] at hsplit
          exact hsplit.2.symm
        | cons x pre' =>
          simp only [List.cons_append, List.cons.injEq] at hsplit
          have := hsplit.2
          simp at this
      · intro hall
        rw [hall s k v] at hres
        cases hres
    | true =>
      obtain ⟨calls, hrun, ⟨rest, hrest⟩, hstop, hall⟩ :=
        ih (f s k v).1 (log ++ [(k, v, true)])
      refine ⟨(k, v, true) :: calls, ?_, ⟨rest, ?_⟩, ?_, ?_⟩
      · simp only [rangeLoop, logCalls, hres, Bool.not_true, Bool.false_eq_true, if_false]
        rw [hrun]
        simp
      · simp [hrest]
      · intro pre c post hsplit hc
        cases pre with
        | nil =>
          simp only [List.nil_append, List.cons.injEq] at hsplit
          rw [← hsplit.1] at hc
          cases hc
        | cons x pre' =>
          simp only [List.cons_append, List.cons.injEq] at hsplit
          exact hstop pre' c post hsplit.2 hc
      · intro hf
        simp [hall hf]

/-- C9: for every Map state, iteration order and callback `visit`, run `Range`
with the callback instrumented to log its calls.  The instrumented run ends in
the same callback state as the plain one; `Range` returns the heap unchanged;
the logged calls are entries of the map, each taken at most once (together with
the entries not visited they make up the map exactly); no call follows a call
that returned `false`; and if `visit` always returns `true`, the logged calls
are all the entries of the map, each exactly once. -/
theorem range_visits_entries_until_stop {K V σ : Type} (o : IterOrder K V) (h : Heap K V)
    (m : Map) (f : σ → K → V → σ × Bool) (s : σ) :
    ∃ calls : List (K × V × Bool),
      Map.Range o h m (logCalls f) (s, []) = (h, (Map.Range o h m f s).2, calls) ∧
      (Map.Range o h m f s).1 = h ∧
      (∃ rest, (calls.map (fun c => (c.1, c.2.1)) ++ rest).Perm (h.contents m.m)) ∧
      (∀ pre c post, calls = pre ++ c :: post → c.2.2 = false → post = []) ∧
      ((∀ s k v, (f s k v).2 = true) →
        (calls.map (fun c => (c.1, c.2.1))).Perm (h.contents m.m)) := by
  obtain ⟨calls, hrun, ⟨rest, hrest⟩, hstop, hall⟩ :=
    rangeLoop_logCalls f (mapiter o h m.m) s []
  refine ⟨calls, ?_, rfl, ⟨rest, ?_⟩, hstop, ?_⟩
  · simp [Map.Range, hrun]
  · rw [hrest]; exact o.perm _
  · intro hf
    rw [hall hf]; exact o.perm _

theorem range_visits_entries_until_stop_witness :
    (∀ (s : Nat) (k v : Nat), ((fun s _ v => (s + v, true)) s k v : Nat × Bool).2 = true) ∧
    ∃ calls : List (Nat × Nat × Bool),
      Map.Range IterOrder.reversed (⟨[[(2, 5), (3, 4)]]⟩ : Heap Nat Nat) (NewMap (some 0))
          (logCalls fun s _ v => (s + v, true)) (0, [])
        = (⟨[[(2, 5), (3, 4)]]⟩, 9, calls) ∧
      (calls.map (fun c => (c.1, c.2.1))).Perm [(2, 5), (3, 4)] := by
  obtain ⟨calls, hrun, -, -, -, hall⟩ :=
    range_visits_entries_until_stop IterOrder.reversed (⟨[[(2, 5), (3, 4)]]⟩ : Heap Nat Nat)
      (NewMap (some 0)) (fun s _ v => (s + v, true)) 0
  exact ⟨fun _ _ _ => rfl, calls, hrun, hall (fun _ _ _ => rfl)⟩

/-! ## `Try` -/

/-- C10: for every fallible function `f`, `Try(f)` returns normally (no panic
leaves it), and its result is `true` exactly when `f` returned a `nil` error:
it is `false` when `f` returns a non-nil error and `false` when `f` panics,
with any panic value. -/
theorem try_true_iff_nil_error {E P : Type} (f : Unit → Outcome E P) :
    Try f = .ok (match f () with
      | .returns none => true
      | .returns (some _) => false
      | .panics _ => false) := by
  unfold Try recover
  cases f () with
  | returns err => cases err <;> rfl
  | panics value => cases value <;> rfl

/-! ## Go `int` -/

theorem wrapInt_of_isInt {x : Int} (hx : IsInt x) : wrapInt x = x := by
  unfold IsInt at hx
  unfold wrapInt
  omega

/-! ## `Truncate` -/

theorem take_set_succ {α : Type} (l : List α) (n : Nat) (x : α) (hn : n < l.length) :
    (l.set n x).take (n + 1) = l.take n ++ [x] := by
  induction l generalizing n with
  | nil => simp at hn
  | cons a t ih =>
    cases n with
    | zero => simp
    | succ k =>
      have hk : k < t.length := by simpa using hn
      simp [ih k hk]

theorem length_TrimSpace_le (s : List Char) : (TrimSpace s).length ≤ s.length := by
  unfold TrimSpace
  rw [List.length_reverse]
  refine Nat.le_trans (List.dropWhile_sublist _).length_le ?_
  rw [List.length_reverse]
  exact (List.dropWhile_sublist _).length_le

/-- The loop body checks every index it reads; started below the length it
ends normally with a limit that is the old one or an index it went through. -/
theorem scanFrom_ok (stop : Char → Bool) (runes : List Char) :
    ∀ (n : Nat) (max : Int), n ≤ runes.length →
      ∃ m : Int, scanFrom stop runes n max = .ok m ∧ (m = max ∨ (0 ≤ m ∧ m < n)) := by
  intro n
  induction n with
  | zero => intro max _; exact ⟨max, rfl, Or.inl rfl⟩
  | succ i ih =>
    intro max hle
    have hi : i < runes.length := hle
    rw [scanFrom, List.getElem?_eq_getElem hi]
    by_cases hs : stop runes[i] = true
    · exact ⟨max, by simp [hs], Or.inl rfl⟩
    · obtain ⟨m, hm, hb⟩ := ih (i : Int) (Nat.le_of_lt hi)
      refine ⟨m, by simp [hs, hm], Or.inr ?_⟩
      rcases hb with rfl | ⟨h0, h1⟩
      · omega
      · omega

theorem scanBack_ok (stop : Char → Bool) (runes : List Char) (max : Int) (h0 : 0 ≤ max)
    (hint : IsInt max) (hlen : max ≤ runes.length) :
    ∃ m : Int, scanBack stop runes (wrapInt (max - 1)) max = .ok m ∧ 0 ≤ m ∧ m ≤ max := by
  have hw : wrapInt (max - 1) = max - 1 := by
    unfold IsInt at hint
    unfold wrapInt
    omega
  rw [hw]
  unfold scanBack
  by_cases hneg : max - 1 < 0
  · exact ⟨max, by simp [hneg], h0, Int.le_refl _⟩
  · rw [if_neg hneg]
    have hle : (max - 1).toNat + 1 ≤ runes.length := by omega
    obtain ⟨m, hm, hb⟩ := scanFrom_ok stop runes _ max hle
    refine ⟨m, hm, ?_⟩
    rcases hb with rfl | ⟨h1, h2⟩
    · exact ⟨h0, Int.le_refl _⟩
    · omega

/-- What `Truncate` returns when the trimmed string is longer than `max`. -/
theorem Truncate_long (U : UnicodeTables) (s : List Char) (max : Int) (h0 : 0 ≤ max)
    (hlong : max < (TrimSpace s).length) (hint : IsInt max) :
    ∃ n : Nat, (n : Int) ≤ max ∧
      Truncate U s max = .ok ((TrimSpace s).take n ++ [ellipsis]) := by
  obtain ⟨m₁, h₁, h₁0, h₁le⟩ :=
    scanBack_ok (endsWord U) (TrimSpace s) max h0 hint (Int.le_of_lt hlong)
  have hint₁ : IsInt m₁ := by
    unfold IsInt at hint ⊢
    omega
  obtain ⟨m₂, h₂, h₂0, h₂le⟩ :=
    scanBack_ok (endsGap U) (TrimSpace s) m₁ h₁0 hint₁ (by omega)
  refine ⟨m₂.toNat, by omega, ?_⟩
  have hlt : m₂.toNat < (TrimSpace s).length := by omega
  unfold Truncate
  simp only [not_le.2 hlong, if_false, h₁, h₂]
  rw [if_pos ⟨h₂0, by omega⟩, take_set_succ _ _ _ hlt]

/-- C14: for every string `s` and every `max >= 0`, with `t` the trimmed `s`: if
`t` has at most `max` runes, `Truncate(s, max)` returns `t` itself; otherwise it
returns a proper prefix of `t`, of at most `max` runes, followed by the single
ellipsis character. -/
theorem truncate_trimmed_or_prefix_with_ellipsis (U : UnicodeTables) (s : List Char)
    (max : Int) (hint : IsInt max) (h0 : 0 ≤ max) :
    ((TrimSpace s).length ≤ max → Truncate U s max = .ok (TrimSpace s)) ∧
    (max < (TrimSpace s).length →
      ∃ n : Nat, (n : Int) ≤ max ∧ n < (TrimSpace s).length ∧
        Truncate U s max = .ok ((TrimSpace s).take n ++ [ellipsis])) := by
  constructor
  · intro hshort
    unfold Truncate
    simp [hshort]
  · intro hlong
    obtain ⟨n, hn, hres⟩ := Truncate_long U s max h0 hlong hint
    exact ⟨n, hn, by omega, hres⟩

theorem truncate_trimmed_or_prefix_with_ellipsis_witness :
    IsInt 8 ∧ (0 : Int) ≤ 8 ∧
    Truncate UnicodeTables.ascii " Hi! ".toList 8 = .ok (TrimSpace " Hi! ".toList) ∧
    ∃ n : Nat, (n : Int) ≤ 8 ∧ n < (TrimSpace "Hello, wonderful world".toList).length ∧
      Truncate UnicodeTables.ascii "Hello, wonderful world".toList 8
        = .ok ((TrimSpace "Hello, wonderful world".toList).take n ++ [ellipsis]) :=
  ⟨by decide, by decide,
    (truncate_trimmed_or_prefix_with_ellipsis UnicodeTables.ascii " Hi! ".toList 8
      (by decide) (by decide)).1 (by decide),
    (truncate_trimmed_or_prefix_with_ellipsis UnicodeTables.ascii
      "Hello, wonderful world".toList 8 (by decide) (by decide)).2 (by decide)⟩

/-- C13: the result of `Truncate` can be longer than `max`.  For every choice of
the Unicode tables `Truncate("a", 0)` is the one-rune string of the ellipsis,
and, `!` being in the category `Po`, `Truncate("Hi! there", 3)` is the
four-rune string `Hi!` followed by the ellipsis. -/
theorem truncate_exceeds_max (U : UnicodeTables) :
    (Truncate U ['a'] 0 = .ok [ellipsis] ∧ ¬ Len [ellipsis] ≤ 0) ∧
    (U.Po '!' = true →
      Truncate U "Hi! there".toList 3 = .ok ['H', 'i', '!', ellipsis] ∧
      ¬ Len ['H', 'i', '!', ellipsis] ≤ 3) := by
  refine ⟨⟨?_, by decide⟩, ?_⟩
  · have ht : TrimSpace ['a'] = ['a'] := by decide
    have hw : wrapInt (-1) = -1 := by decide
    simp [Truncate, ht, hw, scanBack]
  · intro hPo
    have ht : TrimSpace ['H', 'i', '!', ' ', 't', 'h', 'e', 'r', 'e']
        = ['H', 'i', '!', ' ', 't', 'h', 'e', 'r', 'e'] := by decide
    have hw : wrapInt 2 = 2 := by decide
    have hstop : endsWord U '!' = true := by simp [endsWord, hPo]
    have hgap : endsGap U '!' = true := by simp [endsGap]
    refine ⟨?_, by decide⟩
    simp [Truncate, ht, hw, scanBack, scanFrom, hstop, hgap]

theorem truncate_exceeds_max_witness :
    UnicodeTables.ascii.Po '!' = true ∧
    Truncate UnicodeTables.ascii "Hi! there".toList 3 = .ok ['H', 'i', '!', ellipsis] ∧
    ¬ Len ['H', 'i', '!', ellipsis] ≤ 3 :=
  ⟨by decide, (truncate_exceeds_max UnicodeTables.ascii).2 (by decide)⟩

/-- C20: `Truncate` returns normally for every string and every `max >= 0`, each
index it reads or writes being checked and in bounds; for every string, the
empty one included, and every `max < 0` it panics with an index out of range. -/
theorem truncate_total_iff_nonneg (U : UnicodeTables) (s : List Char) (max : Int)
    (hint : IsInt max) (hs : (s.length : Int) < 2 ^ 63) :
    (0 ≤ max → ∃ r, Truncate U s max = .ok r) ∧
    (max < 0 → Truncate U s max = .error .indexOutOfRange) := by
  constructor
  · intro h0
    by_cases hlong : max < (TrimSpace s).length
    · obtain ⟨n, -, hres⟩ := Truncate_long U s max h0 hlong hint
      exact ⟨_, hres⟩
    · exact ⟨TrimSpace s, by unfold Truncate; simp [not_lt.1 hlong]⟩
  · intro hneg
    have hlen : ((TrimSpace s).length : Int) < 2 ^ 63 := by
      have := length_TrimSpace_le s
      omega
    have hnot : ¬ ((TrimSpace s).length : Int) ≤ max := by omega
    unfold Truncate
    simp only [hnot, if_false]
    by_cases hmin : max = -2 ^ 63
    · subst hmin
      have hw : wrapInt (-2 ^ 63 - 1) = 2 ^ 63 - 1 := by decide
      have hnone : (TrimSpace s)[((2 : Int) ^ 63 - 1).toNat]? = none := by
        apply List.getElem?_eq_none
        omega
      have hsucc : ((2 : Int) ^ 63 - 1).toNat + 1 = ((2 : Int) ^ 63 - 1).toNat.succ := rfl
      simp only [hw, scanBack]
      rw [if_neg (by decide), hsucc, scanFrom, hnone]
    · have hw : wrapInt (max - 1) = max - 1 := by
        unfold IsInt at hint
        unfold wrapInt
        omega
      have hstart : max - 1 < 0 := by omega
      simp only [hw, scanBack, hstart, if_true]
      rw [if_neg (by omega)]

theorem truncate_total_iff_nonneg_witness :
    IsInt 3 ∧ IsInt (-1) ∧ (("Hi! there".toList.length : Nat) : Int) < 2 ^ 63 ∧
    (∃ r, Truncate UnicodeTables.ascii "Hi! there".toList 3 = .ok r) ∧
    Truncate UnicodeTables.ascii [] (-1) = .error .indexOutOfRange :=
  ⟨by decide, by decide, by decide,
    (truncate_total_iff_nonneg UnicodeTables.ascii "Hi! there".toList 3 (by decide)
      (by decide)).1 (by decide),
    (truncate_total_iff_nonneg UnicodeTables.ascii [] (-1) (by decide) (by decide)).2
      (by decide)⟩

/-! ## `Nth` -/

/-- C15: for the `uint64` index `2^64 - 1`, far beyond the length 2 of the
collection, `Nth` does not panic: `int(nth)` is `-1` and the call returns the
last element. -/
theorem nth_huge_unsigned_returns_last {T : Type} (a b : T) :
    wrapInt (2 ^ 64 - 1) = -1 ∧ Nth (2 ^ 64 - 1) [a, b] = .ok b := by
  have hw : wrapInt (2 ^ 64 - 1) = -1 := by decide
  have hw1 : wrapInt (- -1) = 1 := by decide
  have hw2 : wrapInt (((2 : Nat) : Int) + -1) = 1 := by decide
  refine ⟨hw, ?_⟩
  unfold Nth
  simp only [hw, List.length_cons, List.length_nil]
  rw [if_neg (by rw [hw1]; decide), if_neg (by decide)]
  show index [a, b] (wrapInt (((2 : Nat) : Int) + -1)) = _
  rw [hw2]
  rfl

/-- C16: for every collection of length `l` and every index `n`: if
`0 <= n < l`, `Nth` returns the element at position `n`; if `-l <= n < 0`, it
returns the element at position `l + n`; `Nth(-1, ...)` is the last element. -/
theorem nth_returns_indexed_element {T : Type} (collection : List T) (n : Int)
    (hlen : (collection.length : Int) < 2 ^ 63) :
    (0 ≤ n → n < collection.length →
      ∃ x, collection[n.toNat]? = some x ∧ Nth n collection = .ok x) ∧
    (-(collection.length : Int) ≤ n → n < 0 →
      ∃ x, collection[(collection.length + n).toNat]? = some x ∧ Nth n collection = .ok x) ∧
    (∀ h : collection ≠ [], Nth (-1) collection = .ok (collection.getLast h)) := by
  have neg_case : ∀ n : Int, -(collection.length : Int) ≤ n → n < 0 →
      ∃ x, collection[(collection.length + n).toNat]? = some x ∧
        Nth n collection = .ok x := by
    intro n hlo hneg
    have hw : wrapInt n = n := by unfold wrapInt; omega
    have hwn : wrapInt (-n) = -n := by unfold wrapInt; omega
    have hws : wrapInt (collection.length + n) = collection.length + n := by
      unfold wrapInt; omega
    have hidx : ((collection.length : Int) + n).toNat < collection.length := by omega
    refine ⟨collection[((collection.length : Int) + n).toNat], List.getElem?_eq_getElem hidx, ?_⟩
    unfold Nth
    simp only [hw, hwn, hws]
    rw [if_neg (by omega), if_neg (by omega)]
    unfold index
    rw [if_pos (by omega), List.getElem?_eq_getElem hidx]
  refine ⟨?_, neg_case n, ?_⟩
  · intro h0 hlt
    have hw : wrapInt n = n := by unfold wrapInt; omega
    have hwn : wrapInt (-n) = -n := by unfold wrapInt; omega
    have hidx : n.toNat < collection.length := by omega
    refine ⟨collection[n.toNat], List.getElem?_eq_getElem hidx, ?_⟩
    unfold Nth
    simp only [hw, hwn]
    rw [if_neg (by omega), if_pos (by omega)]
    unfold index
    rw [if_pos h0, List.getElem?_eq_getElem hidx]
  · intro hne
    have hpos : 0 < collection.length := List.length_pos.2 hne
    obtain ⟨x, hx, hres⟩ := neg_case (-1) (by omega) (by omega)
    rw [hres]
    have hidx : ((collection.length : Int) + -1).toNat = collection.length - 1 := by omega
    rw [hidx, List.getElem?_eq_getElem (by omega)] at hx
    rw [List.getLast_eq_getElem]
    exact congrArg Except.ok (Option.some.inj hx).symm

theorem nth_returns_indexed_element_witness :
    ((["one", "too", "three", "four"].length : Nat) : Int) < 2 ^ 63 ∧
    (∃ x, ["one", "too", "three", "four"][(2 : Int).toNat]? = some x ∧
      Nth 2 ["one", "too", "three", "four"] = .ok x) ∧
    Nth (-1) ["one", "too", "three", "four"] = .ok "four" :=
  ⟨by decide,
    (nth_returns_indexed_element ["one", "too", "three", "four"] 2 (by decide)).1
      (by decide) (by decide),
    (nth_returns_indexed_element ["one", "too", "three", "four"] 2 (by decide)).2.2
      (by decide)⟩

/-! ## `Max` and `Min` -/

theorem Max_cons {T : Type} [LinearOrder T] [Inhabited T] (x : T) (rest : List T) :
    Max (x :: rest) = rest.foldl (fun max item => if item > max then item else max) x := by
  cases rest <;> rfl

theorem Min_cons {T : Type} [LinearOrder T] [Inhabited T] (x : T) (rest : List T) :
    Min (x :: rest) = rest.foldl (fun min item => if item < min then item else min) x := by
  cases rest <;> rfl

theorem foldl_max_spec {T : Type} [LinearOrder T] (rest : List T) :
    ∀ x : T,
      rest.foldl (fun max item => if item > max then item else max) x ∈ x :: rest ∧
      ∀ y ∈ x :: rest, y ≤ rest.foldl (fun max item => if item > max then item else max) x := by
  induction rest with
  | nil => intro x; simp
  | cons a t ih =>
    intro x
    rw [List.foldl_cons]
    obtain ⟨hmem, hle⟩ := ih (if a > x then a else x)
    constructor
    · rcases List.mem_cons.1 hmem with h | h
      · rw [h]
        by_cases hax : a > x
        · simp [hax]
        · simp [hax]
      · exact List.mem_cons_of_mem _ (List.mem_cons_of_mem _ h)
    · intro y hy
      have hstart : (if a > x then a else x) ≤
          t.foldl (fun max item => if item > max then item else max) (if a > x then a else x) :=
        hle _ (List.mem_cons_self _ _)
      rcases List.mem_cons.1 hy with h | h
      · subst h
        refine le_trans ?_ hstart
        by_cases hay : a > y
        · simp [hay]; exact le_of_lt hay
        · simp [hay]
      · rcases List.mem_cons.1 h with h | h
        · subst h
          refine le_trans ?_ hstart
          by_cases hyx : y > x
          · simp [hyx]
          · simp [hyx]; exact not_lt.1 hyx
        · exact hle y (List.mem_cons_of_mem _ h)

theorem foldl_min_spec {T : Type} [LinearOrder T] (rest : List T) :
    ∀ x : T,
      rest.foldl (fun min item => if item < min then item else min) x ∈ x :: rest ∧
      ∀ y ∈ x :: rest, rest.foldl (fun min item => if item < min then item else min) x ≤ y := by
  induction rest with
  | nil => intro x; simp
  | cons a t ih =>
    intro x
    rw [List.foldl_cons]
    obtain ⟨hmem, hle⟩ := ih (if a < x then a else x)
    constructor
    · rcases List.mem_cons.1 hmem with h | h
      · rw [h]
        by_cases hax : a < x
        · simp [hax]
        · simp [hax]
      · exact List.mem_cons_of_mem _ (List.mem_cons_of_mem _ h)
    · intro y hy
      have hstart :
          t.foldl (fun min item => if item < min then item else min) (if a < x then a else x)
            ≤ (if a < x then a else x) :=
        hle _ (List.mem_cons_self _ _)
      rcases List.mem_cons.1 hy with h | h
      · subst h
        refine le_trans hstart ?_
        by_cases hay : a < y
        · simp [hay]; exact le_of_lt hay
        · simp [hay]
      · rcases List.mem_cons.1 h with h | h
        · subst h
          refine le_trans hstart ?_
          by_cases hyx : y < x
          · simp [hyx]
          · simp [hyx]; exact not_lt.1 hyx
        · exact hle y (List.mem_cons_of_mem _ h)

/-- C17: for every non-empty list of elements of a totally ordered type,
`Max(elems...)` is a member of the list and is greater than or equal to every
element, and `Min(elems...)` is a member and less than or equal to every
element; for the empty list both return the zero value. -/
theorem max_min_spec {T : Type} [LinearOrder T] [Inhabited T] (elems : List T) :
    (elems ≠ [] → Max elems ∈ elems ∧ ∀ x ∈ elems, x ≤ Max elems) ∧
    (elems ≠ [] → Min elems ∈ elems ∧ ∀ x ∈ elems, Min elems ≤ x) ∧
    Max ([] : List T) = default ∧ Min ([] : List T) = default := by
  refine ⟨?_, ?_, rfl, rfl⟩
  · intro hne
    cases elems with
    | nil => exact absurd rfl hne
    | cons x rest => rw [Max_cons]; exact foldl_max_spec rest x
  · intro hne
    cases elems with
    | nil => exact absurd rfl hne
    | cons x rest => rw [Min_cons]; exact foldl_min_spec rest x

theorem max_min_spec_witness :
    ([99, 13, 9, 0, 100, -10, 11] : List Int) ≠ [] ∧
    Max ([99, 13, 9, 0, 100, -10, 11] : List Int) = 100 ∧
    Min ([99, 13, 9, 0, 100, -10, 11] : List Int) = -10 ∧
    (∀ x ∈ ([99, 13, 9, 0, 100, -10, 11] : List Int),
      x ≤ Max ([99, 13, 9, 0, 100, -10, 11] : List Int)) ∧
    (∀ x ∈ ([99, 13, 9, 0, 100, -10, 11] : List Int),
      Min ([99, 13, 9, 0, 100, -10, 11] : List Int) ≤ x) :=
  ⟨by decide, by decide, by decide,
    ((max_min_spec ([99, 13, 9, 0, 100, -10, 11] : List Int)).1 (by decide)).2,
    ((max_min_spec ([99, 13, 9, 0, 100, -10, 11] : List Int)).2.1 (by decide)).2⟩

/-! ## `Unique` -/

/-- The state of the loop of `Unique` after the items `l`: the keys of `exist`
are the elements of `result`, in the same order. -/
theorem Unique_loop_keys {T : Type} [DecidableEq T] [GoKey T] (l : List T) :
    ∀ st : List (T × Unit) × List T, st.1.map Prod.fst = st.2 →
      ((l.foldl (fun (st : List (T × Unit) × List T) item =>
          match lookupKey st.1 item with
          | some _ => st
          | none => (assignKey st.1 item (), st.2 ++ [item])) st).1.map Prod.fst
        = (l.foldl (fun (st : List (T × Unit) × List T) item =>
          match lookupKey st.1 item with
          | some _ => st
          | none => (assignKey st.1 item (), st.2 ++ [item])) st).2) := by
  induction l with
  | nil => intro st h; exact h
  | cons a t ih =>
    intro st h
    rw [List.foldl_cons]
    apply ih
    cases hl : lookupKey st.1 a with
    | some u => exact h
    | none =>
      have hfresh : GoKey.selfEq a = true → a ∉ st.1.map Prod.fst := by
        intro hs
        rcases (lookupKey_eq_none_iff _ _).1 hl with h' | h'
        · exact h'
        · rw [hs] at h'; cases h'
      simp only [assignKey_of_fresh st.1 a () hfresh, List.map_append, h, List.map_cons,
        List.map_nil]

/-- One more item: it is appended unless it equals itself and is in the result. -/
theorem Unique_snoc {T : Type} [DecidableEq T] [GoKey T] (l : List T) (z : T) :
    Unique (l ++ [z]) =
      if z ∈ Unique l ∧ GoKey.selfEq z = true then Unique l else Unique l ++ [z] := by
  have hkeys := Unique_loop_keys l (([], []) : List (T × Unit) × List T) rfl
  unfold Unique at hkeys ⊢
  rw [List.foldl_append, List.foldl_cons, List.foldl_nil]
  generalize l.foldl (fun (st : List (T × Unit) × List T) item =>
      match lookupKey st.1 item with
      | some _ => st
      | none => (assignKey st.1 item (), st.2 ++ [item])) ([], []) = st at hkeys ⊢
  cases hl : lookupKey st.1 z with
  | some u =>
    have hmem := mem_keys_of_lookupKey _ _ _ hl
    rw [hkeys] at hmem
    simp [hmem.1, hmem.2]
  | none =>
    have hnot : ¬ (z ∈ st.2 ∧ GoKey.selfEq z = true) := by
      rintro ⟨h₁, h₂⟩
      rw [← hkeys] at h₁
      rcases (lookupKey_eq_none_iff _ _).1 hl with h' | h'
      · exact h' h₁
      · rw [h₂] at h'; cases h'
    rw [if_neg hnot]

theorem Unique_nil {T : Type} [DecidableEq T] [GoKey T] : Unique ([] : List T) = [] := rfl

theorem mem_Unique {T : Type} [DecidableEq T] [GoKey T] (l : List T) (x : T) :
    x ∈ Unique l ↔ x ∈ l := by
  induction l using List.reverseRecOn with
  | nil => simp [Unique_nil]
  | append_singleton l z ih =>
    rw [Unique_snoc]
    by_cases hz : z ∈ Unique l ∧ GoKey.selfEq z = true
    · rw [if_pos hz, List.mem_append, List.mem_singleton, ih]
      constructor
      · intro h; exact Or.inl h
      · rintro (h | rfl)
        · exact h
        · exact ih.1 hz.1
    · rw [if_neg hz, List.mem_append, List.mem_append, ih]

/-- No value that equals itself is in the result twice. -/
theorem nodup_filter_Unique {T : Type} [DecidableEq T] [GoKey T] (l : List T) :
    ((Unique l).filter GoKey.selfEq).Nodup := by
  induction l using List.reverseRecOn with
  | nil => simp [Unique_nil]
  | append_singleton l z ih =>
    rw [Unique_snoc]
    by_cases hz : z ∈ Unique l ∧ GoKey.selfEq z = true
    · rw [if_pos hz]; exact ih
    · rw [if_neg hz, List.filter_append]
      by_cases hs : GoKey.selfEq z = true
      · have hf : List.filter GoKey.selfEq [z] = [z] := by simp [List.filter_cons, hs]
        rw [hf]
        refine List.Nodup.append ih (List.nodup_singleton _) ?_
        intro a ha hb
        rw [List.mem_singleton] at hb
        subst hb
        exact hz ⟨(List.mem_filter.1 ha).1, hs⟩
      · have hf : List.filter GoKey.selfEq [z] = [] := by simp [List.filter_cons, hs]
        rw [hf, List.append_nil]
        exact ih

theorem filter_eq_self_of_all {T : Type} (p : T → Bool) (l : List T)
    (h : ∀ x ∈ l, p x = true) : l.filter p = l :=
  List.filter_eq_self.2 h

theorem Unique_sublist {T : Type} [DecidableEq T] [GoKey T] (l : List T) :
    (Unique l).Sublist l := by
  induction l using List.reverseRecOn with
  | nil => simp [Unique_nil]
  | append_singleton l z ih =>
    rw [Unique_snoc]
    by_cases hz : z ∈ Unique l ∧ GoKey.selfEq z = true
    · rw [if_pos hz]; exact ih.trans (List.sublist_append_left _ _)
    · rw [if_neg hz]; exact List.Sublist.append ih (List.Sublist.refl _)

/-- A list that holds no value that equals itself twice is left as it is. -/
theorem Unique_of_nodup {T : Type} [DecidableEq T] [GoKey T] (l : List T)
    (hl : (l.filter GoKey.selfEq).Nodup) : Unique l = l := by
  induction l using List.reverseRecOn with
  | nil => rfl
  | append_singleton l z ih =>
    rw [List.filter_append] at hl
    have hnd := List.nodup_append.1 hl
    have hz : ¬ (z ∈ Unique l ∧ GoKey.selfEq z = true) := by
      rintro ⟨h₁, h₂⟩
      have hzl : z ∈ l.filter GoKey.selfEq := List.mem_filter.2 ⟨(mem_Unique l z).1 h₁, h₂⟩
      have hzz : z ∈ List.filter GoKey.selfEq [z] := by simp [List.filter_cons, h₂]
      exact hnd.2.2 hzl hzz
    rw [Unique_snoc, if_neg hz, ih hnd.1]

theorem indexOf_Unique_lt_iff {T : Type} [DecidableEq T] [GoKey T] (l : List T) :
    ∀ x y : T, x ∈ l → y ∈ l →
      (List.indexOf x (Unique l) < List.indexOf y (Unique l) ↔
        List.indexOf x l < List.indexOf y l) := by
  induction l using List.reverseRecOn with
  | nil => intro x y hx; simp at hx
  | append_singleton l z ih =>
    intro x y hx hy
    have key : ∀ w : T, w ∈ l →
        List.indexOf w (Unique (l ++ [z])) = List.indexOf w (Unique l) ∧
        List.indexOf w (l ++ [z]) = List.indexOf w l := by
      intro w hw
      have hwU : w ∈ Unique l := (mem_Unique l w).2 hw
      refine ⟨?_, List.indexOf_append_of_mem hw⟩
      rw [Unique_snoc]
      by_cases hz : z ∈ Unique l ∧ GoKey.selfEq z = true
      · rw [if_pos hz]
      · rw [if_neg hz, List.indexOf_append_of_mem hwU]
    have fresh : ∀ w : T, w ∈ l ++ [z] → w ∉ l →
        List.indexOf w (Unique (l ++ [z])) = (Unique l).length ∧
        List.indexOf w (l ++ [z]) = l.length := by
      intro w hw hnot
      have hwz : w = z := by
        rcases List.mem_append.1 hw with h | h
        · exact absurd h hnot
        · exact List.mem_singleton.1 h
      subst hwz
      have hnotU : w ∉ Unique l := fun h => hnot ((mem_Unique l w).1 h)
      constructor
      · rw [Unique_snoc, if_neg (fun h => hnotU h.1), List.indexOf_append_of_not_mem hnotU]
        simp
      · rw [List.indexOf_append_of_not_mem hnot]
        simp
    by_cases hxl : x ∈ l <;> by_cases hyl : y ∈ l
    · rw [(key x hxl).1, (key x hxl).2, (key y hyl).1, (key y hyl).2]
      exact ih x y hxl hyl
    · rw [(key x hxl).1, (key x hxl).2, (fresh y hy hyl).1, (fresh y hy hyl).2]
      have h₁ : List.indexOf x (Unique l) < (Unique l).length :=
        List.indexOf_lt_length.2 ((mem_Unique l x).2 hxl)
      have h₂ : List.indexOf x l < l.length := List.indexOf_lt_length.2 hxl
      exact ⟨fun _ => h₂, fun _ => h₁⟩
    · rw [(fresh x hx hxl).1, (fresh x hx hxl).2, (key y hyl).1, (key y hyl).2]
      have h₁ : List.indexOf y (Unique l) < (Unique l).length :=
        List.indexOf_lt_length.2 ((mem_Unique l y).2 hyl)
      have h₂ : List.indexOf y l < l.length := List.indexOf_lt_length.2 hyl
      constructor
      · intro h; omega
      · intro h; omega
    · rw [(fresh x hx hxl).1, (fresh x hx hxl).2, (fresh y hy hyl).1, (fresh y hy hyl).2]
      constructor
      · intro h; omega
      · intro h; omega

/-- C18 fails at a NaN: `Unique(NaN, NaN, 1, 1)` on `float64` values returns
`[NaN, NaN, 1]`, which holds a value twice. -/
theorem unique_keeps_nan_twice :
    Unique [Float64.nan, Float64.nan, Float64.num 1, Float64.num 1]
      = [Float64.nan, Float64.nan, Float64.num 1] ∧
    ¬ (Unique [Float64.nan, Float64.nan, Float64.num 1, Float64.num 1]).Nodup := by
  decide

/-- C18: for every list `items`, `Unique(items...)` contains no value
that equals itself twice (so no value twice when every item equals itself; a
NaN, which differs from itself, is kept at each occurrence), contains exactly
the values that occur in `items`, and lists them in the order of their first
occurrence in `items`; it is a subsequence of `items`, and `Unique` applied to
its own result returns it unchanged. -/
theorem unique_first_occurrences {T : Type} [DecidableEq T] [GoKey T] (items : List T) :
    ((Unique items).filter GoKey.selfEq).Nodup ∧
    ((∀ x ∈ items, GoKey.selfEq x = true) → (Unique items).Nodup) ∧
    (∀ x, x ∈ Unique items ↔ x ∈ items) ∧
    (∀ x y, x ∈ items → y ∈ items →
      (List.indexOf x (Unique items) < List.indexOf y (Unique items) ↔
        List.indexOf x items < List.indexOf y items)) ∧
    (Unique items).Sublist items ∧
    Unique (Unique items) = Unique items := by
  refine ⟨nodup_filter_Unique items, ?_, mem_Unique items, indexOf_Unique_lt_iff items,
    Unique_sublist items, Unique_of_nodup _ (nodup_filter_Unique items)⟩
  intro hall
  have := nodup_filter_Unique items
  rw [filter_eq_self_of_all GoKey.selfEq (Unique items)
    (fun x hx => hall x ((mem_Unique items x).1 hx))] at this
  exact this

theorem unique_first_occurrences_witness :
    (∀ x ∈ ["s1", "s2", "s1", "s3", "s2", "s1"], GoKey.selfEq x = true) ∧
    "s2" ∈ ["s1", "s2", "s1", "s3", "s2", "s1"] ∧ "s3" ∈ ["s1", "s2", "s1", "s3", "s2", "s1"] ∧
    Unique ["s1", "s2", "s1", "s3", "s2", "s1"] = ["s1", "s2", "s3"] ∧
    (Unique ["s1", "s2", "s1", "s3", "s2", "s1"]).Nodup ∧
    (List.indexOf "s2" (Unique ["s1", "s2", "s1", "s3", "s2", "s1"])
        < List.indexOf "s3" (Unique ["s1", "s2", "s1", "s3", "s2", "s1"]) ↔
      List.indexOf "s2" ["s1", "s2", "s1", "s3", "s2", "s1"]
        < List.indexOf "s3" ["s1", "s2", "s1", "s3", "s2", "s1"]) :=
  ⟨by decide, by decide, by decide, by decide,
    (unique_first_occurrences ["s1", "s2", "s1", "s3", "s2", "s1"]).2.1 (by decide),
    (unique_first_occurrences ["s1", "s2", "s1", "s3", "s2", "s1"]).2.2.2.1 "s2" "s3"
      (by decide) (by decide)⟩

/-! ## `Async` -/

theorem TwoReceives_init {T : Type} [Inhabited T] (f : Unit → T) :
    TwoReceives f (AsyncState.init f 2) := Or.inl rfl

theorem TwoReceives_step {T : Type} [Inhabited T] (f : Unit → T) (g : Goroutine)
    (s : AsyncState T) (hs : TwoReceives f s) : TwoReceives f (step g s) := by
  unfold TwoReceives at hs
  rcases hs with rfl | rfl | rfl | rfl | rfl | rfl | rfl | rfl | rfl <;> cases g <;>
    simp [TwoReceives, step, stepProducer, stepReceiver]

theorem TwoReceives_run {T : Type} [Inhabited T] (f : Unit → T) (sched : List Goroutine) :
    ∀ s : AsyncState T, TwoReceives f s → TwoReceives f (run sched s) := by
  induction sched with
  | nil => intro s hs; exact hs
  | cons g rest ih => intro s hs; exact ih _ (TwoReceives_step f g s hs)

theorem run_append {T : Type} [Inhabited T] (s₁ s₂ : List Goroutine) (s : AsyncState T) :
    run (s₁ ++ s₂) s = run s₂ (run s₁ s) := by
  unfold run
  rw [List.foldl_append]

/-- C11: for every `f` that returns a value and every schedule of the goroutine
of `Async(f)` against a caller that receives twice: the results received form at
every moment a prefix of `(f(), true)`, `(zero value, false)`; and however the
schedule started, once both goroutines are scheduled three more times in turn
the caller has received exactly these two results, the second one from the
closed channel. -/
theorem async_one_value_then_closed {T : Type} [Inhabited T] (f : Unit → T)
    (sched : List Goroutine) :
    (run sched (AsyncState.init f 2)).receiver.got <+: [(f (), true), (default, false)] ∧
    (run (sched ++ [.producer, .receiver, .producer, .receiver, .producer, .receiver])
        (AsyncState.init f 2)).receiver
      = ⟨0, false, [(f (), true), (default, false)]⟩ ∧
    (run (sched ++ [.producer, .receiver, .producer, .receiver, .producer, .receiver])
        (AsyncState.init f 2)).ch.closed = true := by
  have hreach := TwoReceives_run f sched _ (TwoReceives_init f)
  rw [run_append]
  generalize run sched (AsyncState.init f 2) = s at hreach ⊢
  unfold TwoReceives at hreach
  rcases hreach with rfl | rfl | rfl | rfl | rfl | rfl | rfl | rfl | rfl <;>
    simp [run, step, stepProducer, stepReceiver, List.prefix_iff_eq_take]

theorem NoReceive_step {T : Type} [Inhabited T] (f : Unit → T) (g : Goroutine)
    (s : AsyncState T) (hs : NoReceive f s) : NoReceive f (step g s) := by
  unfold NoReceive at hs
  rcases hs with rfl | rfl | rfl <;> cases g <;>
    simp [NoReceive, step, stepProducer, stepReceiver]

theorem NoReceive_run {T : Type} [Inhabited T] (f : Unit → T) (sched : List Goroutine) :
    ∀ s : AsyncState T, NoReceive f s → NoReceive f (run sched s) := by
  induction sched with
  | nil => intro s hs; exact hs
  | cons g rest ih => intro s hs; exact ih _ (NoReceive_step f g s hs)

/-- C12: the channel `Async` makes has capacity 0, not 1; with a caller that
never receives, whatever the schedule, the channel is never closed and the
goroutine never gets past its send: after two steps of its own it is blocked in
`ch <- f()` for good. -/
theorem async_unbuffered_producer_blocks {T : Type} [Inhabited T] (f : Unit → T)
    (sched : List Goroutine) :
    (Async f).1.cap = 0 ∧
    (run sched (AsyncState.init f 0)).ch.closed = false ∧
    ((run sched (AsyncState.init f 0)).producer = .calling f ∨
      (run sched (AsyncState.init f 0)).producer = .sending (f ()) ∨
      (run sched (AsyncState.init f 0)).producer = .parked (f ())) ∧
    (run ([.producer, .producer] ++ sched) (AsyncState.init f 0)).producer
      = .parked (f ()) := by
  have hreach := NoReceive_run f sched _ (Or.inl rfl : NoReceive f (AsyncState.init f 0))
  have hparked : ∀ sched : List Goroutine, ∀ s : AsyncState T,
      s = ⟨⟨0, [], false⟩, .parked (f ()), ⟨0, false, []⟩⟩ → run sched s = s := by
    intro sched
    induction sched with
    | nil => intro s _; rfl
    | cons g rest ih =>
      intro s hs
      have hstep : step g s = s := by
        subst hs
        cases g <;> simp [step, stepProducer, stepReceiver]
      show run rest (step g s) = s
      rw [hstep]
      exact ih s hs
  refine ⟨rfl, ?_, ?_, ?_⟩
  · rcases hreach with h | h | h <;> rw [h]
  · rcases hreach with h | h | h <;> rw [h] <;> simp
  · rw [run_append]
    have h2 : run [.producer, .producer] (AsyncState.init f 0)
        = ⟨⟨0, [], false⟩, .parked (f ()), ⟨0, false, []⟩⟩ := by
      simp [run, step, stepProducer, AsyncState.init, Async, makechan]
    rw [hparked sched _ h2, h2]

/-! ## Goroutines on one `Map`: every execution is a serial run -/

theorem serialRun_append {K V : Type} [DecidableEq K] [GoKey K] [Inhabited V]
    (hist : List (Nat × Call K V)) (e : Nat × Call K V) (σ₀ : Heap K V × Map) :
    serialRun (hist ++ [e]) σ₀ =
      ((e.2.apply (serialRun hist σ₀).1).1,
        match (e.2.apply (serialRun hist σ₀).1).2 with
        | some r => (serialRun hist σ₀).2 ++ [(e.1, r)]
        | none => (serialRun hist σ₀).2) := by
  unfold serialRun
  rw [List.foldl_append]
  rfl

theorem callsOf_append {K V : Type} (j i : Nat) (hist : List (Nat × Call K V))
    (c : Call K V) :
    callsOf j (hist ++ [(i, c)]) = callsOf j hist ++ (if i = j then [c] else []) := by
  unfold callsOf
  by_cases h : i = j <;> simp [List.filter_append, h]

theorem loadsOf_append {V : Type} (j i : Nat) (results : List (Nat × (V × Bool)))
    (r : V × Bool) :
    loadsOf j (results ++ [(i, r)]) = loadsOf j results ++ (if i = j then [r] else []) := by
  unfold loadsOf
  by_cases h : i = j <;> simp [List.filter_append, h]

theorem PC.idle_or_inWrite_or_inRead {K V : Type} (pc : PC K V) :
    pc = .idle ∨ pc.inWrite ∨ pc.inRead := by
  cases pc with
  | idle => exact Or.inl rfl
  | locked c => cases c <;> simp [PC.inWrite, PC.inRead]
  | sawNil k v => simp [PC.inWrite]
  | assigning k v => simp [PC.inWrite]
  | unlocking w => cases w <;> simp [PC.inWrite, PC.inRead]
  | panicked => simp [PC.inWrite]

/-- With the lock free of writers and of readers, every goroutine is between calls. -/
theorem Serializable.all_idle {K V : Type} [DecidableEq K] [GoKey K] [Inhabited V]
    {σ₀ : Heap K V × Map} {P : Nat → List (Call K V)} {s : Shared K V}
    (inv : Serializable σ₀ P s) (hw : s.mu.writer = false) (hr : s.mu.readers = []) :
    ∀ j, (s.workers j).pc = .idle := by
  intro j
  rcases PC.idle_or_inWrite_or_inRead (s.workers j).pc with h | h | h
  · exact h
  · have := (inv.excl j h).1
    rw [hw] at this
    cases this
  · have := (inv.rd j h).1
    rw [hr] at this
    cases this

theorem Serializable.lockWrite {K V : Type} [DecidableEq K] [GoKey K] [Inhabited V]
    {σ₀ : Heap K V × Map} {P : Nat → List (Call K V)} {s : Shared K V}
    (inv : Serializable σ₀ P s) (i : Nat) (c : Call K V) (rest : List (Call K V))
    (hpc : (s.workers i).pc = .idle) (htodo : (s.workers i).todo = c :: rest)
    (hc : (PC.locked c : PC K V).inWrite) :
    Serializable σ₀ P (lockWrite i s c rest) := by
  unfold Tools.lockWrite
  by_cases hblock : s.mu.writer = true ∨ s.mu.readers.isEmpty = false
  · rw [if_pos hblock]; exact inv
  · rw [if_neg hblock]
    have hw : s.mu.writer = false := by
      cases h : s.mu.writer
      · rfl
      · exact absurd (Or.inl h) hblock
    have hr : s.mu.readers = [] := by
      cases h : s.mu.readers with
      | nil => rfl
      | cons a t => exact absurd (Or.inr (by rw [h]; rfl)) hblock
    have hidle := inv.all_idle hw hr
    have hcur : (s.heap, s.m) = (serialRun s.history σ₀).1 := inv.quiet hw
    refine ⟨?_, ?_, ?_, ?_, ?_, ?_, ?_, ?_⟩
    · intro h; cases h
    · intro j hj
      refine ⟨rfl, hr, ?_⟩
      intro j' hne
      by_cases hj' : j' = i
      · subst hj'
        by_cases hji : j = j'
        · exact absurd hji.symm hne
        · simp only [Function.update_noteq hji] at hj
          rw [hidle j] at hj
          exact absurd hj (by simp [PC.inWrite])
      · simp only [Function.update_noteq hj']
        exact hidle j'
    · intro _
      exact ⟨i, by simpa using hc⟩
    · intro j hj
      by_cases hji : j = i
      · subst hji
        simp only [Function.update_same] at hj
        cases c <;> simp [PC.inWrite, PC.inRead] at hc hj
      · simp only [Function.update_noteq hji] at hj
        rw [hidle j] at hj
        exact absurd hj (by simp [PC.inRead])
    · intro j
      by_cases hji : j = i
      · subst hji
        simp only [Function.update_same]
        cases c with
        | store k v => exact hcur
        | delete k => exact hcur
        | load k => simp [PC.inWrite] at hc
      · simp only [Function.update_noteq hji]
        rw [hidle j]
        trivial
    · intro j
      by_cases hji : j = i
      · subst hji
        simp only [Function.update_same]
        have := inv.order j
        rw [hpc, htodo] at this
        simpa [PC.pending] using this
      · simp only [Function.update_noteq hji]
        exact inv.order j
    · intro j
      by_cases hji : j = i
      · subst hji
        simp only [Function.update_same]
        exact inv.loads j
      · simp only [Function.update_noteq hji]
        exact inv.loads j
    · intro j hj
      have hj' : j ∈ s.mu.readers := hj
      rw [hr] at hj'
      cases hj'

theorem Serializable.lockRead {K V : Type} [DecidableEq K] [GoKey K] [Inhabited V]
    {σ₀ : Heap K V × Map} {P : Nat → List (Call K V)} {s : Shared K V}
    (inv : Serializable σ₀ P s) (i : Nat) (key : K) (rest : List (Call K V))
    (hpc : (s.workers i).pc = .idle) (htodo : (s.workers i).todo = .load key :: rest) :
    Serializable σ₀ P (lockRead i s (.load key) rest) := by
  unfold Tools.lockRead
  by_cases hblock : s.mu.writer = true
  · rw [if_pos hblock]; exact inv
  · rw [if_neg hblock]
    have hw : s.mu.writer = false := by
      cases h : s.mu.writer
      · rfl
      · exact absurd h hblock
    refine ⟨?_, ?_, ?_, ?_, ?_, ?_, ?_, ?_⟩
    · intro _; exact inv.quiet hw
    · intro j hj
      by_cases hji : j = i
      · subst hji
        simp only [Function.update_same] at hj
        simp [PC.inWrite] at hj
      · simp only [Function.update_noteq hji] at hj
        have := (inv.excl j hj).1
        rw [hw] at this
        cases this
    · intro h
      have h' : s.mu.writer = true := h
      rw [hw] at h'
      cases h'
    · intro j hj
      by_cases hji : j = i
      · subst hji
        exact ⟨List.mem_cons_self _ _, hw⟩
      · simp only [Function.update_noteq hji] at hj
        exact ⟨List.mem_cons_of_mem _ (inv.rd j hj).1, hw⟩
    · intro j
      by_cases hji : j = i
      · subst hji
        simp only [Function.update_same]
        trivial
      · simp only [Function.update_noteq hji]
        exact inv.body j
    · intro j
      by_cases hji : j = i
      · subst hji
        simp only [Function.update_same]
        have := inv.order j
        rw [hpc, htodo] at this
        simpa [PC.pending] using this
      · simp only [Function.update_noteq hji]
        exact inv.order j
    · intro j
      by_cases hji : j = i
      · subst hji
        simp only [Function.update_same]
        exact inv.loads j
      · simp only [Function.update_noteq hji]
        exact inv.loads j
    · intro j hj
      by_cases hji : j = i
      · subst hji
        simp only [Function.update_same]
        trivial
      · simp only [Function.update_noteq hji]
        have hj' : j ∈ i :: s.mu.readers := hj
        rcases List.mem_cons.1 hj' with h' | h'
        · exact absurd h' hji
        · exact inv.rdOnly j h'

/-- A step of a goroutine that holds the write lock and leaves heap, `Map`,
lock and history as they are: only its own place changes, to one that still
holds the write lock. -/
theorem Serializable.writer_moves {K V : Type} [DecidableEq K] [GoKey K] [Inhabited V]
    {σ₀ : Heap K V × Map} {P : Nat → List (Call K V)} {s : Shared K V}
    (inv : Serializable σ₀ P s) (i : Nat) (hin : (s.workers i).pc.inWrite)
    (cur : Heap K V × Map) (hist : List (Nat × Call K V)) (pc' : PC K V)
    (hin' : pc'.inWrite)
    (hbody : pc'.bodyInv cur (serialRun hist σ₀).1)
    (horder : callsOf i hist ++ pc'.pending ++ (s.workers i).todo = P i)
    (hothers : ∀ j, j ≠ i → callsOf j hist = callsOf j s.history)
    (hloads : ∀ j, loadsOf j (serialRun hist σ₀).2 = loadsOf j (serialRun s.history σ₀).2) :
    Serializable σ₀ P
      ⟨cur.1, cur.2, s.mu,
        Function.update s.workers i ⟨(s.workers i).todo, pc', (s.workers i).loaded⟩, hist⟩ := by
  obtain ⟨hw, hr, hidle⟩ := inv.excl i hin
  refine ⟨?_, ?_, ?_, ?_, ?_, ?_, ?_, ?_⟩
  · intro h
    have h' : s.mu.writer = false := h
    rw [hw] at h'
    cases h'
  · intro j hj
    refine ⟨hw, hr, ?_⟩
    intro j' hne
    by_cases hj' : j' = i
    · subst hj'
      by_cases hji : j = j'
      · exact absurd hji.symm hne
      · simp only [Function.update_noteq hji] at hj
        rw [hidle j hji] at hj
        exact absurd hj (by simp [PC.inWrite])
    · simp only [Function.update_noteq hj']
      exact hidle j' hj'
  · intro _
    exact ⟨i, by simpa using hin'⟩
  · intro j hj
    by_cases hji : j = i
    · subst hji
      simp only [Function.update_same] at hj
      exfalso
      cases pc' with
      | idle => simp [PC.inWrite] at hin'
      | locked c => cases c <;> simp [PC.inWrite, PC.inRead] at hin' hj
      | sawNil k v => simp [PC.inRead] at hj
      | assigning k v => simp [PC.inRead] at hj
      | unlocking w => cases w <;> simp [PC.inWrite, PC.inRead] at hin' hj
      | panicked => simp [PC.inRead] at hj
    · simp only [Function.update_noteq hji] at hj
      rw [hidle j hji] at hj
      exact absurd hj (by simp [PC.inRead])
  · intro j
    by_cases hji : j = i
    · subst hji
      simp only [Function.update_same]
      exact hbody
    · simp only [Function.update_noteq hji]
      rw [hidle j hji]
      trivial
  · intro j
    by_cases hji : j = i
    · subst hji
      simp only [Function.update_same]
      exact horder
    · simp only [Function.update_noteq hji]
      rw [hothers j hji]
      exact inv.order j
  · intro j
    by_cases hji : j = i
    · subst hji
      simp only [Function.update_same]
      rw [hloads]
      exact inv.loads j
    · simp only [Function.update_noteq hji]
      rw [hloads]
      exact inv.loads j
  · intro j hj
    have hj' : j ∈ s.mu.readers := hj
    rw [hr] at hj'
    cases hj'

theorem Serializable.load_step {K V : Type} [DecidableEq K] [GoKey K] [Inhabited V]
    {σ₀ : Heap K V × Map} {P : Nat → List (Call K V)} {s : Shared K V}
    (inv : Serializable σ₀ P s) (i : Nat) (key : K)
    (hpc : (s.workers i).pc = .locked (.load key)) :
    Serializable σ₀ P
      ⟨s.heap, s.m, s.mu,
        Function.update s.workers i
          ⟨(s.workers i).todo, .unlocking false,
            (s.workers i).loaded ++ [Map.Load s.heap s.m key]⟩,
        s.history ++ [(i, .load key)]⟩ := by
  have hin : (s.workers i).pc.inRead := by rw [hpc]; trivial
  obtain ⟨hmem, hw⟩ := inv.rd i hin
  have hcur : (s.heap, s.m) = (serialRun s.history σ₀).1 := inv.quiet hw
  have hrun : serialRun (s.history ++ [(i, Call.load key)]) σ₀ =
      ((serialRun s.history σ₀).1,
        (serialRun s.history σ₀).2 ++ [(i, Map.Load s.heap s.m key)]) := by
    rw [serialRun_append]
    simp only [Call.apply]
    rw [← hcur]
  refine ⟨?_, ?_, ?_, ?_, ?_, ?_, ?_, ?_⟩
  · intro _
    rw [hrun]
    exact hcur
  · intro j hj
    exfalso
    by_cases hji : j = i
    · subst hji
      simp only [Function.update_same] at hj
      simp [PC.inWrite] at hj
    · simp only [Function.update_noteq hji] at hj
      have := (inv.excl j hj).1
      rw [hw] at this
      cases this
  · intro h
    have h' : s.mu.writer = true := h
    rw [hw] at h'
    cases h'
  · intro j hj
    by_cases hji : j = i
    · subst hji
      exact ⟨hmem, hw⟩
    · simp only [Function.update_noteq hji] at hj
      exact inv.rd j hj
  · intro j
    rw [hrun]
    by_cases hji : j = i
    · subst hji
      simp only [Function.update_same]
      trivial
    · simp only [Function.update_noteq hji]
      exact inv.body j
  · intro j
    rw [callsOf_append]
    by_cases hji : j = i
    · subst hji
      simp only [Function.update_same, if_true]
      have := inv.order j
      rw [hpc] at this
      simpa [PC.pending] using this
    · simp only [Function.update_noteq hji, if_neg (Ne.symm hji), List.append_nil]
      exact inv.order j
  · intro j
    rw [hrun]
    simp only [loadsOf_append]
    by_cases hji : j = i
    · subst hji
      simp only [Function.update_same, if_true]
      rw [inv.loads j]
    · simp only [Function.update_noteq hji, if_neg (Ne.symm hji), List.append_nil]
      exact inv.loads j
  · intro j hj
    by_cases hji : j = i
    · subst hji
      simp only [Function.update_same]
      trivial
    · simp only [Function.update_noteq hji]
      exact inv.rdOnly j hj

theorem Serializable.unlock_step {K V : Type} [DecidableEq K] [GoKey K] [Inhabited V]
    {σ₀ : Heap K V × Map} {P : Nat → List (Call K V)} {s : Shared K V}
    (inv : Serializable σ₀ P s) (i : Nat) (hpc : (s.workers i).pc = .unlocking true) :
    Serializable σ₀ P
      ⟨s.heap, s.m, ⟨false, s.mu.readers⟩,
        Function.update s.workers i ⟨(s.workers i).todo, .idle, (s.workers i).loaded⟩,
        s.history⟩ := by
  have hin : (s.workers i).pc.inWrite := by rw [hpc]; trivial
  obtain ⟨hw, hr, hidle⟩ := inv.excl i hin
  have hcur : (s.heap, s.m) = (serialRun s.history σ₀).1 := by
    have := inv.body i
    rw [hpc] at this
    exact this
  have hall : ∀ j, ((Function.update s.workers i
      ⟨(s.workers i).todo, PC.idle, (s.workers i).loaded⟩) j).pc = .idle := by
    intro j
    by_cases hji : j = i
    · subst hji; simp
    · simp only [Function.update_noteq hji]; exact hidle j hji
  refine ⟨?_, ?_, ?_, ?_, ?_, ?_, ?_, ?_⟩
  · intro _; exact hcur
  · intro j hj
    have hj' : ((Function.update s.workers i
        ⟨(s.workers i).todo, PC.idle, (s.workers i).loaded⟩) j).pc.inWrite := hj
    rw [hall j] at hj'
    exact absurd hj' (by simp [PC.inWrite])
  · intro h; cases h
  · intro j hj
    have hj' : ((Function.update s.workers i
        ⟨(s.workers i).todo, PC.idle, (s.workers i).loaded⟩) j).pc.inRead := hj
    rw [hall j] at hj'
    exact absurd hj' (by simp [PC.inRead])
  · intro j
    show ((Function.update s.workers i
        ⟨(s.workers i).todo, PC.idle, (s.workers i).loaded⟩) j).pc.bodyInv _ _
    rw [hall j]
    trivial
  · intro j
    by_cases hji : j = i
    · subst hji
      simp only [Function.update_same]
      have := inv.order j
      rw [hpc] at this
      simpa [PC.pending] using this
    · simp only [Function.update_noteq hji]
      exact inv.order j
  · intro j
    by_cases hji : j = i
    · subst hji
      simp only [Function.update_same]
      exact inv.loads j
    · simp only [Function.update_noteq hji]
      exact inv.loads j
  · intro j hj
    have hj' : j ∈ s.mu.readers := hj
    rw [hr] at hj'
    cases hj'

theorem Serializable.runlock_step {K V : Type} [DecidableEq K] [GoKey K] [Inhabited V]
    {σ₀ : Heap K V × Map} {P : Nat → List (Call K V)} {s : Shared K V}
    (inv : Serializable σ₀ P s) (i : Nat) (hpc : (s.workers i).pc = .unlocking false) :
    Serializable σ₀ P
      ⟨s.heap, s.m, ⟨s.mu.writer, s.mu.readers.filter (fun j => decide (j ≠ i))⟩,
        Function.update s.workers i ⟨(s.workers i).todo, .idle, (s.workers i).loaded⟩,
        s.history⟩ := by
  have hin : (s.workers i).pc.inRead := by rw [hpc]; trivial
  obtain ⟨-, hw⟩ := inv.rd i hin
  refine ⟨?_, ?_, ?_, ?_, ?_, ?_, ?_, ?_⟩
  · intro _; exact inv.quiet hw
  · intro j hj
    exfalso
    by_cases hji : j = i
    · subst hji
      simp only [Function.update_same] at hj
      simp [PC.inWrite] at hj
    · simp only [Function.update_noteq hji] at hj
      have := (inv.excl j hj).1
      rw [hw] at this
      cases this
  · intro h
    have h' : s.mu.writer = true := h
    rw [hw] at h'
    cases h'
  · intro j hj
    by_cases hji : j = i
    · subst hji
      simp only [Function.update_same] at hj
      simp [PC.inRead] at hj
    · simp only [Function.update_noteq hji] at hj
      refine ⟨?_, hw⟩
      exact List.mem_filter.2 ⟨(inv.rd j hj).1, by simpa using hji⟩
  · intro j
    by_cases hji : j = i
    · subst hji
      simp only [Function.update_same]
      trivial
    · simp only [Function.update_noteq hji]
      exact inv.body j
  · intro j
    by_cases hji : j = i
    · subst hji
      simp only [Function.update_same]
      have := inv.order j
      rw [hpc] at this
      simpa [PC.pending] using this
    · simp only [Function.update_noteq hji]
      exact inv.order j
  · intro j
    by_cases hji : j = i
    · subst hji
      simp only [Function.update_same]
      exact inv.loads j
    · simp only [Function.update_noteq hji]
      exact inv.loads j
  · intro j hj
    have hj' : j ∈ s.mu.readers.filter (fun j => decide (j ≠ i)) := hj
    obtain ⟨hmem, hne⟩ := List.mem_filter.1 hj'
    have hji : j ≠ i := by simpa using hne
    simp only [Function.update_noteq hji]
    exact inv.rdOnly j hmem

theorem Serializable.step {K V : Type} [DecidableEq K] [GoKey K] [Inhabited V]
    {σ₀ : Heap K V × Map} {P : Nat → List (Call K V)} {s : Shared K V}
    (inv : Serializable σ₀ P s) (i : Nat) : Serializable σ₀ P (stepWorker i s) := by
  unfold stepWorker
  cases hpc : (s.workers i).pc with
  | idle =>
    cases htodo : (s.workers i).todo with
    | nil => exact inv
    | cons c rest =>
      cases c with
      | store k v => exact inv.lockWrite i _ rest hpc htodo trivial
      | delete k => exact inv.lockWrite i _ rest hpc htodo trivial
      | load k => exact inv.lockRead i k rest hpc htodo
  | locked c =>
    have hbody := inv.body i
    have horder := inv.order i
    rw [hpc] at hbody horder
    cases c with
    | store k v =>
      have hin : (s.workers i).pc.inWrite := by rw [hpc]; trivial
      have hcur : (s.heap, s.m) = (serialRun s.history σ₀).1 := hbody
      by_cases hnil : s.m.m = none
      · simp only [hnil, if_true]
        refine inv.writer_moves i hin (s.heap, s.m) s.history (.sawNil k v) trivial
          ⟨hcur, hnil⟩ ?_ (fun _ _ => rfl) (fun _ => rfl)
        simpa [PC.pending] using horder
      · simp only [hnil, if_false]
        refine inv.writer_moves i hin (s.heap, s.m) s.history (.assigning k v) trivial
          ⟨hnil, ?_⟩ ?_ (fun _ _ => rfl) (fun _ => rfl)
        · rw [← hcur]
          simp only [Map.Store, hnil, if_false]
        · simpa [PC.pending] using horder
    | delete k =>
      have hin : (s.workers i).pc.inWrite := by rw [hpc]; trivial
      have hcur : (s.heap, s.m) = (serialRun s.history σ₀).1 := hbody
      have hrun : serialRun (s.history ++ [(i, Call.delete k)]) σ₀ =
          ((mapdelete s.heap s.m.m k, s.m), (serialRun s.history σ₀).2) := by
        rw [serialRun_append]
        simp only [Call.apply]
        rw [← hcur]
        rfl
      refine inv.writer_moves i hin (mapdelete s.heap s.m.m k, s.m)
        (s.history ++ [(i, .delete k)]) (.unlocking true) trivial ?_ ?_ ?_ ?_
      · show (mapdelete s.heap s.m.m k, s.m) = _
        rw [hrun]
      · rw [callsOf_append]
        simpa [PC.pending] using horder
      · intro j hji
        rw [callsOf_append, if_neg (Ne.symm hji), List.append_nil]
      · intro j
        rw [hrun]
    | load k => exact inv.load_step i k hpc
  | sawNil k v =>
    have hbody := inv.body i
    have horder := inv.order i
    rw [hpc] at hbody horder
    have hin : (s.workers i).pc.inWrite := by rw [hpc]; trivial
    obtain ⟨hcur, hnil⟩ : (s.heap, s.m) = (serialRun s.history σ₀).1 ∧ s.m.m = none := hbody
    refine inv.writer_moves i hin ((makemap s.heap).1, ⟨some (makemap s.heap).2⟩) s.history
      (.assigning k v) trivial ⟨by simp, ?_⟩ ?_ (fun _ _ => rfl) (fun _ => rfl)
    · rw [← hcur]
      simp only [Map.Store, hnil, if_true]
    · simpa [PC.pending] using horder
  | assigning k v =>
    have hbody := inv.body i
    have horder := inv.order i
    rw [hpc] at hbody horder
    have hin : (s.workers i).pc.inWrite := by rw [hpc]; trivial
    obtain ⟨hne, hstore⟩ : s.m.m ≠ none ∧
        Map.Store (serialRun s.history σ₀).1.1 (serialRun s.history σ₀).1.2 k v =
          (match mapassign s.heap s.m.m k v with
            | .ok h' => .ok (h', s.m)
            | .error e => .error e) := hbody
    cases hmm : s.m.m with
    | none => exact absurd hmm hne
    | some a =>
      rw [hmm, mapassign_some] at hstore
      simp only [mapassign_some]
      have hrun : serialRun (s.history ++ [(i, Call.store k v)]) σ₀ =
          ((⟨s.heap.cells.set a (assignKey (s.heap.contents (some a)) k v)⟩, s.m),
            (serialRun s.history σ₀).2) := by
        rw [serialRun_append]
        simp only [Call.apply, hstore]
      refine inv.writer_moves i hin
        (⟨s.heap.cells.set a (assignKey (s.heap.contents (some a)) k v)⟩, s.m)
        (s.history ++ [(i, .store k v)]) (.unlocking true) trivial ?_ ?_ ?_ ?_
      · show (_, _) = _
        rw [hrun]
      · rw [callsOf_append]
        simpa [PC.pending] using horder
      · intro j hji
        rw [callsOf_append, if_neg (Ne.symm hji), List.append_nil]
      · intro j
        rw [hrun]
  | unlocking w =>
    cases w with
    | true => exact inv.unlock_step i hpc
    | false => exact inv.runlock_step i hpc
  | panicked => exact inv

theorem Serializable.init {K V : Type} [DecidableEq K] [GoKey K] [Inhabited V] (h : Heap K V) (m : Map)
    (P : Nat → List (Call K V)) : Serializable (h, m) P (Shared.init h m P) := by
  refine ⟨fun _ => rfl, ?_, ?_, ?_, fun _ => trivial, fun _ => rfl, fun _ => rfl, ?_⟩
  · intro j hj; exact absurd hj (by simp [Shared.init, PC.inWrite])
  · intro h'; cases h'
  · intro j hj; exact absurd hj (by simp [Shared.init, PC.inRead])
  · intro j hj; cases hj

theorem Serializable.run {K V : Type} [DecidableEq K] [GoKey K] [Inhabited V]
    {σ₀ : Heap K V × Map} {P : Nat → List (Call K V)} (sched : List Nat) :
    ∀ s : Shared K V, Serializable σ₀ P s → Serializable σ₀ P (runWorkers sched s) := by
  induction sched with
  | nil => intro s inv; exact inv
  | cons i rest ih => intro s inv; exact ih _ (inv.step i)

theorem stepWorker_other {K V : Type} [DecidableEq K] [GoKey K] [Inhabited V] (i j : Nat) (hji : j ≠ i)
    (s : Shared K V) : (stepWorker i s).workers j = s.workers j := by
  unfold stepWorker
  cases (s.workers i).pc with
  | idle =>
    cases (s.workers i).todo with
    | nil => rfl
    | cons c rest =>
      cases c <;> simp only [lockWrite, lockRead] <;> split <;>
        simp [Function.update_noteq hji]
  | locked c => cases c <;> simp [Function.update_noteq hji]
  | sawNil k v => simp [Function.update_noteq hji]
  | assigning k v =>
    simp only []
    split <;> simp [Function.update_noteq hji]
  | unlocking w => cases w <;> simp [Function.update_noteq hji]
  | panicked => rfl

theorem stepWorker_done {K V : Type} [DecidableEq K] [GoKey K] [Inhabited V] (i : Nat) (s : Shared K V)
    (hpc : (s.workers i).pc = .idle) (htodo : (s.workers i).todo = []) :
    stepWorker i s = s := by
  unfold stepWorker
  rw [hpc, htodo]

/-- A goroutine that has no call left and is between calls stays as it is. -/
theorem runWorkers_done {K V : Type} [DecidableEq K] [GoKey K] [Inhabited V] (j : Nat)
    (sched : List Nat) :
    ∀ s : Shared K V, (s.workers j).pc = .idle → (s.workers j).todo = [] →
      (runWorkers sched s).workers j = s.workers j := by
  induction sched with
  | nil => intro s _ _; rfl
  | cons i rest ih =>
    intro s hpc htodo
    show (runWorkers rest (stepWorker i s)).workers j = s.workers j
    by_cases hji : j = i
    · subst hji
      rw [stepWorker_done j s hpc htodo]
      exact ih s hpc htodo
    · have hsame := stepWorker_other i j hji s
      rw [ih (stepWorker i s) (by rw [hsame]; exact hpc) (by rw [hsame]; exact htodo), hsame]

/-- The lock is what makes the executions serial: with the lock taken away, two
goroutines that both find `m.m == nil` each make a map, and the entry stored by
the first is lost, though both calls have returned. -/
theorem unguarded_store_is_lost :
    ((runUnguarded [0, 0, 1, 1, 0, 0, 0, 1, 1, 1]
        (Shared.init (⟨[]⟩ : Heap Nat Nat) Map.zero twoStores)).history
      = [(0, .store 1 10), (1, .store 2 20)]) ∧
    ((runUnguarded [0, 0, 1, 1, 0, 0, 0, 1, 1, 1]
        (Shared.init (⟨[]⟩ : Heap Nat Nat) Map.zero twoStores)).heap.contents
      (runUnguarded [0, 0, 1, 1, 0, 0, 0, 1, 1, 1]
        (Shared.init (⟨[]⟩ : Heap Nat Nat) Map.zero twoStores)).m.m = [(2, 20)]) ∧
    ((serialRun [(0, .store 1 10), (1, .store 2 20)] ((⟨[]⟩ : Heap Nat Nat), Map.zero)).1.1.contents
      (serialRun [(0, .store 1 10), (1, .store 2 20)] ((⟨[]⟩ : Heap Nat Nat), Map.zero)).1.2.m
      = [(1, 10), (2, 20)]) ∧
    ((runWorkers [0, 0, 1, 1, 0, 0, 0, 1, 1, 1]
        (Shared.init (⟨[]⟩ : Heap Nat Nat) Map.zero twoStores)).heap.contents
      (runWorkers [0, 0, 1, 1, 0, 0, 0, 1, 1, 1]
        (Shared.init (⟨[]⟩ : Heap Nat Nat) Map.zero twoStores)).m.m = [(1, 10), (2, 20)]) := by
  decide

/-! ## Goroutines on one `Map`: every call returns -/

theorem Call.cost_pos {K V : Type} (c : Call K V) : 0 < c.cost := by
  cases c <;> simp [Call.cost]

theorem PC.cost_locked {K V : Type} (c : Call K V) : (PC.locked c).cost + 1 = c.cost := by
  cases c <;> rfl

/-- Inside a call a goroutine is never blocked: its next step leaves it with
fewer statements to run. -/
theorem Serializable.body_step_cost {K V : Type} [DecidableEq K] [GoKey K] [Inhabited V]
    {σ₀ : Heap K V × Map} {P : Nat → List (Call K V)} {s : Shared K V}
    (inv : Serializable σ₀ P s) (i : Nat) (hpc : (s.workers i).pc ≠ .idle) :
    ((stepWorker i s).workers i).cost < (s.workers i).cost := by
  have hbody := inv.body i
  unfold stepWorker
  cases h : (s.workers i).pc with
  | idle => exact absurd h hpc
  | locked c =>
    cases c with
    | store k v =>
      by_cases hnil : s.m.m = none <;>
        simp [Worker.cost, PC.cost, h, hnil]
    | delete k => simp [Worker.cost, PC.cost, h]
    | load k => simp [Worker.cost, PC.cost, h]
  | sawNil k v => simp [Worker.cost, PC.cost, h]
  | assigning k v =>
    rw [h] at hbody
    have hne : s.m.m ≠ none := hbody.1
    cases hmm : s.m.m with
    | none => exact absurd hmm hne
    | some a => simp [Worker.cost, PC.cost, h, mapassign_some]
  | unlocking w => cases w <;> simp [Worker.cost, PC.cost, h]
  | panicked =>
    rw [h] at hbody
    exact absurd hbody (by simp [PC.bodyInv])

/-- With every goroutine between calls the lock is free, and a goroutine that
has a call left enters it. -/
theorem Serializable.lock_step_cost {K V : Type} [DecidableEq K] [GoKey K] [Inhabited V]
    {σ₀ : Heap K V × Map} {P : Nat → List (Call K V)} {s : Shared K V}
    (inv : Serializable σ₀ P s) (hidle : ∀ j, (s.workers j).pc = .idle) (i : Nat)
    (htodo : (s.workers i).todo ≠ []) :
    ((stepWorker i s).workers i).cost < (s.workers i).cost := by
  have hw : s.mu.writer = false := by
    cases hw : s.mu.writer with
    | false => rfl
    | true =>
      obtain ⟨j, hj⟩ := inv.held hw
      rw [hidle j] at hj
      exact absurd hj (by simp [PC.inWrite])
  have hr : s.mu.readers = [] := by
    cases hr : s.mu.readers with
    | nil => rfl
    | cons a t =>
      have := inv.rdOnly a (by rw [hr]; exact List.mem_cons_self _ _)
      rw [hidle a] at this
      exact absurd this (by simp [PC.inRead])
  unfold stepWorker
  rw [hidle i]
  cases htd : (s.workers i).todo with
  | nil => exact absurd htd htodo
  | cons c rest =>
    cases c <;>
      simp [Tools.lockWrite, Tools.lockRead, hw, hr, Worker.cost, PC.cost, Call.cost, hidle i,
        htd]

/-- A step that moves a goroutine takes it one statement nearer to the return of
all its calls: a goroutine moves only finitely often. -/
theorem Serializable.moving_step_cost {K V : Type} [DecidableEq K] [GoKey K] [Inhabited V]
    {σ₀ : Heap K V × Map} {P : Nat → List (Call K V)} {s : Shared K V}
    (inv : Serializable σ₀ P s) (i : Nat) (hmove : stepWorker i s ≠ s) :
    ((stepWorker i s).workers i).cost < (s.workers i).cost := by
  by_cases hpc : (s.workers i).pc = .idle
  · revert hmove
    unfold stepWorker
    rw [hpc]
    cases htd : (s.workers i).todo with
    | nil => intro hmove; exact absurd rfl hmove
    | cons c rest =>
      cases c <;> simp only [Tools.lockWrite, Tools.lockRead] <;> split <;> intro hmove <;>
        first
        | exact absurd rfl hmove
        | simp [Worker.cost, PC.cost, Call.cost, hpc, htd]
  · exact inv.body_step_cost i hpc

theorem remaining_step_lt {K V : Type} [DecidableEq K] [GoKey K] [Inhabited V] (n i : Nat)
    (hi : i < n) (s : Shared K V)
    (hlt : ((stepWorker i s).workers i).cost < (s.workers i).cost) :
    remaining n (stepWorker i s) < remaining n s := by
  unfold remaining
  apply Finset.sum_lt_sum
  · intro j _
    by_cases hji : j = i
    · subst hji; exact Nat.le_of_lt hlt
    · rw [stepWorker_other i j hji s]
  · exact ⟨i, Finset.mem_range.2 hi, hlt⟩

theorem Worker.cost_eq_zero {K V : Type} (w : Worker K V) (h : w.cost = 0) :
    w.todo = [] ∧ w.pc.cost = 0 := by
  unfold Worker.cost at h
  constructor
  · cases htd : w.todo with
    | nil => rfl
    | cons c rest =>
      rw [htd] at h
      have := Call.cost_pos c
      simp at h
      omega
  · omega

/-- From every state of an execution of finitely many goroutines there is a
schedule under which every call returns. -/
theorem Serializable.exists_completion {K V : Type} [DecidableEq K] [GoKey K] [Inhabited V]
    {σ₀ : Heap K V × Map} {P : Nat → List (Call K V)} (n : Nat) :
    ∀ (μ : Nat) (s : Shared K V), Serializable σ₀ P s →
      (∀ k, n ≤ k → (s.workers k).pc = .idle ∧ (s.workers k).todo = []) →
      remaining n s ≤ μ → ∃ more : List Nat, (runWorkers more s).allReturned := by
  intro μ
  induction μ with
  | zero =>
    intro s inv hout hμ
    refine ⟨[], ?_⟩
    intro j
    show (s.workers j).todo = [] ∧ (s.workers j).pc = .idle
    by_cases hj : j < n
    · have hsum : remaining n s = 0 := Nat.le_zero.1 hμ
      have hz : (s.workers j).cost = 0 :=
        (Finset.sum_eq_zero_iff.1 hsum) j (Finset.mem_range.2 hj)
      obtain ⟨htodo, hcost⟩ := Worker.cost_eq_zero _ hz
      refine ⟨htodo, ?_⟩
      have hbody := inv.body j
      cases hpc : (s.workers j).pc with
      | idle => rfl
      | locked c => rw [hpc] at hcost; cases c <;> simp [PC.cost] at hcost
      | sawNil k v => rw [hpc] at hcost; simp [PC.cost] at hcost
      | assigning k v => rw [hpc] at hcost; simp [PC.cost] at hcost
      | unlocking w => rw [hpc] at hcost; simp [PC.cost] at hcost
      | panicked => rw [hpc] at hbody; exact absurd hbody (by simp [PC.bodyInv])
    · exact ⟨(hout j (Nat.le_of_not_lt hj)).2, (hout j (Nat.le_of_not_lt hj)).1⟩
  | succ μ ih =>
    intro s inv hout hμ
    by_cases hle : remaining n s ≤ μ
    · exact ih s inv hout hle
    · have hpos : 0 < remaining n s := by omega
      have hstep : ∃ i, i < n ∧ ((stepWorker i s).workers i).cost < (s.workers i).cost := by
        by_cases hcs : ∃ j, (s.workers j).pc ≠ .idle
        · obtain ⟨j, hj⟩ := hcs
          have hjn : j < n := by
            by_contra hc
            exact hj (hout j (Nat.le_of_not_lt hc)).1
          exact ⟨j, hjn, inv.body_step_cost j hj⟩
        · have hidle : ∀ j, (s.workers j).pc = .idle := by
            intro j
            by_contra hc
            exact hcs ⟨j, hc⟩
          have hex : ∃ j ∈ Finset.range n, (s.workers j).cost ≠ 0 := by
            by_contra hc
            have hall : ∀ j ∈ Finset.range n, (s.workers j).cost = 0 := by
              intro j hj
              by_contra hne
              exact hc ⟨j, hj, hne⟩
            have : remaining n s = 0 := Finset.sum_eq_zero hall
            omega
          obtain ⟨j, hjn, hcost⟩ := hex
          have htodo : (s.workers j).todo ≠ [] := by
            intro htd
            apply hcost
            simp [Worker.cost, htd, hidle j, PC.cost]
          exact ⟨j, Finset.mem_range.1 hjn, inv.lock_step_cost hidle j htodo⟩
      obtain ⟨i, hin, hlt⟩ := hstep
      have hrem := remaining_step_lt n i hin s hlt
      have hout' : ∀ k, n ≤ k →
          ((stepWorker i s).workers k).pc = .idle ∧ ((stepWorker i s).workers k).todo = [] := by
        intro k hk
        have hki : k ≠ i := by omega
        rw [stepWorker_other i k hki s]
        exact hout k hk
      obtain ⟨more, hdone⟩ := ih (stepWorker i s) (inv.step i) hout' (by omega)
      exact ⟨i :: more, hdone⟩

theorem runWorkers_append {K V : Type} [DecidableEq K] [GoKey K] [Inhabited V]
    (s₁ s₂ : List Nat) (s : Shared K V) :
    runWorkers (s₁ ++ s₂) s = runWorkers s₂ (runWorkers s₁ s) := by
  unfold runWorkers
  rw [List.foldl_append]

/-- C19: goroutines run programs of `Store`, `Delete` and `Load` calls on one
`Map`, statement by statement under any schedule, each call between the lock and
unlock of `map.go`.  At every moment: each goroutine has got from its `Load`
calls the results of the serial run of the history (the calls in the order in
which their bodies took effect); the history holds calls of each goroutine in
program order; while a goroutine is inside `Store` or `Delete` it holds the
lock alone and every other goroutine is between calls; while a goroutine is
inside `Load` no goroutine is inside `Store` or `Delete` and the heap and the
`Map` are those of the serial run, so no `Load` sees a mapping partly changed.
When all calls have returned, the history holds exactly the calls of every
program, in program order, and the heap and the `Map` are those of the serial
run.  Every step that moves a goroutine lowers the number of statements left,
so the goroutines move only finitely often, and with finitely many goroutines
every execution can be continued to one in which all calls have returned: no
goroutine stays blocked for ever and none panics. -/
theorem concurrent_calls_serialize {K V : Type} [DecidableEq K] [GoKey K] [Inhabited V]
    (h : Heap K V) (m : Map) (P : Nat → List (Call K V)) (sched : List Nat) :
    (∀ j, ((runWorkers sched (Shared.init h m P)).workers j).loaded =
      loadsOf j (serialRun (runWorkers sched (Shared.init h m P)).history (h, m)).2) ∧
    (∀ j, ∃ rest, callsOf j (runWorkers sched (Shared.init h m P)).history ++ rest = P j) ∧
    (∀ j, ((runWorkers sched (Shared.init h m P)).workers j).pc.inWrite →
      (runWorkers sched (Shared.init h m P)).mu.writer = true ∧
      (runWorkers sched (Shared.init h m P)).mu.readers = [] ∧
      ∀ j', j' ≠ j → ((runWorkers sched (Shared.init h m P)).workers j').pc = .idle) ∧
    (∀ j, ((runWorkers sched (Shared.init h m P)).workers j).pc.inRead →
      j ∈ (runWorkers sched (Shared.init h m P)).mu.readers ∧
      (runWorkers sched (Shared.init h m P)).mu.writer = false ∧
      (∀ j', ¬ ((runWorkers sched (Shared.init h m P)).workers j').pc.inWrite) ∧
      ((runWorkers sched (Shared.init h m P)).heap, (runWorkers sched (Shared.init h m P)).m)
        = (serialRun (runWorkers sched (Shared.init h m P)).history (h, m)).1) ∧
    ((runWorkers sched (Shared.init h m P)).allReturned →
      (∀ j, callsOf j (runWorkers sched (Shared.init h m P)).history = P j) ∧
      ((runWorkers sched (Shared.init h m P)).heap, (runWorkers sched (Shared.init h m P)).m)
        = (serialRun (runWorkers sched (Shared.init h m P)).history (h, m)).1) ∧
    (∀ n i, i < n →
      stepWorker i (runWorkers sched (Shared.init h m P)) ≠ runWorkers sched (Shared.init h m P) →
      remaining n (stepWorker i (runWorkers sched (Shared.init h m P)))
        < remaining n (runWorkers sched (Shared.init h m P))) ∧
    (∀ n, (∀ j, n ≤ j → P j = []) →
      ∃ more, (runWorkers (sched ++ more) (Shared.init h m P)).allReturned) := by
  have inv : Serializable (h, m) P (runWorkers sched (Shared.init h m P)) :=
    Serializable.run sched _ (Serializable.init h m P)
  have hout : ∀ n, (∀ j, n ≤ j → P j = []) → ∀ k, n ≤ k →
      ((runWorkers sched (Shared.init h m P)).workers k).pc = .idle ∧
      ((runWorkers sched (Shared.init h m P)).workers k).todo = [] := by
    intro n hP k hk
    have hinit : ((Shared.init h m P).workers k).todo = [] := hP k hk
    rw [runWorkers_done k sched (Shared.init h m P) rfl hinit]
    exact ⟨rfl, hinit⟩
  have hcomplete : ∀ n, (∀ j, n ≤ j → P j = []) →
      ∃ more, (runWorkers (sched ++ more) (Shared.init h m P)).allReturned := by
    intro n hP
    obtain ⟨more, hdone⟩ := Serializable.exists_completion n _ _ inv (hout n hP) (Nat.le_refl _)
    exact ⟨more, by rw [runWorkers_append]; exact hdone⟩
  refine ⟨inv.loads, ?_, inv.excl, ?_, ?_,
    fun n i hi hmove => remaining_step_lt n i hi _ (inv.moving_step_cost i hmove), hcomplete⟩
  · intro j
    refine ⟨((runWorkers sched (Shared.init h m P)).workers j).pc.pending
      ++ ((runWorkers sched (Shared.init h m P)).workers j).todo, ?_⟩
    rw [← List.append_assoc]
    exact inv.order j
  · intro j hj
    obtain ⟨hmem, hw⟩ := inv.rd j hj
    refine ⟨hmem, hw, ?_, inv.quiet hw⟩
    intro j' hj'
    have := (inv.excl j' hj').1
    rw [hw] at this
    cases this
  · intro hdone
    constructor
    · intro j
      have := inv.order j
      rw [(hdone j).1, (hdone j).2] at this
      simpa [PC.pending] using this
    · apply inv.quiet
      cases hw : (runWorkers sched (Shared.init h m P)).mu.writer with
      | false => rfl
      | true =>
        obtain ⟨j, hj⟩ := inv.held hw
        rw [(hdone j).2] at hj
        exact absurd hj (by simp [PC.inWrite])

theorem concurrent_calls_serialize_witness :
    (runWorkers [0, 1, 0, 0, 1, 0, 0, 1, 1, 0, 1, 1, 0, 1, 0, 1, 0, 1, 1, 1]
        (Shared.init (⟨[]⟩ : Heap Nat Nat) Map.zero twoWorkers)).allReturned ∧
    (∀ j, 2 ≤ j → twoWorkers j = []) ∧
    (runWorkers [0, 1, 0, 0, 1, 0, 0, 1, 1, 0, 1, 1, 0, 1, 0, 1, 0, 1, 1, 1]
        (Shared.init (⟨[]⟩ : Heap Nat Nat) Map.zero twoWorkers)).history
      = [(0, .store 1 10), (1, .store 2 20), (0, .load 2), (1, .delete 1)] ∧
    ((runWorkers [0, 1, 0, 0, 1, 0, 0, 1, 1, 0, 1, 1, 0, 1, 0, 1, 0, 1, 1, 1]
        (Shared.init (⟨[]⟩ : Heap Nat Nat) Map.zero twoWorkers)).workers 0).loaded
      = [(20, true)] ∧
    ((runWorkers [0, 1, 0, 0, 1, 0, 0, 1, 1, 0, 1, 1, 0, 1, 0, 1, 0, 1, 1, 1]
        (Shared.init (⟨[]⟩ : Heap Nat Nat) Map.zero twoWorkers)).heap,
      (runWorkers [0, 1, 0, 0, 1, 0, 0, 1, 1, 0, 1, 1, 0, 1, 0, 1, 0, 1, 1, 1]
        (Shared.init (⟨[]⟩ : Heap Nat Nat) Map.zero twoWorkers)).m)
      = (serialRun (runWorkers [0, 1, 0, 0, 1, 0, 0, 1, 1, 0, 1, 1, 0, 1, 0, 1, 0, 1, 1, 1]
        (Shared.init (⟨[]⟩ : Heap Nat Nat) Map.zero twoWorkers)).history (⟨[]⟩, Map.zero)).1 ∧
    (∃ more, (runWorkers ([0, 1, 0, 0] ++ more)
        (Shared.init (⟨[]⟩ : Heap Nat Nat) Map.zero twoWorkers)).allReturned) := by
  have hdone : (runWorkers [0, 1, 0, 0, 1, 0, 0, 1, 1, 0, 1, 1, 0, 1, 0, 1, 0, 1, 1, 1]
        (Shared.init (⟨[]⟩ : Heap Nat Nat) Map.zero twoWorkers)).allReturned := by
    intro j
    rcases j with _ | _ | j
    · decide
    · decide
    · rw [runWorkers_done (j + 2) _ _ rfl rfl]
      exact ⟨rfl, rfl⟩
  have hfin : ∀ j, 2 ≤ j → twoWorkers j = [] := by
    intro j hj
    rcases j with _ | _ | j
    · omega
    · omega
    · rfl
  exact ⟨hdone, hfin, by decide, by decide,
    ((concurrent_calls_serialize (⟨[]⟩ : Heap Nat Nat) Map.zero twoWorkers
      [0, 1, 0, 0, 1, 0, 0, 1, 1, 0, 1, 1, 0, 1, 0, 1, 0, 1, 1, 1]).2.2.2.2.1 hdone).2,
    (concurrent_calls_serialize (⟨[]⟩ : Heap Nat Nat) Map.zero twoWorkers
      [0, 1, 0, 0]).2.2.2.2.2.2 2 hfin⟩

end Tools
